import Mathlib

/-!
# go-creator: cache gating, sidecar hash store and fan-out pipeline

A shallow embedding of `internal/text/text.go`, `internal/audio/audio.go`,
`internal/video/video.go` and of `extractSpeakerNotes` of
`internal/services/googleslides.go`.

Modelling conventions

* A Go `string` is a Lean `String`; a Go slice is a `List`.
* The file system is a finite map from paths to file contents (`FS`).  Only
  files are tracked: directory creation (`os.Mkdir`) and permission failures of
  `os.Create` are outside the model, which covers the runs in which the data
  directory is present and writable.
* External collaborators are parameters: the SHA-256 function of
  `crypto/sha256` (`Sha256`), the OpenAI client (`Client`), and the `ffmpeg`
  process (`Encoder`).
* Every backend call, file creation and external command is recorded in a
  trace, so that "was the backend invoked" is a statement about the trace.
* Goroutines of one `sync.WaitGroup` work on disjoint paths and slice slots.
  The definitions named after the Go functions run them one after the other in
  ordinal order; where a statement depends on the order in which they run, the
  schedule is a parameter (`audioWorkersInOrder`, `translateWorkersScheduled`,
  `step`) and the statement is about every schedule.
* The language goroutines of `GenerateTexts` read `t.Texts[j]`.  With the input
  language among the output languages that slot is filled before they start.
  Without it `j` is 0 and they race with the goroutine that fills slot 0; the
  run in index order is then exact only for a single output language, and the
  statements about `GenerateTexts` are confined to these two cases.
* `os.Exit(1)` and runtime panics are the `Except.error` outcome.
-/

namespace GoCreator

/-! ## Hash identity (`text.go`, `SlideText.Hash`) -/

/-- One octet. -/
abbrev Byte := Fin 256

/-- The value of `sha256.Sum256`: Go's `[32]byte`. -/
structure Digest where
  bytes : List Byte
  size : bytes.length = 32

/-- The SHA-256 function of `crypto/sha256`, applied to the bytes of a string.
`sha256.Sum256(b)` and `h := sha256.New(); h.Write(b); h.Sum(nil)` both compute it. -/
abbrev Sha256 := String → Digest

/-- The table `hextable` of `encoding/hex`. -/
def hextable : List Char := "0123456789abcdef".data

/-- The table `ldigits` of `fmt`, used by the verb `%x`. -/
def ldigits : List Char := "0123456789abcdefx".data

/-- Embeds `hex.EncodeToString`: every byte `v` becomes `hextable[v>>4]`, `hextable[v&0x0f]`. -/
def EncodeToString (src : List Byte) : String :=
  String.mk (src.flatMap fun v => [hextable.getD (v.val >>> 4) '0', hextable.getD (v.val &&& 0x0f) '0'])

/-- Embeds `fmt.Sprintf("%x", b)` for a byte array `b`: every byte `c` becomes
`ldigits[c>>4]`, `ldigits[c&0xF]`. -/
def SprintfHex (b : List Byte) : String :=
  String.mk (b.flatMap fun c => [ldigits.getD (c.val >>> 4) '0', ldigits.getD (c.val &&& 0xF) '0'])

/-- Embeds `SlideText` of `text.go`. -/
structure SlideText where
  Text : String
deriving DecidableEq, Repr

/-- Embeds `NewSlideText`. -/
def NewSlideText (text : String) : SlideText := { Text := text }

/-- Embeds `SlideText.Hash`: `hex.EncodeToString` of the SHA-256 digest of `[]byte(s.Text)`. -/
def SlideText.Hash (sha : Sha256) (s : SlideText) : String :=
  EncodeToString (sha s.Text).bytes

/-- A lowercase hexadecimal character. -/
def IsLowerHex (c : Char) : Prop := c ∈ hextable

instance (c : Char) : Decidable (IsLowerHex c) := by unfold IsLowerHex; infer_instance

/-- A fingerprint as `SlideText.Hash` produces it: 64 lowercase hexadecimal characters. -/
def IsHexDigest (h : String) : Prop := h.length = 64 ∧ ∀ c ∈ h.data, IsLowerHex c

instance (h : String) : Decidable (IsHexDigest h) := by unfold IsHexDigest; infer_instance

/-! ## Files, paths and the trace of effects -/

/-- The files of the project directory: path to content. -/
abbrev FS := String → Option String

/-- An effect that leaves the process. -/
inductive Event where
  /-- `Chat.Completions.New` was called with this user message. -/
  | chat (prompt : String)
  /-- `Audio.Speech.New` was called with this input. -/
  | speech (input : String)
  /-- `os.Create` of this path. -/
  | create (path : String)
  /-- An external command was run, program name first. -/
  | exec (args : List String)
deriving DecidableEq, Repr

/-- The state threaded through a run: the files and the effects so far. -/
structure World where
  fs : FS
  trace : List Event

/-- Records an effect. -/
def World.log (w : World) (e : Event) : World := { w with trace := w.trace ++ [e] }

/-- Embeds `os.Create(path)` followed by the writes up to `Close`: the file holds `content`. -/
def World.writeFile (w : World) (path content : String) : World :=
  { fs := fun p => if p = path then some content else w.fs p,
    trace := w.trace ++ [Event.create path] }

deriving instance DecidableEq for Except

/-- How the process ends other than by returning. -/
inductive Fatal where
  /-- The call `os.Exit(1)` after a logged error. -/
  | exit (msg : String)
  /-- A runtime panic (index out of range, nil dereference). -/
  | panic (msg : String)
deriving DecidableEq, Repr

/-- The elements joined by the separator. -/
def joinPath : List String → String
  | [] => ""
  | [a] => a
  | a :: b :: rest => a ++ "/" ++ joinPath (b :: rest)

/-- Embeds `filepath.Join`: the non-empty elements joined by `/`.  Go also applies
`filepath.Clean`, which respells a path without changing the file it names;
the model keeps the spelling, so elements are meant to be plain names. -/
def Join (elems : List String) : String := joinPath (elems.filter fun e => e ≠ "")

/-- Embeds `bufio.MaxScanTokenSize`. -/
def MaxScanTokenSize : Nat := 64 * 1024

/-- The lines of a file as `bufio.ScanLines` cuts them: every `\n` ends a line,
a last line without `\n` counts when it is not empty. -/
def rawLines : List Char → List (List Char)
  | [] => []
  | c :: rest =>
    if c = '\n' then [] :: rawLines rest
    else match rawLines rest with
      | [] => [[c]]
      | l :: ls => (c :: l) :: ls

/-- The helper `dropCR` of `bufio`: one trailing `\r` is dropped. -/
def dropCR (l : List Char) : List Char :=
  if l.getLast? = some '\r' then l.dropLast else l

/-- The tokens that `for scanner.Scan() { ... scanner.Text() }` yields on a file
with a default `bufio.Scanner`: the lines without their end-of-line marker; the
scan stops at the first line that does not fit the buffer of `MaxScanTokenSize`
bytes (the error is not looked at by the callers). -/
def scanLines (content : String) : List String :=
  ((rawLines content.data).takeWhile fun l => (String.mk l).utf8ByteSize < MaxScanTokenSize).map
    fun l => String.mk (dropCR l)

/-! ## `text.go` -/

/-- Embeds `Text` of `text.go`: one language of the narration.  The `OpenAI` field is the
`Client` parameter of the functions below. -/
structure Text where
  Lang : String
  RootDir : String
  DataDir : String
  CacheDir : String
  LangDir : String
  AudioDir : String
  TextDir : String
  SlidesText : List SlideText
  Hashes : List String
deriving DecidableEq, Repr

/-- Embeds `NewText`: the paths of a language below `rootDir`, no segments yet.  The
directories the Go code creates here are not tracked. -/
def NewText (rootDir lang : String) : Text :=
  let dataDir := Join [rootDir, "data"]
  let cacheDir := Join [dataDir, "cache"]
  let langDir := Join [cacheDir, lang]
  let audioDir := Join [langDir, "audio"]
  let textDir := Join [langDir, "text"]
  { Lang := lang, RootDir := rootDir, DataDir := dataDir, CacheDir := cacheDir,
    LangDir := langDir, AudioDir := audioDir, TextDir := textDir,
    SlidesText := [], Hashes := [] }

/-- The OpenAI client, as far as the pipeline uses it. -/
structure Client where
  /-- `Chat.Completions.New` with one user message: the `Message.Content` of the
  choices of the response, or the error. -/
  chat : String → Except String (List String)
  /-- `Audio.Speech.New` with this input: the response body, or the error. -/
  speech : String → Except String String

/-- Embeds `Text.GenerateCacheHashes`: the lines of `<directory>/hashes`; when the file is
absent (or cannot be opened) `make([]string, len(t.SlidesText))`. -/
def Text.GenerateCacheHashes (t : Text) (fs : FS) (directory : String) : List String :=
  match fs (Join [directory, "hashes"]) with
  | none => List.replicate t.SlidesText.length ""
  | some content => scanLines content

/-- The body of the scanner loop of `loadTextInput` for one line; the state is
`(t.SlidesText, t.Hashes, slideText)`. -/
def loadTextInputStep (sha : Sha256) (st : List SlideText × List String × String) (line : String) :
    List SlideText × List String × String :=
  if line = "-" then
    let newSlideText := NewSlideText st.2.2
    (st.1 ++ [newSlideText], st.2.1 ++ [newSlideText.Hash sha], "")
  else
    (st.1, st.2.1, st.2.2 ++ (line ++ "\n"))

/-- Embeds `Text.loadTextInput` on the content of the opened file. -/
def Text.loadTextInput (sha : Sha256) (t : Text) (textFile : String) : Text :=
  let st := (scanLines textFile).foldl (loadTextInputStep sha) (t.SlidesText, [], "")
  let slides := st.1 ++ [NewSlideText st.2.2]
  { t with
    SlidesText := slides,
    Hashes := st.2.1 ++ [(slides.getLast (by simp [slides])).Hash sha] }

/-- The content `saveTextFile` writes to `texts.txt`: segments separated by `\n-\n`. -/
def textFileContent : List SlideText → String
  | [] => ""
  | [s] => s.Text
  | s :: s2 :: rest => (s.Text ++ "\n-\n") ++ textFileContent (s2 :: rest)

/-- The content `saveTextFile` writes to `hashes`: `t.Hashes[i]` for every index
`i` of `slidesText`, separated by `\n`; `none` when `t.Hashes` is too short (a panic). -/
def hashFileContent : Nat → List String → Nat → Option String
  | 0, _, _ => some ""
  | 1, hashes, i => hashes[i]?
  | n + 2, hashes, i =>
    match hashes[i]?, hashFileContent (n + 1) hashes (i + 1) with
    | some h, some r => some ((h ++ "\n") ++ r)
    | _, _ => none

/-- Embeds `Text.saveTextFile`. -/
def Text.saveTextFile (t : Text) (slidesText : List SlideText) (w : World) :
    Except Fatal Unit × World :=
  let textFile := Join [t.TextDir, "texts.txt"]
  let hashFile := Join [t.TextDir, "hashes"]
  match hashFileContent slidesText.length t.Hashes 0 with
  | none => (.error (.panic "index out of range"), w)
  | some hashes =>
    (.ok (), (w.writeFile textFile (textFileContent slidesText)).writeFile hashFile hashes)

/-- The user message of the translation request. -/
def translatePrompt (text lang : String) : String :=
  "Translate '" ++ text ++ "' to " ++ lang ++ " and don't return anything else than the translation."

/-- The goroutines of `translateText`, from ordinal `i` on, run one after the
other in ordinal order: each one asks the backend for its segment, whatever was
translated before, and stores the answer and the fingerprint of the input segment
at its ordinal.  This is one schedule of the code, which sends the requests in
any order and may have sent all of them when a failing call ends the process;
`translateWorkersScheduled` takes the schedule as a parameter; under
`ordinalSchedule` it is this run (`translateTextScheduled_ordinal`), and the text
of a completed run is the same under every schedule
(`translateTextScheduled_ok`). -/
def translateWorkers (client : Client) (lang : String) (inputHashes : List String) :
    List SlideText → Nat → World → Except Fatal (List (SlideText × String)) × World
  | [], _, w => (.ok [], w)
  | slideText :: rest, i, w =>
    let w1 := w.log (Event.chat (translatePrompt slideText.Text lang))
    match client.chat (translatePrompt slideText.Text lang) with
    | .error e => (.error (.exit ("Translation error: " ++ e)), w1)
    | .ok choices =>
      match choices.head?, inputHashes[i]? with
      | some translatedText, some h =>
        match translateWorkers client lang inputHashes rest (i + 1) w1 with
        | (.ok r, w2) => (.ok ((NewSlideText translatedText, h) :: r), w2)
        | (.error e, w2) => (.error e, w2)
      | _, _ => (.error (.panic "index out of range"), w1)

/-- Embeds `Text.translateText`. -/
def Text.translateText (t : Text) (client : Client) (inputText : Text) (w : World) :
    Except Fatal Text × World :=
  match translateWorkers client t.Lang inputText.Hashes inputText.SlidesText 0 w with
  | (.error e, w1) => (.error e, w1)
  | (.ok r, w1) =>
    let t1 := { t with SlidesText := r.map Prod.fst, Hashes := r.map Prod.snd }
    match t1.saveTextFile t1.SlidesText w1 with
    | (.error e, w2) => (.error e, w2)
    | (.ok (), w2) => (.ok t1, w2)

/-- Embeds `Text.GenerateText`: `inputText` is `none` for Go's `nil`.  A returned `error`
is fatal in the only caller, so both are the `error` outcome here. -/
def Text.GenerateText (sha : Sha256) (client : Client) (t : Text) (inputText : Option Text)
    (w : World) : Except Fatal Text × World :=
  let textFilePath :=
    match inputText with
    | none => Join [t.DataDir, "texts.txt"]
    | some _ => Join [t.TextDir, "texts.txt"]
  match w.fs textFilePath with
  | none => (.error (.exit ("Failed to generate text: open " ++ textFilePath)), w)
  | some textFile =>
    match inputText with
    | some inp => t.translateText client inp w
    | none => (.ok (t.loadTextInput sha textFile), w)

set_option linter.dupNamespace false in
/-- Embeds `Texts` of `text.go`; a slot of `Texts` is `none` for a `nil` pointer. -/
structure Texts where
  LangIn : String
  LangsOut : List String
  DataDir : String
  Texts : List (Option Text)
  RootDir : String
deriving DecidableEq

/-- The second loop of `GenerateTexts` from index `i` on, its goroutines run one
after the other in index order: every output language other than the input
language is translated from the text in slot `j`.  When the input language is
among the output languages, slot `j` is filled before the goroutines start and
none of them writes it, so the order does not matter.  Otherwise `j` is 0 and
slot 0 is filled by the first goroutine: a later goroutine that reads it earlier
finds `nil` and loads the narration instead, which this order never shows; it is
exact for a single output language only. -/
def generateTextsLoop (sha : Sha256) (client : Client) (rootDir langIn : String) (j : Nat) :
    List String → Nat → List (Option Text) → World → Except Fatal (List (Option Text)) × World
  | [], _, slots, w => (.ok slots, w)
  | langOut :: rest, i, slots, w =>
    if langIn ≠ langOut then
      let slots1 := slots.set i (some (NewText rootDir langOut))
      match (NewText rootDir langOut).GenerateText sha client (slots1.getD j none) w with
      | (.error e, w1) => (.error e, w1)
      | (.ok t, w1) =>
        generateTextsLoop sha client rootDir langIn j rest (i + 1) (slots1.set i (some t)) w1
    else
      generateTextsLoop sha client rootDir langIn j rest (i + 1) slots w

/-- Embeds `Texts.GenerateTexts`. -/
def Texts.GenerateTexts (sha : Sha256) (client : Client) (t : GoCreator.Texts) (w : World) :
    Except Fatal GoCreator.Texts × World :=
  let slots := List.replicate t.LangsOut.length (none : Option Text)
  match t.LangsOut.indexOf? t.LangIn with
  | some i =>
    match (NewText t.RootDir t.LangIn).GenerateText sha client none w with
    | (.error e, w1) => (.error e, w1)
    | (.ok text, w1) =>
      match generateTextsLoop sha client t.RootDir t.LangIn i t.LangsOut 0
          (slots.set i (some text)) w1 with
      | (.error e, w2) => (.error e, w2)
      | (.ok slots2, w2) => (.ok { t with Texts := slots2 }, w2)
  | none =>
    match generateTextsLoop sha client t.RootDir t.LangIn 0 t.LangsOut 0 slots w with
    | (.error e, w2) => (.error e, w2)
    | (.ok slots2, w2) => (.ok { t with Texts := slots2 }, w2)

/-! ## `audio.go` -/

/-- Embeds `Model` of `audio.go`. -/
abbrev Model := String

/-- The model constant for OpenAI text-to-speech. -/
def OpenAITTS : Model := "openai"

/-- The model constant for Google text-to-speech. -/
def GoogleTTS : Model := "google"

/-- Embeds `GenerateAudioOpenAI`: nothing is done when the digest of the text equals
`cachedHash`; otherwise the speech backend is called and its body is written to
`speechFilePath`. -/
def GenerateAudioOpenAI (sha : Sha256) (client : Client)
    (textContent speechFilePath cachedHash : String) (w : World) : Except String Unit × World :=
  let newHash := SprintfHex (sha textContent).bytes
  if newHash = cachedHash then (.ok (), w)
  else
    let w1 := w.log (Event.speech textContent)
    match client.speech textContent with
    | .error e => (.error e, w1)
    | .ok body => (.ok (), w1.writeFile speechFilePath body)

/-- The outcome of the cache test of a segment. -/
inductive Decision where
  /-- The artifact at this path is taken as it is. -/
  | Reuse (existingArtifactPath : String)
  /-- The artifact is produced again. -/
  | Recompute
deriving DecidableEq, Repr

/-- The path of the audio of ordinal `j`. -/
def audioPath (audioDir : String) (j : Nat) : String := Join [audioDir, toString j ++ ".mp3"]

/-- The stored fingerprint that `GenerateAudios` pairs with ordinal `j`:
`cachedHashes[j]` when `j < len(cachedHashes)`, the empty string otherwise. -/
def cachedHashAt (cachedHashes : List String) (j : Nat) : String :=
  if h : j < cachedHashes.length then cachedHashes[j] else ""

/-- The cache test of `GenerateAudios` for ordinal `j`: the comparison
`currentHash == cachedHash` at the head of the segment goroutine. -/
def audioGate (audioDir : String) (j : Nat) (currentHash : String) (cachedHashes : List String) :
    Decision :=
  if currentHash = cachedHashAt cachedHashes j then Decision.Reuse (audioPath audioDir j)
  else Decision.Recompute

/-- The segment goroutine of `GenerateAudios` for ordinal `j`; the value is what
`results[j]` holds when it is done (the empty string when it was not assigned). -/
def audioSegment (sha : Sha256) (client : Client) (audioModel : Model) (txt : Text)
    (audioDir : String) (cachedHashes : List String) (j : Nat) (currentHash : String) (w : World) :
    Except Fatal String × World :=
  match audioGate audioDir j currentHash cachedHashes with
  | .Reuse path => (.ok path, w)
  | .Recompute =>
    if audioModel = OpenAITTS then
      match txt.SlidesText[j]? with
      | none => (.error (.panic "index out of range"), w)
      | some slide =>
        match GenerateAudioOpenAI sha client slide.Text (audioPath audioDir j)
            (cachedHashAt cachedHashes j) w with
        | (.error e, w1) => (.error (.exit ("Failed to generate audio: " ++ e)), w1)
        | (.ok (), w1) => (.ok (audioPath audioDir j), w1)
    else if audioModel = GoogleTTS then (.ok "", w)
    else (.error (.exit "Unsupported audio model"), w)

/-- The loop over `currentHashes` in `GenerateAudios`, from ordinal `j` on. -/
def audioWorkers (sha : Sha256) (client : Client) (audioModel : Model) (txt : Text)
    (audioDir : String) (cachedHashes : List String) :
    List String → Nat → World → Except Fatal (List String) × World
  | [], _, w => (.ok [], w)
  | currentHash :: rest, j, w =>
    match audioSegment sha client audioModel txt audioDir cachedHashes j currentHash w with
    | (.error e, w1) => (.error e, w1)
    | (.ok r, w1) =>
      match audioWorkers sha client audioModel txt audioDir cachedHashes rest (j + 1) w1 with
      | (.error e, w2) => (.error e, w2)
      | (.ok rs, w2) => (.ok (r :: rs), w2)

/-- What the buffered writer of `GenerateAudios` holds when it is flushed:
every current hash followed by `\n`. -/
def audioHashesContent : List String → String
  | [] => ""
  | currentHash :: rest => (currentHash ++ "\n") ++ audioHashesContent rest

/-- The language goroutine of `GenerateAudios`.  The stored hashes are read,
then the hashes file is truncated by `os.Create`; the new content reaches the
file when the writer is flushed after the segment goroutines have joined.  For a
run that ends in a fatal error the model leaves the file as truncated: what a
full buffer of the writer (4096 bytes) hands to the file before the flush is
not tracked. -/
def generateAudiosLang (sha : Sha256) (client : Client) (audioModel : Model) (txt : Text)
    (w : World) : Except Fatal (List String) × World :=
  let audioDir := Join [txt.DataDir, "cache", txt.Lang, "audio"]
  let cachedHashes := txt.GenerateCacheHashes w.fs audioDir
  let currentHashes := txt.Hashes
  let hashFile := Join [audioDir, "hashes"]
  let w1 := w.writeFile hashFile ""
  match audioWorkers sha client audioModel txt audioDir cachedHashes currentHashes 0 w1 with
  | (.error e, w2) => (.error e, w2)
  | (.ok results, w2) =>
    (.ok results,
      { w2 with fs := fun p => if p = hashFile then some (audioHashesContent currentHashes)
                               else w2.fs p })

/-- Assignment `m[key] = value` on a Go map kept as a list of entries. -/
def mapInsert (m : List (String × List String)) (key : String) (value : List String) :
    List (String × List String) :=
  if m.any (fun e => e.1 = key) then m.map (fun e => if e.1 = key then (key, value) else e)
  else m ++ [(key, value)]

/-- The loop over `texts.Texts` in `GenerateAudios`. -/
def generateAudiosLoop (sha : Sha256) (client : Client) (audioModel : Model) :
    List (Option Text) → List (String × List String) → World →
      Except Fatal (List (String × List String)) × World
  | [], m, w => (.ok m, w)
  | none :: _, _, w => (.error (.panic "nil pointer dereference"), w)
  | some txt :: rest, m, w =>
    match generateAudiosLang sha client audioModel txt w with
    | (.error e, w1) => (.error e, w1)
    | (.ok results, w1) =>
      generateAudiosLoop sha client audioModel rest (mapInsert m txt.Lang results) w1

/-- Embeds `GenerateAudios`: the map from language to audio paths. -/
def GenerateAudios (sha : Sha256) (client : Client) (texts : Texts) (audioModel : Model)
    (w : World) : Except Fatal (List (String × List String)) × World :=
  generateAudiosLoop sha client audioModel texts.Texts [] w

/-! ## `video.go` -/

/-- The `ffmpeg` program, as far as the pipeline uses it. -/
structure Encoder where
  /-- What `GetImageDimensions` makes of the output of its probe command: width
  and height, or the error. -/
  dimensions : String → Except String (Int × Int)
  /-- Whether `cmd.Run()` of an `ffmpeg` command with these arguments succeeds. -/
  run : List String → Bool

/-- Embeds `GetImageDimensions`: the probe command is run; reading its output is the
encoder parameter. -/
def GetImageDimensions (enc : Encoder) (imagePath : String) (w : World) :
    Except String (Int × Int) × World :=
  (enc.dimensions imagePath,
    w.log (Event.exec ["ffmpeg", "-i", imagePath, "-vf", "scale", "-vframes", "1", "-f", "null", "-"]))

/-- The first loop of `BuildFFmpegConcatCommand`: `-i <video>` for every file. -/
def concatInputs : List String → List String
  | [] => []
  | video :: rest => "-i" :: video :: concatInputs rest

/-- The second loop of `BuildFFmpegConcatCommand`: `[i:v][i:a]` for the `n`
indices from `i` on. -/
def concatStreams : Nat → Nat → String
  | 0, _ => ""
  | n + 1, i => ("[" ++ toString i ++ ":v][" ++ toString i ++ ":a]") ++ concatStreams n (i + 1)

/-- Embeds `BuildFFmpegConcatCommand`: the command line, program name first. -/
def BuildFFmpegConcatCommand (videoFiles : List String) (finalOutput : String) : List String :=
  let args := ["-y"] ++ concatInputs videoFiles
  let filterComplex := concatStreams videoFiles.length 0 ++
    ("concat=n=" ++ toString videoFiles.length ++ ":v=1:a=1[outv][outa]")
  let args := args ++ ["-filter_complex", filterComplex]
  let args := args ++ ["-map", "[outv]", "-map", "[outa]", finalOutput]
  "ffmpeg" :: args

/-- The command that renders one segment from a slide and its audio. -/
def renderCommand (width height iw ih : Int) (slide audio outputVideoPath : String) : List String :=
  let scaleFilter := "scale=" ++ toString width ++ ":" ++ toString height ++
    ":force_original_aspect_ratio=decrease"
  let padFilter := "pad=" ++ toString width ++ ":" ++ toString height ++
    ":(ow-iw)/2:(oh-ih)/2,setsar=1"
  let filterComplex := scaleFilter ++ "," ++ padFilter
  if width ≠ iw ∨ height ≠ ih then
    ["ffmpeg", "-loop", "1", "-i", slide, "-i", audio, "-vf", filterComplex, "-c:v", "libx264",
      "-tune", "stillimage", "-c:a", "mp3", "-b:a", "192k", "-pix_fmt", "yuv420p", "-shortest",
      outputVideoPath]
  else
    ["ffmpeg", "-loop", "1", "-i", slide, "-i", audio, "-c:v", "libx264",
      "-tune", "stillimage", "-c:a", "mp3", "-b:a", "192k", "-pix_fmt", "yuv420p", "-shortest",
      outputVideoPath]

/-- The name of the rendered segment of loop index `i`. -/
def outputVideoPath (videoDir audioLang : String) (i : Nat) : String :=
  Join [videoDir, "slide" ++ toString (i + 1) ++ "_video_" ++ audioLang ++ ".mp4"]

/-- The loop `for i := 0; i < len(slides); i++` of `GenerateVideos`, from index
`i` on with `remaining` slides to go; the value is `videoFiles`. -/
def renderSegments (enc : Encoder) (width height : Int) (videoDir audioLang : String)
    (slides audioList : List String) :
    Nat → Nat → List String → World → Except Fatal (List String) × World
  | 0, _, videoFiles, w => (.ok videoFiles, w)
  | remaining + 1, i, videoFiles, w =>
    match slides[i]?, audioList[i]? with
    | some slide, some audio =>
      match GetImageDimensions enc slide w with
      | (.error e, w1) => (.error (.exit ("Failed to get image dimensions: " ++ e)), w1)
      | (.ok (iw, ih), w1) =>
        let cmd := renderCommand width height iw ih slide audio (outputVideoPath videoDir audioLang i)
        let w2 := w1.log (Event.exec cmd)
        if enc.run cmd then
          renderSegments enc width height videoDir audioLang slides audioList remaining (i + 1)
            (videoFiles ++ [outputVideoPath videoDir audioLang i]) w2
        else (.error (.exit "Failed to generate video"), w2)
    | _, _ => (.error (.panic "index out of range"), w)

/-- The body of the loop over `audiosLangToPath` in `GenerateVideos` for one
language; the value is the list handed to `BuildFFmpegConcatCommand`. -/
def generateVideosLang (enc : Encoder) (width height : Int) (slides : List String)
    (cacheDir dataDir audioLang : String) (audioList : List String) (w : World) :
    Except Fatal (List String) × World :=
  let langDir := Join [cacheDir, audioLang]
  let videoDir := Join [langDir, "videos"]
  if slides.length ≠ audioList.length then
    (.error (.exit "Slide and audio count mismatch"), w)
  else
    match renderSegments enc width height videoDir audioLang slides audioList slides.length 0 [] w with
    | (.error e, w1) => (.error e, w1)
    | (.ok videoFiles, w1) =>
      let outputDir := Join [dataDir, "out"]
      let finalOutput := Join [outputDir, "output-" ++ audioLang ++ ".mp4"]
      let concatCmd := BuildFFmpegConcatCommand videoFiles finalOutput
      let w2 := w1.log (Event.exec concatCmd)
      if enc.run concatCmd then (.ok videoFiles, w2)
      else (.error (.exit "Failed to concatenate videos"), w2)

/-- The loop over the entries of `audiosLangToPath`, in the order the map
iteration yields them; the value collects every language with its `videoFiles`. -/
def generateVideosLoop (enc : Encoder) (width height : Int) (slides : List String)
    (cacheDir dataDir : String) :
    List (String × List String) → World → Except Fatal (List (String × List String)) × World
  | [], w => (.ok [], w)
  | (audioLang, audioList) :: rest, w =>
    match generateVideosLang enc width height slides cacheDir dataDir audioLang audioList w with
    | (.error e, w1) => (.error e, w1)
    | (.ok videoFiles, w1) =>
      match generateVideosLoop enc width height slides cacheDir dataDir rest w1 with
      | (.error e, w2) => (.error e, w2)
      | (.ok r, w2) => (.ok ((audioLang, videoFiles) :: r), w2)

/-- Embeds `GenerateVideos`; `audiosLangToPath` lists the entries of the map in the
order of the iteration. -/
def GenerateVideos (enc : Encoder) (slides : List String)
    (audiosLangToPath : List (String × List String)) (dataDir : String) (w : World) :
    Except Fatal (List (String × List String)) × World :=
  match slides with
  | [] => (.error (.panic "index out of range"), w)
  | firstSlide :: _ =>
    match GetImageDimensions enc firstSlide w with
    | (.error e, w1) => (.error (.exit ("Failed to get image dimensions: " ++ e)), w1)
    | (.ok (width, height), w1) =>
      let width := if width % 2 ≠ 0 then width - 1 else width
      let height := if height % 2 ≠ 0 then height - 1 else height
      let cacheDir := Join [dataDir, "cache"]
      generateVideosLoop enc width height slides cacheDir dataDir audiosLangToPath w1

/-! ## Auxiliary notions for the statements -/

/-- The strings separated by `\n`. -/
def joinLines : List String → String
  | [] => ""
  | [h] => h
  | h :: h2 :: rest => (h ++ "\n") ++ joinLines (h2 :: rest)

/-- A string that a `bufio.Scanner` gives back as it was written on a line of its
own: no `\n` inside, no `\r` at the end, shorter than the scanner buffer. -/
def CleanLine (h : String) : Prop :=
  '\n' ∉ h.data ∧ h.data.getLast? ≠ some '\r' ∧ h.utf8ByteSize < MaxScanTokenSize

instance (h : String) : Decidable (CleanLine h) := by unfold CleanLine; infer_instance

/-- The value of a decimal numeral read after the value `acc` of the digits before it. -/
def decimalValue (l : List Char) (acc : Nat) : Nat :=
  l.foldl (fun a c => 10 * a + (c.toNat - 48)) acc

/-- The effects a segment goroutine of ordinal `j` may have: the creation of its
audio file and a speech request for its text. -/
def SegmentEvent (txt : Text) (audioDir : String) (j : Nat) (e : Event) : Prop :=
  e = Event.create (audioPath audioDir j) ∨
    ∃ slide, txt.SlidesText[j]? = some slide ∧ e = Event.speech slide.Text

/-- What `GenerateTexts` establishes for the text of the output language `lang`
when `H` are the fingerprints of the input narration. -/
def GoodText (rootDir : String) (H : List String) (lang : String) (txt : Text) : Prop :=
  txt.Lang = lang ∧ txt.DataDir = Join [rootDir, "data"] ∧ txt.Hashes = H ∧
    txt.SlidesText.length = H.length

/-- Whether an effect is a request to the translation backend. -/
def isChat : Event → Bool
  | .chat _ => true
  | _ => false

/-- Whether an effect is a request to the speech backend. -/
def isSpeech : Event → Bool
  | .speech _ => true
  | _ => false

/-- The files of the text cache: `texts.txt` and `hashes` of some language. -/
def TextPath (rootDir p : String) : Prop :=
  ∃ lang, p = Join [(NewText rootDir lang).TextDir, "texts.txt"] ∨
    p = Join [(NewText rootDir lang).TextDir, "hashes"]

/-- The state of the slots of `Texts.Texts` when the second loop of
`GenerateTexts` is about to handle index `i`: the input language (slot `i0`, if
any) and the other languages before `i` are filled, the rest is `nil`. -/
def SlotsInv (rootDir langIn : String) (langs : List String) (H : List String) (i0 : Option Nat)
    (i : Nat) (slots : List (Option Text)) : Prop :=
  slots.length = langs.length ∧
  ∀ k lang, langs[k]? = some lang →
    (((k < i ∧ lang ≠ langIn) ∨ i0 = some k) →
      ∃ txt, slots[k]? = some (some txt) ∧ GoodText rootDir H lang txt) ∧
    (¬ ((k < i ∧ lang ≠ langIn) ∨ i0 = some k) → slots[k]? = some none)

/-- The fingerprints that every language carries after `GenerateTexts`: those of
the segments of `data/texts.txt` when the input language is among the output
languages (and the file can be read), none otherwise. -/
def inputHashes (sha : Sha256) (t : Texts) (fs : FS) : List String :=
  match t.LangsOut.indexOf? t.LangIn, fs (Join [Join [t.RootDir, "data"], "texts.txt"]) with
  | some _, some content => ((NewText t.RootDir t.LangIn).loadTextInput sha content).Hashes
  | _, _ => []

/-- The audio sidecar of a language. -/
def audioHashesPath (dataDir lang : String) : String :=
  Join [Join [dataDir, "cache", lang, "audio"], "hashes"]

/-! ## Concrete inputs used by the examples -/

/-- A stand-in for SHA-256 on the examples: 32 bytes that spell the length of
the text and its first character. -/
def exampleSha : Sha256 := fun s =>
  ⟨List.replicate 31 (Fin.ofNat s.length) ++ [Fin.ofNat (s.data.headD 'x').toNat], by simp⟩

/-- A client whose backends always answer. -/
def exampleClient : Client :=
  { chat := fun p => .ok ["<" ++ p ++ ">"], speech := fun t => .ok ("mp3:" ++ t) }

/-- An encoder that always succeeds on 640x480 images. -/
def exampleEncoder : Encoder :=
  { dimensions := fun _ => .ok (640, 480), run := fun _ => true }

/-- A narration file with the three segments `A`, `B`, `C`. -/
def exampleNarration : String := "A\n-\nB\n-\nC"

/-- The input language `en` loaded from `exampleNarration`. -/
def exampleText : Text := (NewText "" "en").loadTextInput exampleSha exampleNarration

/-- A project directory in which the audio sidecar of `en` holds the current
fingerprints and no audio file exists. -/
def sidecarOnlyWorld : World :=
  { fs := fun p =>
      if p = "data/cache/en/audio/hashes" then some (audioHashesContent exampleText.Hashes)
      else none,
    trace := [] }

/-- The example narration after segment 1 was edited from `B` to `B2`. -/
def changedNarration : String := "A\n-\nB2\n-\nC"

/-- The input language `en` loaded from `changedNarration`. -/
def changedText : Text := (NewText "" "en").loadTextInput exampleSha changedNarration

/-- The input language of a narration with the single segment `Hello`. -/
def helloText : Text := (NewText "" "en").loadTextInput exampleSha "Hello"

/-- A client whose translation of every request is `Salut` on a line. -/
def salutClient : Client :=
  { chat := fun _ => .ok ["Salut\n"], speech := fun t => .ok ("mp3:" ++ t) }

/-- The language `fr` as `translateText` leaves it from `helloText` with
`salutClient`: the text is the translation, the fingerprint is the one of the
input segment. -/
def salutText : Text :=
  { NewText "" "fr" with
    SlidesText := [NewSlideText "Salut\n"],
    Hashes := [(NewSlideText "Hello\n").Hash exampleSha] }

/-- A project directory whose `fr` audio sidecar was written by a run on a
narration with the single segment `Salut`. -/
def salutWorld : World :=
  { fs := fun p =>
      if p = "data/cache/fr/audio/hashes" then
        some (audioHashesContent [(NewSlideText "Salut\n").Hash exampleSha])
      else if p = "data/cache/fr/text/texts.txt" then some "Salut\n"
      else none,
    trace := [] }

/-- A project directory with `exampleNarration` as input in which the `fr`
translation is cached and the `fr` text sidecar holds the fingerprints of the
three input segments, as the text stage of a run leaves them. -/
def translatedWorld : World :=
  { fs := fun p =>
      if p = "data/texts.txt" then some exampleNarration
      else if p = "data/cache/fr/text/texts.txt" then some "<A>\n-\n<B>\n-\n<C>"
      else if p = "data/cache/fr/text/hashes" then some (joinLines exampleText.Hashes)
      else none,
    trace := [] }

/-- The configuration with input language `en` and output languages `en`, `fr`. -/
def exampleTexts : Texts :=
  { LangIn := "en", LangsOut := ["en", "fr"], DataDir := "data", Texts := [], RootDir := "" }

/-- The text stage of a first run with output languages `en` and `fr`. -/
def firstRunTexts : Except Fatal Texts × World :=
  exampleTexts.GenerateTexts exampleSha exampleClient translatedWorld

/-- The lines cut into groups at every line that is exactly `-`: the delimiter
lines are dropped, the groups keep the order of the file. -/
def splitSegments : List String → List (List String)
  | [] => [[]]
  | line :: rest =>
    if line = "-" then [] :: splitSegments rest
    else match splitSegments rest with
      | [] => [[line]]
      | seg :: segs => (line :: seg) :: segs

/-- The text of a segment: its lines, each followed by a newline. -/
def segmentText : List String → String
  | [] => ""
  | line :: rest => (line ++ "\n") ++ segmentText rest

/-- The segments of a narration given by its lines. -/
def parseSegments (lines : List String) : List String :=
  (splitSegments lines).map segmentText

/-- The segments with `cur` put in front of the first one. -/
def prefixFirst (cur : String) : List String → List String
  | [] => []
  | s :: ss => (cur ++ s) :: ss

/-- The segments that `GenerateTexts` loads for the input language: those of
`data/texts.txt` when the input language is among the output languages (and the
file can be read), none otherwise, because the file is then never loaded.  The
segments of the file itself are `narrationSlides`. -/
def inputSlides (sha : Sha256) (t : Texts) (fs : FS) : List SlideText :=
  match t.LangsOut.indexOf? t.LangIn, fs (Join [Join [t.RootDir, "data"], "texts.txt"]) with
  | some _, some content => ((NewText t.RootDir t.LangIn).loadTextInput sha content).SlidesText
  | _, _ => []

/-- A narration file whose first line has 65536 bytes, followed by a delimiter
line and a line `B`. -/
def longLineNarration : String := String.mk (List.replicate 65536 'a' ++ "\n-\nB".data)

/-! ## The segment goroutines in an arbitrary order -/

/-- The segment goroutines of `GenerateAudios` run to completion one after the
other in the order `order` (a list of ordinals); goroutine `j` stores its value in
`results[j]`.  `audioWorkers` is the order `0, 1, ...`. -/
def audioWorkersInOrder (sha : Sha256) (client : Client) (audioModel : Model) (txt : Text)
    (audioDir : String) (cachedHashes currentHashes : List String) :
    List Nat → List String → World → Except Fatal (List String) × World
  | [], results, w => (.ok results, w)
  | j :: rest, results, w =>
    match currentHashes[j]? with
    | none =>
      audioWorkersInOrder sha client audioModel txt audioDir cachedHashes currentHashes rest results w
    | some currentHash =>
      match audioSegment sha client audioModel txt audioDir cachedHashes j currentHash w with
      | (.error e, w1) => (.error e, w1)
      | (.ok r, w1) =>
        audioWorkersInOrder sha client audioModel txt audioDir cachedHashes currentHashes rest
          (results.set j r) w1

/-- The language goroutine of `GenerateAudios` with its segment goroutines run in
the order `order`.  The hashes are handed to the writer by the loop that starts
the goroutines, before and whatever the goroutines do. -/
def generateAudiosLangInOrder (sha : Sha256) (client : Client) (audioModel : Model) (txt : Text)
    (order : List Nat) (w : World) : Except Fatal (List String) × World :=
  let audioDir := Join [txt.DataDir, "cache", txt.Lang, "audio"]
  let cachedHashes := txt.GenerateCacheHashes w.fs audioDir
  let currentHashes := txt.Hashes
  let hashFile := Join [audioDir, "hashes"]
  let w1 := w.writeFile hashFile ""
  match audioWorkersInOrder sha client audioModel txt audioDir cachedHashes currentHashes order
      (List.replicate currentHashes.length "") w1 with
  | (.error e, w2) => (.error e, w2)
  | (.ok results, w2) =>
    (.ok results,
      { w2 with fs := fun p => if p = hashFile then some (audioHashesContent currentHashes)
                               else w2.fs p })

/-! ## Configurations without the input language among the output languages -/

/-- The configuration with input language `en` and the single output language `fr`. -/
def frOnlyTexts : Texts :=
  { LangIn := "en", LangsOut := ["fr"], DataDir := "data", Texts := [], RootDir := "" }

/-- A fresh project directory: `data/texts.txt` holds `exampleNarration`, nothing
else exists. -/
def freshWorld : World :=
  { fs := fun p => if p = "data/texts.txt" then some exampleNarration else none,
    trace := [] }

/-- The text stage for `frOnlyTexts` in a project directory where the cached `fr`
translation already exists. -/
def frOnlyRunTexts : Except Fatal Texts × World :=
  frOnlyTexts.GenerateTexts exampleSha exampleClient translatedWorld

/-- The audio stage that follows `frOnlyRunTexts`. -/
def frOnlyRunAudios : Except Fatal (List (String × List String)) × World :=
  GenerateAudios exampleSha exampleClient (frOnlyRunTexts.1.toOption.getD frOnlyTexts) OpenAITTS
    frOnlyRunTexts.2

/-! ## A run with the Google model -/

/-- The configuration with the input language `en` alone, loaded from
`exampleNarration`. -/
def enOnlyTexts : Texts :=
  { LangIn := "en", LangsOut := ["en"], DataDir := "data", Texts := [some exampleText],
    RootDir := "" }

/-- The audio stage with the model `GoogleTTS` in a project directory without any
audio file or sidecar. -/
def googleRunAudios : Except Fatal (List (String × List String)) × World :=
  GenerateAudios exampleSha exampleClient enOnlyTexts GoogleTTS ⟨fun _ => none, []⟩

/-! ## The goroutines of a stage and their join points

`GenerateAudios` starts one goroutine per entry of `texts.Texts` (`wgTop`), and
each of them starts one goroutine per current hash (`wg`).  `GenerateTexts`
starts one goroutine per output language other than the input language, and
`translateText` in each of them starts one goroutine per input segment.  Both
have the same shape: `wg.Add(1)` precedes every `go`, the goroutine ends with its
deferred `wg.Done()`, and the starter goes on past `wg.Wait()` only when the
counter is zero.  The definitions below run this shape one statement at a time,
the goroutines interleaved in any order; what the bodies compute is left out. -/

/-- Where a segment goroutine is: its body runs, or it has returned and its
deferred `wg.Done()` has run. -/
inductive SegPc where
  | running
  | done
deriving DecidableEq, Repr

/-- Where a language goroutine is. -/
inductive LangPc where
  /-- In the loop over the segments at ordinal `j`, before `wg.Add(1)`; past the
  last ordinal the loop is left. -/
  | add (j : Nat)
  /-- After `wg.Add(1)` for ordinal `j`, before the `go` statement. -/
  | go (j : Nat)
  /-- At `wg.Wait()`. -/
  | wait
  /-- Past `wg.Wait()`, before the result is stored (`writer.Flush()` and
  `audiosLangToPath[txt.Lang] = results`; `saveTextFile` in `translateText`). -/
  | joined
  /-- The result is stored; the deferred `Done()` on the outer counter is due. -/
  | published
  /-- Returned, the deferred `Done()` has run. -/
  | done
deriving DecidableEq, Repr

/-- A language goroutine: its place, its counter `wg`, the segment goroutines it
has started, and the number `n` of segments it loops over. -/
structure LangWorker where
  pc : LangPc
  wg : Nat
  segs : List SegPc
  n : Nat
deriving DecidableEq, Repr

/-- Where the body of `GenerateAudios` (of `GenerateTexts`) is. -/
inductive MainPc where
  /-- In the loop over the languages at index `k`, before `Add(1)`. -/
  | add (k : Nat)
  /-- After `Add(1)` for index `k`, before the `go` statement. -/
  | go (k : Nat)
  /-- At the outer `Wait()`. -/
  | wait
  /-- Returned to the caller. -/
  | returned
deriving DecidableEq, Repr

/-- The function body, the outer counter (`wgTop`), the language goroutines
started so far, and whether the process was ended by `os.Exit` or a panic. -/
structure GoState where
  main : MainPc
  wgTop : Nat
  langs : List LangWorker
  exited : Bool
deriving DecidableEq, Repr

/-- What the scheduler lets run next. -/
inductive Action where
  /-- The next statement of the function body. -/
  | main
  /-- The next statement of language goroutine `l`. -/
  | lang (l : Nat)
  /-- Segment goroutine `j` of language `l` returns. -/
  | seg (l j : Nat)
  /-- A goroutine calls `os.Exit(1)`. -/
  | exit
deriving DecidableEq, Repr

/-- A language goroutine that has just been started, with `n` segments to loop
over. -/
def newLangWorker (n : Nat) : LangWorker := { pc := .add 0, wg := 0, segs := [], n := n }

/-- The next statement of the function body; `cfg` lists the number of segments
of every language goroutine to start.  `none` when the body is blocked or has
returned. -/
def stepMain (cfg : List Nat) (s : GoState) : Option GoState :=
  match s.main with
  | .add k =>
    if k < cfg.length then some { s with wgTop := s.wgTop + 1, main := .go k }
    else some { s with main := .wait }
  | .go k =>
    some { s with langs := s.langs ++ [newLangWorker (cfg.getD k 0)], main := .add (k + 1) }
  | .wait => if s.wgTop = 0 then some { s with main := .returned } else none
  | .returned => none

/-- The next statement of a language goroutine up to the storing of its result;
`none` when it is blocked at `wg.Wait()` or has nothing left to do here. -/
def stepLang (ls : LangWorker) : Option LangWorker :=
  match ls.pc with
  | .add j =>
    if j < ls.n then some { ls with wg := ls.wg + 1, pc := .go j }
    else some { ls with pc := .wait }
  | .go j => some { ls with segs := ls.segs ++ [SegPc.running], pc := .add (j + 1) }
  | .wait => if ls.wg = 0 then some { ls with pc := .joined } else none
  | .joined => some { ls with pc := .published }
  | .published => none
  | .done => none

/-- One step of the stage.  Nothing runs after the process has exited; `Done()`
on a counter that is zero is a panic. -/
def step (cfg : List Nat) (s : GoState) (a : Action) : Option GoState :=
  if s.exited then none
  else
    match a with
    | .main => stepMain cfg s
    | .lang l =>
      match s.langs[l]? with
      | none => none
      | some ls =>
        if ls.pc = LangPc.published then
          if s.wgTop = 0 then some { s with exited := true }
          else
            let ls1 : LangWorker := { ls with pc := .done }
            some { s with langs := s.langs.set l ls1, wgTop := s.wgTop - 1 }
        else (stepLang ls).map fun ls1 => { s with langs := s.langs.set l ls1 }
    | .seg l j =>
      match s.langs[l]? with
      | none => none
      | some ls =>
        match ls.segs[j]? with
        | some SegPc.running =>
          if ls.wg = 0 then some { s with exited := true }
          else
            let ls1 : LangWorker := { ls with segs := ls.segs.set j SegPc.done, wg := ls.wg - 1 }
            some { s with langs := s.langs.set l ls1 }
        | _ => none
    | .exit => some { s with exited := true }

/-- The stage run under a schedule; `none` when the schedule asks for a step
that cannot be taken. -/
def runSchedule (cfg : List Nat) : List Action → GoState → Option GoState
  | [], s => some s
  | a :: rest, s =>
    match step cfg s a with
    | none => none
    | some s1 => runSchedule cfg rest s1

/-- The stage on entry. -/
def initialState : GoState := { main := .add 0, wgTop := 0, langs := [], exited := false }

/-- The language goroutines of `GenerateAudios`: one per entry of `texts.Texts`,
each with one segment goroutine per current hash (a `nil` entry has none: its
goroutine panics). -/
def audioFanOut (texts : Texts) : List Nat :=
  texts.Texts.map fun o => match o with
    | some txt => txt.Hashes.length
    | none => 0

/-- The language goroutines of `GenerateTexts`: one per output language other
than the input language, each with one segment goroutine per segment of the
text it translates from. -/
def textFanOut (t : Texts) (inputText : Text) : List Nat :=
  (t.LangsOut.filter fun langOut => decide (t.LangIn ≠ langOut)).map
    fun _ => inputText.SlidesText.length

/-- The `Add(1)` of a language goroutine that no started goroutine answers yet. -/
def LangPc.pending : LangPc → Nat
  | .go _ => 1
  | _ => 0

/-- The `Add(1)` of the function body that no started goroutine answers yet. -/
def MainPc.pending : MainPc → Nat
  | .go _ => 1
  | _ => 0

/-- Whether a language goroutine has not yet run its deferred `Done()`. -/
def LangWorker.active (ls : LangWorker) : Bool := decide (ls.pc ≠ LangPc.done)

/-- What holds of a language goroutine at every moment. -/
def LangInv (ls : LangWorker) : Prop :=
  ls.wg = ls.segs.count SegPc.running + ls.pc.pending ∧
  match ls.pc with
  | .add j => ls.segs.length = j ∧ j ≤ ls.n
  | .go j => ls.segs.length = j ∧ j < ls.n
  | .wait => ls.segs.length = ls.n
  | .joined => ls.segs = List.replicate ls.n SegPc.done
  | .published => ls.segs = List.replicate ls.n SegPc.done
  | .done => ls.segs = List.replicate ls.n SegPc.done

/-- What holds of the stage at every moment. -/
def StageInv (cfg : List Nat) (s : GoState) : Prop :=
  s.langs.map (fun ls => ls.n) = cfg.take s.langs.length ∧
  (∀ ls ∈ s.langs, LangInv ls) ∧
  s.wgTop = s.langs.countP LangWorker.active + s.main.pending ∧
  match s.main with
  | .add k => s.langs.length = k ∧ k ≤ cfg.length
  | .go k => s.langs.length = k ∧ k < cfg.length
  | .wait => s.langs.length = cfg.length
  | .returned => s.langs.length = cfg.length ∧ ∀ ls ∈ s.langs, ls.pc = LangPc.done

/-- The join property of a state of the stage: a language goroutine that has
stored its result was started for entry `l` of `cfg` and all of its `n` segment
goroutines have returned; when the function body has returned, every language
goroutine of `cfg` was started, has stored its result and has returned, and all
its segment goroutines have returned. -/
def JoinedState (cfg : List Nat) (s : GoState) : Prop :=
  (∀ (l : Nat) (ls : LangWorker), s.langs[l]? = some ls →
    (ls.pc = LangPc.published ∨ ls.pc = LangPc.done) →
      cfg[l]? = some ls.n ∧ ls.segs = List.replicate ls.n SegPc.done) ∧
  (s.main = MainPc.returned →
    s.langs.length = cfg.length ∧
    ∀ (l n : Nat), cfg[l]? = some n →
      ∃ ls, s.langs[l]? = some ls ∧ ls.pc = LangPc.done ∧
        ls.segs = List.replicate n SegPc.done)

/-- A schedule for two languages of three segments each in which the goroutines
take turns and the segments return out of order. -/
def exampleSchedule : List Action :=
  [.main, .main, .lang 0, .lang 0, .main, .main, .lang 1, .lang 1, .main,
   .lang 0, .lang 0, .seg 1 0, .lang 1, .lang 1, .lang 0, .lang 0, .seg 0 2, .lang 0,
   .lang 1, .lang 1, .lang 1, .seg 0 0, .seg 1 2, .seg 0 1, .lang 0, .lang 0, .seg 1 1,
   .lang 1, .lang 1, .lang 0, .lang 1, .main]

/-! ## The concatenation command as the specification words it -/

/-- The stream pair `[k:v][k:a]` of input `k`. -/
def streamPair (k : Nat) : String := "[" ++ toString k ++ ":v][" ++ toString k ++ ":a]"

/-- The `ffmpeg` arguments of the concatenation as the specification lists them:
`-y`, then `-i` and the file for each input in order, then `-filter_complex` with
the stream pairs for `k = 0..n-1` followed by `concat=n=<n>:v=1:a=1[outv][outa]`,
then `-map [outv] -map [outa]` and the output path. -/
def concatArguments (videoFiles : List String) (finalOutput : String) : List String :=
  ["-y"] ++ (videoFiles.flatMap fun video => ["-i", video]) ++
    ["-filter_complex",
      String.join ((List.range videoFiles.length).map streamPair) ++
        ("concat=n=" ++ toString videoFiles.length ++ ":v=1:a=1[outv][outa]"),
      "-map", "[outv]", "-map", "[outa]", finalOutput]

/-! ## `googleslides.go`

The types of the presentation come from the package
`google.golang.org/api/slides/v1`, which is not among the sources; they are
embedded as far as `extractSpeakerNotes` reads them.  A Go pointer is an
`Option`, `none` for `nil`. -/

/-- Embeds `slides.TextRun`: the field `Content`. -/
structure TextRun where
  Content : String
deriving DecidableEq, Repr

set_option linter.dupNamespace false in
/-- Embeds `slides.TextElement`: the field `TextRun`. -/
structure TextElement where
  TextRun : Option TextRun
deriving DecidableEq, Repr

/-- Embeds `slides.TextContent`: the field `TextElements`, a slice of pointers. -/
structure TextContent where
  TextElements : List (Option TextElement)
deriving DecidableEq, Repr

/-- Embeds `slides.Shape`: the field `Text`. -/
structure Shape where
  Text : Option TextContent
deriving DecidableEq, Repr

/-- Embeds `slides.PageElement`: the field `Shape`. -/
structure PageElement where
  Shape : Option Shape
deriving DecidableEq, Repr

/-- Embeds `slides.Page` in the role of a notes page: the field `PageElements`, a
slice of pointers. -/
structure NotesPage where
  PageElements : List (Option PageElement)
deriving DecidableEq, Repr

set_option linter.dupNamespace false in
/-- Embeds `slides.SlideProperties`: the field `NotesPage`. -/
structure SlideProperties where
  NotesPage : Option NotesPage
deriving DecidableEq, Repr

set_option linter.dupNamespace false in
/-- Embeds `slides.Page` in the role of a slide: the field `SlideProperties`. -/
structure Page where
  SlideProperties : Option SlideProperties
deriving DecidableEq, Repr

/-- The inner loop of `extractSpeakerNotes` over `pageElement.Shape.Text.TextElements`;
the state is `noteText`.  Reading a field of a `nil` entry is a panic. -/
def textElementsLoop : List (Option TextElement) → String → Except Fatal String
  | [], noteText => .ok noteText
  | none :: _, _ => .error (.panic "nil pointer dereference")
  | some textElement :: rest, noteText =>
    match textElement.TextRun with
    | some textRun => textElementsLoop rest (noteText ++ textRun.Content)
    | none => textElementsLoop rest noteText

/-- The outer loop of `extractSpeakerNotes` over `notesPage.PageElements`. -/
def pageElementsLoop : List (Option PageElement) → String → Except Fatal String
  | [], noteText => .ok noteText
  | none :: _, _ => .error (.panic "nil pointer dereference")
  | some pageElement :: rest, noteText =>
    match pageElement.Shape with
    | none => pageElementsLoop rest noteText
    | some shape =>
      match shape.Text with
      | none => pageElementsLoop rest noteText
      | some text =>
        match textElementsLoop text.TextElements noteText with
        | .error e => .error e
        | .ok noteText1 => pageElementsLoop rest noteText1

/-- Embeds `GoogleSlidesService.extractSpeakerNotes`; `slide` is the pointer the
caller has already read `ObjectId` from, so it is not `nil`. -/
def extractSpeakerNotes (slide : Page) : Except Fatal String :=
  match slide.SlideProperties with
  | none => .ok ""
  | some slideProperties =>
    match slideProperties.NotesPage with
    | none => .ok ""
    | some notesPage => pageElementsLoop notesPage.PageElements ""

/-- The `Content` of the text runs of a shape text, in text-element order; a text
element without a text run gives nothing. -/
def textRunsOf (text : TextContent) : List String :=
  text.TextElements.filterMap fun textElement =>
    (textElement.bind fun e => e.TextRun).map fun textRun => textRun.Content

/-- The `Content` of the text runs of a page element; a page element without a
shape or without shape text gives nothing. -/
def elementRuns (pageElement : Option PageElement) : List String :=
  match (pageElement.bind fun e => e.Shape).bind fun shape => shape.Text with
  | some text => textRunsOf text
  | none => []

/-- The `Content` of every text run of a notes page, in page-element order and
then text-element order. -/
def textRunContents (notesPage : NotesPage) : List String :=
  notesPage.PageElements.flatMap elementRuns

/-- No entry of the slices of a notes page is a `nil` pointer. -/
def NoNilEntry (notesPage : NotesPage) : Prop :=
  (∀ pageElement ∈ notesPage.PageElements, pageElement ≠ none) ∧
  ∀ (pageElement : PageElement) (shape : Shape) (text : TextContent),
    some pageElement ∈ notesPage.PageElements → pageElement.Shape = some shape →
      shape.Text = some text → ∀ textElement ∈ text.TextElements, textElement ≠ none

/-- A slide whose notes page has a picture (no shape), a shape without text, and
two shapes with text runs `Hello `, `world` and `!`, and a text element that is
not a text run. -/
def exampleSlide : Page :=
  { SlideProperties := some { NotesPage := some { PageElements :=
      [some { Shape := none },
       some { Shape := some { Text := none } },
       some { Shape := some { Text := some { TextElements :=
         [some { TextRun := some { Content := "Hello " } },
          some { TextRun := none },
          some { TextRun := some { Content := "world" } }] } } },
       some { Shape := some { Text := some { TextElements :=
         [some { TextRun := some { Content := "!" } }] } } }] } } }

/-! ## The input narration file -/

/-- The segments of the input narration file `data/texts.txt`, as `loadTextInput`
reads them for the input language; no segment when the file does not exist. -/
def narrationSlides (sha : Sha256) (t : Texts) (fs : FS) : List SlideText :=
  match fs (Join [Join [t.RootDir, "data"], "texts.txt"]) with
  | some content => ((NewText t.RootDir t.LangIn).loadTextInput sha content).SlidesText
  | none => []

/-! ## The segment goroutines of `translateText` under a schedule

`translateText` starts one goroutine per input segment; each sends its request to
the translation backend and, when the call returns, ends the process on an error
or stores the translation and the fingerprint at its ordinal.  A schedule lists
these two steps of all goroutines in the order in which they happen. -/

/-- A step of a segment goroutine of `translateText`. -/
inductive TranslateStep where
  /-- Goroutine `i` calls `Chat.Completions.New`: its request leaves. -/
  | send (i : Nat)
  /-- The call of goroutine `i` has returned and the goroutine runs to its end. -/
  | done (i : Nat)
deriving DecidableEq, Repr

/-- The ordinals of the requests of a schedule, in the order they are sent. -/
def sendsOf : List TranslateStep → List Nat
  | [] => []
  | .send i :: rest => i :: sendsOf rest
  | .done _ :: rest => sendsOf rest

/-- The ordinals of the goroutines of a schedule, in the order they end. -/
def donesOf : List TranslateStep → List Nat
  | [] => []
  | .send _ :: rest => donesOf rest
  | .done i :: rest => i :: donesOf rest

/-- Whether every goroutine that ends in the schedule has sent its request
before; `sent` lists the requests sent so far. -/
def sentBeforeDone : List TranslateStep → List Nat → Bool
  | [], _ => true
  | .send i :: rest, sent => sentBeforeDone rest (i :: sent)
  | .done i :: rest, sent => sent.contains i && sentBeforeDone rest sent

/-- A schedule of the `n` segment goroutines of a completed `translateText`: each
of them sends its request once and ends once, after it has sent. -/
def ValidSchedule (n : Nat) (schedule : List TranslateStep) : Prop :=
  (sendsOf schedule).Perm (List.range n) ∧ (donesOf schedule).Perm (List.range n) ∧
    sentBeforeDone schedule [] = true

/-- The translation that goroutine `i` stores: `resp.Choices[0].Message.Content`
as a `SlideText`, when the call succeeds with a choice. -/
def translationOf (client : Client) (lang : String) (slideText : SlideText) : Option SlideText :=
  match client.chat (translatePrompt slideText.Text lang) with
  | .ok (translatedText :: _) => some (NewSlideText translatedText)
  | _ => none

/-- The goroutines of `translateText` under a schedule.  The state is
`t.SlidesText` (a slot is `none` for a `nil` pointer) and `t.Hashes`, as
`make` has created them and the goroutines fill them. -/
def translateWorkersScheduled (client : Client) (lang : String) (inputText : Text) :
    List TranslateStep → List (Option SlideText) → List String → World →
      Except Fatal (List (Option SlideText) × List String) × World
  | [], slots, hashes, w => (.ok (slots, hashes), w)
  | .send i :: rest, slots, hashes, w =>
    match inputText.SlidesText[i]? with
    | none => translateWorkersScheduled client lang inputText rest slots hashes w
    | some slideText =>
      translateWorkersScheduled client lang inputText rest slots hashes
        (w.log (Event.chat (translatePrompt slideText.Text lang)))
  | .done i :: rest, slots, hashes, w =>
    match inputText.SlidesText[i]? with
    | none => translateWorkersScheduled client lang inputText rest slots hashes w
    | some slideText =>
      match client.chat (translatePrompt slideText.Text lang) with
      | .error e => (.error (.exit ("Translation error: " ++ e)), w)
      | .ok choices =>
        match choices.head?, inputText.Hashes[i]? with
        | some translatedText, some h =>
          translateWorkersScheduled client lang inputText rest
            (slots.set i (some (NewSlideText translatedText))) (hashes.set i h) w
        | _, _ => (.error (.panic "index out of range"), w)

/-- The slots of `t.SlidesText` as a list of segments, when none of them is `nil`. -/
def allSlots : List (Option SlideText) → Option (List SlideText)
  | [] => some []
  | none :: _ => none
  | some s :: rest => (allSlots rest).map fun r => s :: r

/-- Embeds `Text.translateText` with its segment goroutines under a schedule;
`saveTextFile` reads `slideText.Text` of every slot, a panic on a `nil` slot. -/
def Text.translateTextScheduled (t : Text) (client : Client) (inputText : Text)
    (schedule : List TranslateStep) (w : World) : Except Fatal Text × World :=
  match translateWorkersScheduled client t.Lang inputText schedule
      (List.replicate inputText.SlidesText.length none)
      (List.replicate inputText.SlidesText.length "") w with
  | (.error e, w1) => (.error e, w1)
  | (.ok (slots, hashes), w1) =>
    match allSlots slots with
    | none => (.error (.panic "nil pointer dereference"), w1)
    | some slidesText =>
      let t1 := { t with SlidesText := slidesText, Hashes := hashes }
      match t1.saveTextFile t1.SlidesText w1 with
      | (.error e, w2) => (.error e, w2)
      | (.ok (), w2) => (.ok t1, w2)

/-- Embeds `Text.GenerateText` for a translated language (`inputText` not `nil`) with
the segment goroutines of `translateText` under a schedule. -/
def Text.GenerateTextScheduled (client : Client) (t : Text) (inputText : Text)
    (schedule : List TranslateStep) (w : World) : Except Fatal Text × World :=
  match w.fs (Join [t.TextDir, "texts.txt"]) with
  | none =>
    (.error (.exit ("Failed to generate text: open " ++ Join [t.TextDir, "texts.txt"])), w)
  | some _ => t.translateTextScheduled client inputText schedule w

/-- The schedule in which the goroutines run one after the other in ordinal
order, from ordinal `i` on. -/
def ordinalSchedule : Nat → Nat → List TranslateStep
  | 0, _ => []
  | n + 1, i => .send i :: .done i :: ordinalSchedule n (i + 1)

/-- A schedule of three goroutines in which all requests leave before any call
returns, in the order 2, 0, 1, and the calls return in the order 1, 2, 0. -/
def scrambledSchedule : List TranslateStep :=
  [.send 2, .send 0, .send 1, .done 1, .done 2, .done 0]

/-! ## Lemmas on the hash identity -/

theorem hextable_getD_mem (n : Nat) (h : n < 16) : hextable.getD n '0' ∈ hextable := by
  interval_cases n <;> decide

theorem EncodeToString_length (src : List Byte) : (EncodeToString src).length = 2 * src.length := by
  unfold EncodeToString
  simp only [String.length]
  induction src with
  | nil => rfl
  | cons v vs ih =>
    simp only [List.flatMap_cons, List.length_append, List.length_cons, List.length_nil, ih]
    omega

theorem EncodeToString_lower (src : List Byte) : ∀ c ∈ (EncodeToString src).data, IsLowerHex c := by
  intro c hc
  unfold EncodeToString at hc
  simp only [List.mem_flatMap, List.mem_cons, List.mem_singleton, List.not_mem_nil, or_false] at hc
  obtain ⟨v, _, hv⟩ := hc
  have h1 : v.val >>> 4 < 16 := by
    have := v.isLt
    rw [Nat.shiftRight_eq_div_pow]; omega
  have h2 : v.val &&& 0x0f < 16 := by
    have : v.val &&& 0x0f ≤ 0x0f := Nat.and_le_right
    omega
  rcases hv with hv | hv <;> subst hv
  · exact hextable_getD_mem _ h1
  · exact hextable_getD_mem _ h2

theorem Hash_isHexDigest (sha : Sha256) (s : SlideText) : IsHexDigest (s.Hash sha) := by
  refine ⟨?_, EncodeToString_lower _⟩
  unfold SlideText.Hash
  rw [EncodeToString_length, (sha s.Text).size]

/-! ## Lemmas on the sidecar hash store -/

theorem rawLines_append_newline (l rest : List Char) (h : '\n' ∉ l) :
    rawLines (l ++ '\n' :: rest) = l :: rawLines rest := by
  induction l with
  | nil => simp [rawLines]
  | cons c cs ih =>
    have hc : c ≠ '\n' := fun e => h (by simp [e])
    have hcs : '\n' ∉ cs := fun e => h (by simp [e])
    have e := ih hcs
    simp only [List.cons_append, rawLines, hc, if_false]
    show (match rawLines (cs ++ '\n' :: rest) with
      | [] => [[c]]
      | l :: ls => (c :: l) :: ls) = _
    rw [e]

theorem rawLines_single (l : List Char) (h : '\n' ∉ l) (hne : l ≠ []) : rawLines l = [l] := by
  induction l with
  | nil => exact absurd rfl hne
  | cons c cs ih =>
    have hc : c ≠ '\n' := fun e => h (by simp [e])
    have hcs : '\n' ∉ cs := fun e => h (by simp [e])
    cases cs with
    | nil => simp [rawLines, hc]
    | cons d ds => simp only [rawLines, hc, if_false] at ih ⊢; rw [ih hcs (by simp)]

theorem utf8ByteSize_go_ascii (l : List Char) (h : ∀ c ∈ l, c.utf8Size = 1) :
    String.utf8ByteSize.go l = l.length := by
  induction l with
  | nil => rfl
  | cons c cs ih =>
    simp only [String.utf8ByteSize.go, List.length_cons]
    rw [ih (fun d hd => h d (by simp [hd])), h c (by simp)]

theorem hextable_utf8Size (c : Char) (h : c ∈ hextable) : c.utf8Size = 1 := by
  unfold hextable at h
  simp only [List.mem_cons, List.mem_singleton, List.not_mem_nil, or_false] at h
  rcases h with h | h | h | h | h | h | h | h | h | h | h | h | h | h | h | h <;> subst h <;> decide

theorem IsHexDigest.cleanLine {h : String} (hh : IsHexDigest h) : CleanLine h := by
  obtain ⟨hlen, hchars⟩ := hh
  refine ⟨?_, ?_, ?_⟩
  · intro hmem
    exact absurd (hchars _ hmem) (by decide)
  · intro hlast
    have : '\r' ∈ h.data := List.mem_of_getLast?_eq_some hlast
    exact absurd (hchars _ this) (by decide)
  · have : h.utf8ByteSize = h.data.length := by
      show String.utf8ByteSize.go h.data = _
      exact utf8ByteSize_go_ascii _ (fun c hc => hextable_utf8Size c (hchars c hc))
    rw [this]
    have : h.data.length = 64 := hlen
    rw [this]; decide

theorem IsHexDigest.ne_empty {h : String} (hh : IsHexDigest h) : h ≠ "" := by
  intro e
  have := hh.1
  rw [e] at this
  exact absurd this (by decide)

theorem dropCR_of_clean {h : String} (hh : CleanLine h) : String.mk (dropCR h.data) = h := by
  unfold dropCR
  rw [if_neg hh.2.1]

theorem scanLines_of_rawLines (content : String) (hs : List String)
    (hraw : rawLines content.data = hs.map String.data) (hclean : ∀ h ∈ hs, CleanLine h) :
    scanLines content = hs := by
  unfold scanLines
  rw [hraw]
  have htake : (hs.map String.data).takeWhile
      (fun l => decide ((String.mk l).utf8ByteSize < MaxScanTokenSize)) = hs.map String.data := by
    rw [List.takeWhile_eq_self_iff]
    intro l hl
    obtain ⟨h, hh, rfl⟩ := List.mem_map.1 hl
    simpa using (hclean h hh).2.2
  rw [htake, List.map_map]
  conv_rhs => rw [← List.map_id hs]
  apply List.map_congr_left
  intro h hh
  exact dropCR_of_clean (hclean h hh)

theorem rawLines_audioHashesContent (hs : List String) (hclean : ∀ h ∈ hs, CleanLine h) :
    rawLines (audioHashesContent hs).data = hs.map String.data := by
  induction hs with
  | nil => rfl
  | cons h rest ih =>
    have h1 := (hclean h (by simp)).1
    have e : (audioHashesContent (h :: rest)).data = h.data ++ '\n' :: (audioHashesContent rest).data := by
      simp [audioHashesContent, String.data_append]
    rw [e, rawLines_append_newline _ _ h1, ih (fun x hx => hclean x (by simp [hx]))]
    rfl

theorem rawLines_joinLines (hs : List String) (hclean : ∀ h ∈ hs, CleanLine h ∧ h ≠ "") :
    rawLines (joinLines hs).data = hs.map String.data := by
  induction hs with
  | nil => rfl
  | cons h rest ih =>
    have h1 := (hclean h (by simp)).1.1
    have h2 : h.data ≠ [] := fun e => (hclean h (by simp)).2 (String.ext e)
    cases rest with
    | nil => simp only [joinLines, List.map]; exact rawLines_single _ h1 h2
    | cons h' rest' =>
      have e : (joinLines (h :: h' :: rest')).data = h.data ++ '\n' :: (joinLines (h' :: rest')).data := by
        simp [joinLines, String.data_append]
      rw [e, rawLines_append_newline _ _ h1, ih (fun x hx => hclean x (by simp [hx]))]
      rfl

theorem scanLines_audioHashesContent (hs : List String) (hclean : ∀ h ∈ hs, CleanLine h) :
    scanLines (audioHashesContent hs) = hs :=
  scanLines_of_rawLines _ hs (rawLines_audioHashesContent hs hclean) hclean

theorem scanLines_joinLines (hs : List String) (hclean : ∀ h ∈ hs, CleanLine h ∧ h ≠ "") :
    scanLines (joinLines hs) = hs :=
  scanLines_of_rawLines _ hs (rawLines_joinLines hs hclean) (fun h hh => (hclean h hh).1)

theorem hashFileContent_eq (hashes : List String) (n i : Nat) (h : i + n ≤ hashes.length) :
    hashFileContent n hashes i = some (joinLines ((hashes.drop i).take n)) := by
  induction n using Nat.strong_induction_on generalizing i with
  | _ n ih =>
    match n with
    | 0 => simp [hashFileContent, joinLines]
    | 1 =>
      have hi : i < hashes.length := by omega
      simp only [hashFileContent]
      rw [List.getElem?_eq_getElem hi]
      rw [List.drop_eq_getElem_cons hi]
      simp [joinLines]
    | m + 2 =>
      have hi : i < hashes.length := by omega
      have hi1 : i + 1 < hashes.length := by omega
      simp only [hashFileContent]
      rw [List.getElem?_eq_getElem hi, ih (m + 1) (by omega) (i + 1) (by omega)]
      rw [List.drop_eq_getElem_cons hi, List.drop_eq_getElem_cons hi1]
      simp only [List.take_succ_cons, joinLines]

/-! ## Lemmas on paths -/

theorem digitChar_value (k : Nat) (h : k < 10) : (Nat.digitChar k).toNat - 48 = k := by
  interval_cases k <;> decide

theorem decimalValue_toDigitsCore (fuel n : Nat) (ds : List Char) (h : n < fuel) :
    decimalValue (Nat.toDigitsCore 10 fuel n ds) 0 = decimalValue ds n := by
  induction fuel generalizing n ds with
  | zero => omega
  | succ fuel ih =>
    unfold Nat.toDigitsCore
    simp only
    have hv := digitChar_value (n % 10) (Nat.mod_lt _ (by decide))
    split
    · rename_i h0
      simp only [decimalValue, List.foldl_cons, hv]
      congr 1
      omega
    · rename_i h0
      rw [ih (n / 10) _ (by omega)]
      simp only [decimalValue, List.foldl_cons, hv]
      congr 1
      omega

theorem Nat_repr_injective {i j : Nat} (h : toString i = toString j) : i = j := by
  have hi := decimalValue_toDigitsCore (i + 1) i [] (by omega)
  have hj := decimalValue_toDigitsCore (j + 1) j [] (by omega)
  have e : Nat.toDigitsCore 10 (i + 1) i [] = Nat.toDigitsCore 10 (j + 1) j [] := by
    have := congrArg String.data h
    simpa [toString, Nat.repr, Nat.toDigits, List.asString] using this
  rw [e] at hi
  simp only [decimalValue, List.foldl_nil] at hi hj
  omega

theorem Join_pair (d x : String) (hx : x ≠ "") :
    Join [d, x] = if d = "" then x else d ++ "/" ++ x := by
  unfold Join
  by_cases hd : d = ""
  · simp [hd, hx, List.filter, joinPath]
  · simp [hd, hx, List.filter, joinPath]

theorem Join_pair_data (d x : String) (hx : x ≠ "") :
    ∃ pre : List Char, (Join [d, x]).data = pre ++ x.data ∧ ∀ y : String, y ≠ "" →
      (Join [d, y]).data = pre ++ y.data := by
  by_cases hd : d = ""
  · refine ⟨[], by rw [Join_pair d x hx]; simp [hd], ?_⟩
    intro y hy
    rw [Join_pair d y hy]; simp [hd]
  · refine ⟨d.data ++ ['/'], by rw [Join_pair d x hx]; simp [hd, String.data_append], ?_⟩
    intro y hy
    rw [Join_pair d y hy]; simp [hd, String.data_append]

theorem Join_pair_injective (d x y : String) (hx : x ≠ "") (hy : y ≠ "")
    (h : Join [d, x] = Join [d, y]) : x = y := by
  obtain ⟨pre, hpx, hpy⟩ := Join_pair_data d x hx
  have := congrArg String.data h
  rw [hpx, hpy y hy] at this
  exact String.ext (List.append_cancel_left this)

theorem mp3_ne_empty (j : Nat) : toString j ++ ".mp3" ≠ "" := by
  intro h
  have := congrArg String.length h
  simp only [String.length_append] at this
  have h2 : ".mp3".length = 4 := by decide
  have h3 : "".length = 0 := by decide
  omega

theorem audioPath_injective (d : String) {i j : Nat} (h : audioPath d i = audioPath d j) : i = j := by
  unfold audioPath at h
  have := Join_pair_injective d _ _ (mp3_ne_empty i) (mp3_ne_empty j) h
  apply Nat_repr_injective
  have hd := congrArg String.data this
  simp only [String.data_append] at hd
  exact String.ext (List.append_cancel_right hd)

theorem audioPath_ne_hashes (d : String) (j : Nat) : audioPath d j ≠ Join [d, "hashes"] := by
  intro h
  unfold audioPath at h
  have := Join_pair_injective d _ _ (mp3_ne_empty j) (by decide) h
  have hd := congrArg (fun s => s.data.getLast?) this
  simp [String.data_append] at hd

/-! ## Lemmas on the audio stage -/

theorem audioSegment_hit (sha : Sha256) (client : Client) (audioModel : Model) (txt : Text)
    (audioDir : String) (cachedHashes : List String) (j : Nat) (currentHash : String) (w : World)
    (h : currentHash = cachedHashAt cachedHashes j) :
    audioSegment sha client audioModel txt audioDir cachedHashes j currentHash w =
      (.ok (audioPath audioDir j), w) := by
  unfold audioSegment audioGate
  simp [h]

theorem GenerateAudioOpenAI_effects (sha : Sha256) (client : Client)
    (textContent speechFilePath cachedHash : String) (w w' : World) (r : Except String Unit)
    (h : GenerateAudioOpenAI sha client textContent speechFilePath cachedHash w = (r, w')) :
    ∃ evs, w'.trace = w.trace ++ evs ∧
      (∀ e ∈ evs, e = Event.create speechFilePath ∨ e = Event.speech textContent) ∧
      (∀ p, p ≠ speechFilePath → w'.fs p = w.fs p) := by
  unfold GenerateAudioOpenAI at h
  simp only at h
  split at h
  · simp only [Prod.mk.injEq] at h
    obtain ⟨_, rfl⟩ := h
    exact ⟨[], by simp, by simp, fun _ _ => rfl⟩
  · split at h
    · simp only [Prod.mk.injEq] at h
      obtain ⟨_, rfl⟩ := h
      exact ⟨[Event.speech textContent], rfl, by simp, fun _ _ => rfl⟩
    · simp only [Prod.mk.injEq] at h
      obtain ⟨_, rfl⟩ := h
      refine ⟨[Event.speech textContent, Event.create speechFilePath], ?_, by simp, ?_⟩
      · simp [World.writeFile, World.log]
      · intro p hp
        simp [World.writeFile, World.log, hp]

theorem audioSegment_effects (sha : Sha256) (client : Client) (audioModel : Model) (txt : Text)
    (audioDir : String) (cachedHashes : List String) (j : Nat) (currentHash : String)
    (w w' : World) (r : Except Fatal String)
    (h : audioSegment sha client audioModel txt audioDir cachedHashes j currentHash w = (r, w')) :
    (currentHash = cachedHashAt cachedHashes j → w' = w ∧ r = .ok (audioPath audioDir j)) ∧
    ∃ evs, w'.trace = w.trace ++ evs ∧
      (∀ e ∈ evs, currentHash ≠ cachedHashAt cachedHashes j ∧ SegmentEvent txt audioDir j e) ∧
      (∀ p, (currentHash ≠ cachedHashAt cachedHashes j → p ≠ audioPath audioDir j) →
        w'.fs p = w.fs p) := by
  by_cases hit : currentHash = cachedHashAt cachedHashes j
  · rw [audioSegment_hit _ _ _ _ _ _ _ _ _ hit] at h
    simp only [Prod.mk.injEq] at h
    obtain ⟨rfl, rfl⟩ := h
    exact ⟨fun _ => ⟨rfl, rfl⟩, [], by simp, by simp, fun _ _ => rfl⟩
  · refine ⟨fun e => absurd e hit, ?_⟩
    unfold audioSegment audioGate at h
    simp only [hit, if_false] at h
    split at h
    · split at h
      · simp only [Prod.mk.injEq] at h
        obtain ⟨_, rfl⟩ := h
        exact ⟨[], by simp, by simp, fun _ _ => rfl⟩
      · rename_i slide hslide
        split at h
        · rename_i e w1 hgen
          simp only [Prod.mk.injEq] at h
          obtain ⟨_, rfl⟩ := h
          obtain ⟨evs, ht, hev, hfs⟩ := GenerateAudioOpenAI_effects _ _ _ _ _ _ _ _ hgen
          refine ⟨evs, ht, ?_, fun p hp => hfs p (hp hit)⟩
          intro e he
          refine ⟨hit, ?_⟩
          rcases hev e he with h1 | h1
          · exact Or.inl h1
          · exact Or.inr ⟨slide, hslide, h1⟩
        · rename_i w1 hgen
          simp only [Prod.mk.injEq] at h
          obtain ⟨_, rfl⟩ := h
          obtain ⟨evs, ht, hev, hfs⟩ := GenerateAudioOpenAI_effects _ _ _ _ _ _ _ _ hgen
          refine ⟨evs, ht, ?_, fun p hp => hfs p (hp hit)⟩
          intro e he
          refine ⟨hit, ?_⟩
          rcases hev e he with h1 | h1
          · exact Or.inl h1
          · exact Or.inr ⟨slide, hslide, h1⟩
    · split at h
      · simp only [Prod.mk.injEq] at h
        obtain ⟨_, rfl⟩ := h
        exact ⟨[], by simp, by simp, fun _ _ => rfl⟩
      · simp only [Prod.mk.injEq] at h
        obtain ⟨_, rfl⟩ := h
        exact ⟨[], by simp, by simp, fun _ _ => rfl⟩

theorem audioWorkers_effects (sha : Sha256) (client : Client) (audioModel : Model) (txt : Text)
    (audioDir : String) (cachedHashes : List String) (hs : List String) (j : Nat)
    (w w' : World) (r : Except Fatal (List String))
    (h : audioWorkers sha client audioModel txt audioDir cachedHashes hs j w = (r, w')) :
    ∃ evs, w'.trace = w.trace ++ evs ∧
      (∀ e ∈ evs, ∃ k, k < hs.length ∧ hs[k]? ≠ some (cachedHashAt cachedHashes (j + k)) ∧
        SegmentEvent txt audioDir (j + k) e) ∧
      (∀ p, (∀ k, k < hs.length → hs[k]? ≠ some (cachedHashAt cachedHashes (j + k)) →
          p ≠ audioPath audioDir (j + k)) → w'.fs p = w.fs p) := by
  induction hs generalizing j w w' r with
  | nil =>
    simp only [audioWorkers, Prod.mk.injEq] at h
    obtain ⟨_, rfl⟩ := h
    exact ⟨[], by simp, by simp, fun _ _ => rfl⟩
  | cons fp rest ih =>
    unfold audioWorkers at h
    cases hseg : audioSegment sha client audioModel txt audioDir cachedHashes j fp w with
    | mk r1 w1 =>
      obtain ⟨_, evs1, ht1, hev1, hfs1⟩ := audioSegment_effects _ _ _ _ _ _ _ _ _ _ _ hseg
      have head_ev : ∀ e ∈ evs1, ∃ k, k < (fp :: rest).length ∧
          (fp :: rest)[k]? ≠ some (cachedHashAt cachedHashes (j + k)) ∧
          SegmentEvent txt audioDir (j + k) e := by
        intro e he
        refine ⟨0, by simp, ?_, (hev1 e he).2⟩
        simpa using (hev1 e he).1
      have head_fs : ∀ p, (∀ k, k < (fp :: rest).length →
          (fp :: rest)[k]? ≠ some (cachedHashAt cachedHashes (j + k)) →
          p ≠ audioPath audioDir (j + k)) → w1.fs p = w.fs p := by
        intro p hp
        apply hfs1
        intro hne
        exact hp 0 (by simp) (by simpa using hne)
      rw [hseg] at h
      cases r1 with
      | error e =>
        simp only [Prod.mk.injEq] at h
        obtain ⟨_, rfl⟩ := h
        exact ⟨evs1, ht1, head_ev, head_fs⟩
      | ok p1 =>
        simp only at h
        cases hrest : audioWorkers sha client audioModel txt audioDir cachedHashes rest (j + 1) w1 with
        | mk r2 w2 =>
          obtain ⟨evs2, ht2, hev2, hfs2⟩ := ih _ _ _ _ hrest
          rw [hrest] at h
          have hw : w' = w2 := by
            cases r2 <;> simp only [Prod.mk.injEq] at h <;> exact h.2.symm
          subst hw
          refine ⟨evs1 ++ evs2, by rw [ht2, ht1, List.append_assoc], ?_, ?_⟩
          · intro e he
            rcases List.mem_append.1 he with he | he
            · exact head_ev e he
            · obtain ⟨k, hk, hne, hseg⟩ := hev2 e he
              refine ⟨k + 1, by simp; omega, ?_, ?_⟩
              · simpa [Nat.add_assoc, Nat.add_comm 1 k] using hne
              · simpa [Nat.add_assoc, Nat.add_comm 1 k] using hseg
          · intro p hp
            rw [hfs2 p, head_fs p hp]
            intro k hk hne
            have := hp (k + 1) (by simp; omega) (by simpa [Nat.add_assoc, Nat.add_comm 1 k] using hne)
            simpa [Nat.add_assoc, Nat.add_comm 1 k] using this

theorem audioWorkers_results (sha : Sha256) (client : Client) (audioModel : Model) (txt : Text)
    (audioDir : String) (cachedHashes : List String) (hs : List String) (j : Nat)
    (w w' : World) (rs : List String)
    (h : audioWorkers sha client audioModel txt audioDir cachedHashes hs j w = (.ok rs, w')) :
    rs.length = hs.length ∧
    ∀ k, hs[k]? = some (cachedHashAt cachedHashes (j + k)) →
      rs[k]? = some (audioPath audioDir (j + k)) := by
  induction hs generalizing j w w' rs with
  | nil =>
    simp only [audioWorkers, Prod.mk.injEq, Except.ok.injEq] at h
    obtain ⟨rfl, _⟩ := h
    simp
  | cons fp rest ih =>
    unfold audioWorkers at h
    cases hseg : audioSegment sha client audioModel txt audioDir cachedHashes j fp w with
    | mk r1 w1 =>
      rw [hseg] at h
      cases r1 with
      | error e => simp at h
      | ok p1 =>
        simp only at h
        cases hrest : audioWorkers sha client audioModel txt audioDir cachedHashes rest (j + 1) w1 with
        | mk r2 w2 =>
          rw [hrest] at h
          cases r2 with
          | error e => simp at h
          | ok rs2 =>
            simp only [Prod.mk.injEq, Except.ok.injEq] at h
            obtain ⟨rfl, _⟩ := h
            obtain ⟨hlen, hget⟩ := ih _ _ _ _ hrest
            refine ⟨by simp [hlen], ?_⟩
            intro k hk
            cases k with
            | zero =>
              simp only [List.getElem?_cons_zero, Option.some.injEq] at hk
              have := (audioSegment_effects _ _ _ _ _ _ _ _ _ _ _ hseg).1 hk
              simp only [Except.ok.injEq] at this
              simp [this.2]
            | succ k =>
              simp only [List.getElem?_cons_succ] at hk ⊢
              have := hget k (by simpa [Nat.add_assoc, Nat.add_comm 1 k] using hk)
              simpa [Nat.add_assoc, Nat.add_comm 1 k] using this

theorem audioWorkers_all_hits (sha : Sha256) (client : Client) (audioModel : Model) (txt : Text)
    (audioDir : String) (cachedHashes : List String) (hs : List String) (j : Nat) (w : World)
    (hit : ∀ k, k < hs.length → hs[k]? = some (cachedHashAt cachedHashes (j + k))) :
    audioWorkers sha client audioModel txt audioDir cachedHashes hs j w =
      (.ok ((List.range hs.length).map fun k => audioPath audioDir (j + k)), w) := by
  induction hs generalizing j with
  | nil => rfl
  | cons fp rest ih =>
    have h0 : fp = cachedHashAt cachedHashes j := by simpa using hit 0 (by simp)
    have hrest := ih (j + 1) (fun k hk => by
      have := hit (k + 1) (by simp; omega)
      simpa [Nat.add_assoc, Nat.add_comm 1 k] using this)
    unfold audioWorkers
    rw [audioSegment_hit _ _ _ _ _ _ _ _ _ h0]
    simp only [hrest, List.length_cons, List.range_succ_eq_map, List.map_cons, List.map_map,
      Nat.add_zero]
    congr 3
    apply List.map_congr_left
    intro k _
    simp [Nat.add_assoc, Nat.add_comm 1 k]

theorem SprintfHex_length (b : List Byte) : (SprintfHex b).length = 2 * b.length := by
  unfold SprintfHex
  simp only [String.length]
  induction b with
  | nil => rfl
  | cons v vs ih =>
    simp only [List.flatMap_cons, List.length_append, List.length_cons, List.length_nil, ih]
    omega

theorem SprintfHex_digest_ne_empty (d : Digest) : SprintfHex d.bytes ≠ "" := by
  intro h
  have := SprintfHex_length d.bytes
  rw [h, d.size] at this
  exact absurd this (by decide)

theorem cachedHashAt_replicate (n j : Nat) : cachedHashAt (List.replicate n "") j = "" := by
  unfold cachedHashAt
  split <;> simp

theorem cachedHashAt_beyond (cachedHashes : List String) (j : Nat) (h : cachedHashes.length ≤ j) :
    cachedHashAt cachedHashes j = "" := by
  unfold cachedHashAt
  rw [dif_neg (by omega)]

theorem generateAudiosLang_ok (sha : Sha256) (client : Client) (audioModel : Model) (txt : Text)
    (w w' : World) (results : List String)
    (h : generateAudiosLang sha client audioModel txt w = (.ok results, w')) :
    ∃ w2, audioWorkers sha client audioModel txt (Join [txt.DataDir, "cache", txt.Lang, "audio"])
        (txt.GenerateCacheHashes w.fs (Join [txt.DataDir, "cache", txt.Lang, "audio"])) txt.Hashes 0
        (w.writeFile (Join [Join [txt.DataDir, "cache", txt.Lang, "audio"], "hashes"]) "") =
          (.ok results, w2) ∧
      w'.trace = w2.trace ∧
      w'.fs = fun p => if p = Join [Join [txt.DataDir, "cache", txt.Lang, "audio"], "hashes"]
        then some (audioHashesContent txt.Hashes) else w2.fs p := by
  unfold generateAudiosLang at h
  simp only at h
  split at h
  · exact absurd h (by simp)
  · rename_i rs w2 hw
    simp only [Prod.mk.injEq, Except.ok.injEq] at h
    obtain ⟨rfl, rfl⟩ := h
    exact ⟨w2, hw, rfl, rfl⟩

theorem audioDir_render (lang : String) (hl : lang ≠ "") :
    Join ["data", "cache", lang, "audio"] = "data/cache/" ++ lang ++ "/audio" := by
  unfold Join
  have e : (["data", "cache", lang, "audio"].filter fun e => decide (e ≠ "")) =
      ["data", "cache", lang, "audio"] := by
    simp [List.filter, hl]
  rw [e]
  simp only [joinPath]
  apply String.ext
  simp [String.data_append]


theorem audioWorkers_append (sha : Sha256) (client : Client) (audioModel : Model) (txt : Text)
    (audioDir : String) (cachedHashes : List String) (xs ys : List String) (j : Nat) (w : World) :
    audioWorkers sha client audioModel txt audioDir cachedHashes (xs ++ ys) j w =
      match audioWorkers sha client audioModel txt audioDir cachedHashes xs j w with
      | (.error e, w1) => (.error e, w1)
      | (.ok r1, w1) =>
        match audioWorkers sha client audioModel txt audioDir cachedHashes ys (j + xs.length) w1 with
        | (.error e, w2) => (.error e, w2)
        | (.ok r2, w2) => (.ok (r1 ++ r2), w2) := by
  induction xs generalizing j w with
  | nil =>
    simp only [List.nil_append, audioWorkers, List.length_nil, Nat.add_zero]
    cases audioWorkers sha client audioModel txt audioDir cachedHashes ys j w with
    | mk r w2 => cases r <;> rfl
  | cons x rest ih =>
    simp only [List.cons_append, audioWorkers, List.length_cons]
    cases audioSegment sha client audioModel txt audioDir cachedHashes j x w with
    | mk r1 w1 =>
      cases r1 with
      | error e => rfl
      | ok p1 =>
        simp only [List.append_eq]
        rw [ih (j + 1) w1]
        have e : j + 1 + rest.length = j + (rest.length + 1) := by omega
        rw [e]
        cases audioWorkers sha client audioModel txt audioDir cachedHashes rest (j + 1) w1 with
        | mk r2 w2 =>
          cases r2 with
          | error e => rfl
          | ok rs =>
            simp only
            cases audioWorkers sha client audioModel txt audioDir cachedHashes ys
                (j + (rest.length + 1)) w2 with
            | mk r3 w3 => cases r3 <;> rfl

theorem audioSegment_miss_openai (sha : Sha256) (client : Client) (txt : Text)
    (audioDir : String) (cachedHashes : List String) (j : Nat) (currentHash : String) (w : World)
    (slide : SlideText) (body : String)
    (hmiss : currentHash ≠ cachedHashAt cachedHashes j)
    (hslide : txt.SlidesText[j]? = some slide)
    (hinner : SprintfHex (sha slide.Text).bytes ≠ cachedHashAt cachedHashes j)
    (hspeech : client.speech slide.Text = .ok body) :
    audioSegment sha client OpenAITTS txt audioDir cachedHashes j currentHash w =
      (.ok (audioPath audioDir j),
        (w.log (Event.speech slide.Text)).writeFile (audioPath audioDir j) body) := by
  unfold audioSegment audioGate
  simp only [hmiss, if_false, if_true, hslide]
  unfold GenerateAudioOpenAI
  simp only [hinner, if_false, hspeech]

theorem audioSegment_openai_result (sha : Sha256) (client : Client) (txt : Text)
    (audioDir : String) (cachedHashes : List String) (j : Nat) (currentHash : String)
    (w w' : World) (r : String)
    (h : audioSegment sha client OpenAITTS txt audioDir cachedHashes j currentHash w = (.ok r, w')) :
    r = audioPath audioDir j := by
  unfold audioSegment at h
  split at h
  · rename_i p hg
    unfold audioGate at hg
    split at hg
    · simp only [Prod.mk.injEq, Except.ok.injEq] at h
      rw [← h.1]; exact (Decision.Reuse.inj hg).symm
    · exact absurd hg (by simp)
  · simp only [if_true] at h
    split at h
    · exact absurd h (by simp)
    · split at h
      · exact absurd h (by simp)
      · simp only [Prod.mk.injEq, Except.ok.injEq] at h
        exact h.1.symm

theorem audioWorkers_openai_results (sha : Sha256) (client : Client) (txt : Text)
    (audioDir : String) (cachedHashes : List String) (hs : List String) (j : Nat)
    (w w' : World) (rs : List String)
    (h : audioWorkers sha client OpenAITTS txt audioDir cachedHashes hs j w = (.ok rs, w')) :
    rs = (List.range hs.length).map fun k => audioPath audioDir (j + k) := by
  induction hs generalizing j w w' rs with
  | nil =>
    simp only [audioWorkers, Prod.mk.injEq, Except.ok.injEq] at h
    rw [← h.1]; rfl
  | cons fp rest ih =>
    unfold audioWorkers at h
    cases hseg : audioSegment sha client OpenAITTS txt audioDir cachedHashes j fp w with
    | mk r1 w1 =>
      rw [hseg] at h
      cases r1 with
      | error e => simp at h
      | ok p1 =>
        simp only at h
        cases hrest : audioWorkers sha client OpenAITTS txt audioDir cachedHashes rest (j + 1) w1 with
        | mk r2 w2 =>
          rw [hrest] at h
          cases r2 with
          | error e => simp at h
          | ok rs2 =>
            simp only [Prod.mk.injEq, Except.ok.injEq] at h
            rw [← h.1, ih _ _ _ _ hrest, audioSegment_openai_result _ _ _ _ _ _ _ _ _ _ hseg]
            simp only [List.length_cons, List.range_succ_eq_map, List.map_cons, List.map_map,
              Nat.add_zero]
            congr 1
            apply List.map_congr_left
            intro k _
            simp [Nat.add_assoc, Nat.add_comm 1 k]

theorem getElem?_eq_some_cachedHashAt (prev : List String) (k : Nat) (h : k < prev.length) :
    prev[k]? = some (cachedHashAt prev k) := by
  unfold cachedHashAt
  rw [dif_pos h, List.getElem?_eq_getElem h]


/-! ## Lemmas on the video stage -/

theorem concatInputs_getElem? (videoFiles : List String) (k : Nat) :
    (concatInputs videoFiles)[2 * k]? = (if k < videoFiles.length then some "-i" else none) ∧
    (concatInputs videoFiles)[2 * k + 1]? = videoFiles[k]? := by
  induction videoFiles generalizing k with
  | nil => simp [concatInputs]
  | cons v rest ih =>
    cases k with
    | zero => simp [concatInputs]
    | succ k =>
      have e1 : 2 * (k + 1) = 2 * k + 1 + 1 := by omega
      have e2 : 2 * (k + 1) + 1 = 2 * k + 1 + 1 + 1 := by omega
      obtain ⟨h1, h2⟩ := ih k
      constructor
      · rw [e1]
        simp only [concatInputs, List.getElem?_cons_succ, List.length_cons, h1]
        simp
      · rw [e2]
        simp only [concatInputs, List.getElem?_cons_succ, h2]

theorem BuildFFmpegConcatCommand_inputs (videoFiles : List String) (finalOutput : String) (k : Nat)
    (hk : k < videoFiles.length) :
    (BuildFFmpegConcatCommand videoFiles finalOutput)[2 + 2 * k]? = some "-i" ∧
    (BuildFFmpegConcatCommand videoFiles finalOutput)[3 + 2 * k]? = videoFiles[k]? := by
  obtain ⟨h1, h2⟩ := concatInputs_getElem? videoFiles k
  have hlen : ∀ l : List String, (concatInputs l).length = 2 * l.length := by
    intro l
    induction l with
    | nil => rfl
    | cons v rest ih => simp only [concatInputs, List.length_cons, ih]; omega
  have e1 : 2 + 2 * k = (2 * k) + 1 + 1 := by omega
  have e2 : 3 + 2 * k = (2 * k + 1) + 1 + 1 := by omega
  have hform : BuildFFmpegConcatCommand videoFiles finalOutput =
      "ffmpeg" :: "-y" :: (concatInputs videoFiles ++
        ["-filter_complex", concatStreams videoFiles.length 0 ++
          ("concat=n=" ++ toString videoFiles.length ++ ":v=1:a=1[outv][outa]"),
         "-map", "[outv]", "-map", "[outa]", finalOutput]) := by
    simp [BuildFFmpegConcatCommand]
  rw [hform]
  constructor
  · rw [e1, List.getElem?_cons_succ, List.getElem?_cons_succ,
      List.getElem?_append_left (by rw [hlen]; omega), h1, if_pos hk]
  · rw [e2, List.getElem?_cons_succ, List.getElem?_cons_succ,
      List.getElem?_append_left (by rw [hlen]; omega), h2]

theorem renderSegments_ok (enc : Encoder) (width height : Int) (videoDir audioLang : String)
    (slides audioList : List String) (remaining i : Nat) (videoFiles : List String)
    (w w' : World) (files : List String)
    (h : renderSegments enc width height videoDir audioLang slides audioList remaining i
      videoFiles w = (.ok files, w')) :
    files = videoFiles ++ (List.range remaining).map (fun k => outputVideoPath videoDir audioLang (i + k)) ∧
    ∃ evs, w'.trace = w.trace ++ evs ∧
      ∀ k, k < remaining → ∃ slide audio iw ih, slides[i + k]? = some slide ∧
        audioList[i + k]? = some audio ∧
        Event.exec (renderCommand width height iw ih slide audio
          (outputVideoPath videoDir audioLang (i + k))) ∈ evs := by
  induction remaining generalizing i videoFiles w with
  | zero =>
    simp only [renderSegments, Prod.mk.injEq, Except.ok.injEq] at h
    obtain ⟨rfl, rfl⟩ := h
    exact ⟨by simp, [], by simp, fun k hk => absurd hk (by omega)⟩
  | succ n ih =>
    unfold renderSegments at h
    split at h
    · rename_i slide audio hs ha
      split at h
      · exact absurd h (by simp)
      · rename_i iw ih' w1 hdim
        simp only at h
        split at h
        · obtain ⟨hfiles, evs, htr, hev⟩ := ih _ _ _ h
          have hw1 : w1.trace = w.trace ++
              [Event.exec ["ffmpeg", "-i", slide, "-vf", "scale", "-vframes", "1", "-f", "null", "-"]] := by
            unfold GetImageDimensions at hdim
            simp only [Prod.mk.injEq] at hdim
            rw [← hdim.2]; rfl
          refine ⟨?_, ?_⟩
          · rw [hfiles, List.range_succ_eq_map, List.map_cons, List.map_map, List.append_assoc]
            simp only [List.singleton_append, Nat.add_zero]
            congr 2
            apply List.map_congr_left
            intro k _
            simp [Nat.add_assoc, Nat.add_comm 1 k]
          · refine ⟨Event.exec ["ffmpeg", "-i", slide, "-vf", "scale", "-vframes", "1", "-f", "null", "-"] ::
              Event.exec (renderCommand width height iw ih' slide audio
              (outputVideoPath videoDir audioLang i)) :: evs, ?_, ?_⟩
            · rw [htr]
              simp [World.log, hw1]
            · intro k hk
              cases k with
              | zero =>
                exact ⟨slide, audio, iw, ih', hs, ha, by simp⟩
              | succ k =>
                obtain ⟨s, a, iw2, ih2, h1, h2, h3⟩ := hev k (by omega)
                refine ⟨s, a, iw2, ih2, ?_, ?_, ?_⟩
                · rw [← h1]; congr 1; omega
                · rw [← h2]; congr 1; omega
                · have e : i + (k + 1) = i + 1 + k := by omega
                  rw [e]
                  exact List.mem_cons_of_mem _ (List.mem_cons_of_mem _ h3)
        · exact absurd h (by simp)
    · exact absurd h (by simp)

theorem generateVideosLang_ok (enc : Encoder) (width height : Int) (slides : List String)
    (cacheDir dataDir audioLang : String) (audioList : List String) (w w' : World)
    (files : List String)
    (h : generateVideosLang enc width height slides cacheDir dataDir audioLang audioList w =
      (.ok files, w')) :
    files = (List.range slides.length).map
      (outputVideoPath (Join [Join [cacheDir, audioLang], "videos"]) audioLang) ∧
    ∃ evs, w'.trace = w.trace ++ evs ∧
      (∀ k, k < slides.length → ∃ slide audio iw ih, slides[k]? = some slide ∧
        audioList[k]? = some audio ∧
        Event.exec (renderCommand width height iw ih slide audio
          (outputVideoPath (Join [Join [cacheDir, audioLang], "videos"]) audioLang k)) ∈ evs) ∧
      Event.exec (BuildFFmpegConcatCommand files
        (Join [Join [dataDir, "out"], "output-" ++ audioLang ++ ".mp4"])) ∈ evs := by
  unfold generateVideosLang at h
  simp only at h
  split at h
  · exact absurd h (by simp)
  · split at h
    · exact absurd h (by simp)
    · rename_i videoFiles w1 hrender
      split at h
      · simp only [Prod.mk.injEq, Except.ok.injEq] at h
        obtain ⟨rfl, rfl⟩ := h
        obtain ⟨hfiles, evs, htr, hev⟩ := renderSegments_ok _ _ _ _ _ _ _ _ _ _ _ _ _ hrender
        refine ⟨?_, evs ++ [Event.exec (BuildFFmpegConcatCommand videoFiles
          (Join [Join [dataDir, "out"], "output-" ++ audioLang ++ ".mp4"]))], ?_, ?_, by simp⟩
        · rw [hfiles]
          simp only [List.nil_append, Nat.zero_add]
        · simp [World.log, htr]
        · intro k hk
          obtain ⟨s, a, iw, ih, h1, h2, h3⟩ := hev k hk
          rw [Nat.zero_add] at h1 h2 h3
          exact ⟨s, a, iw, ih, h1, h2, List.mem_append_left _ h3⟩
      · exact absurd h (by simp)

theorem generateVideosLoop_ok (enc : Encoder) (width height : Int) (slides : List String)
    (cacheDir dataDir : String) (audios : List (String × List String)) (w w' : World)
    (r : List (String × List String))
    (h : generateVideosLoop enc width height slides cacheDir dataDir audios w = (.ok r, w')) :
    ∃ evs, w'.trace = w.trace ++ evs ∧
      ∀ audioLang audioList, (audioLang, audioList) ∈ audios →
        (audioLang, (List.range slides.length).map
          (outputVideoPath (Join [Join [cacheDir, audioLang], "videos"]) audioLang)) ∈ r ∧
        (∀ k, k < slides.length → ∃ slide audio iw ih, slides[k]? = some slide ∧
          audioList[k]? = some audio ∧
          Event.exec (renderCommand width height iw ih slide audio
            (outputVideoPath (Join [Join [cacheDir, audioLang], "videos"]) audioLang k)) ∈ evs) ∧
        Event.exec (BuildFFmpegConcatCommand ((List.range slides.length).map
            (outputVideoPath (Join [Join [cacheDir, audioLang], "videos"]) audioLang))
          (Join [Join [dataDir, "out"], "output-" ++ audioLang ++ ".mp4"])) ∈ evs := by
  induction audios generalizing w r with
  | nil =>
    simp only [generateVideosLoop, Prod.mk.injEq] at h
    exact ⟨[], by rw [← h.2]; simp, fun _ _ hm => absurd hm (by simp)⟩
  | cons entry rest ih =>
    obtain ⟨lang0, list0⟩ := entry
    unfold generateVideosLoop at h
    split at h
    · exact absurd h (by simp)
    · rename_i videoFiles w1 hlang
      split at h
      · exact absurd h (by simp)
      · rename_i r2 w2 hrest
        simp only [Prod.mk.injEq, Except.ok.injEq] at h
        obtain ⟨rfl, rfl⟩ := h
        obtain ⟨hfiles, evs1, htr1, hev1, hcat1⟩ := generateVideosLang_ok _ _ _ _ _ _ _ _ _ _ _ hlang
        obtain ⟨evs2, htr2, hall⟩ := ih _ _ hrest
        refine ⟨evs1 ++ evs2, by rw [htr2, htr1, List.append_assoc], ?_⟩
        intro audioLang audioList hmem
        rcases List.mem_cons.1 hmem with heq | hmem
        · simp only [Prod.mk.injEq] at heq
          obtain ⟨rfl, rfl⟩ := heq
          refine ⟨by rw [hfiles]; simp, ?_, ?_⟩
          · intro k hk
            obtain ⟨s, a, iw, ih', h1, h2, h3⟩ := hev1 k hk
            exact ⟨s, a, iw, ih', h1, h2, List.mem_append_left _ h3⟩
          · rw [← hfiles]
            exact List.mem_append_left _ hcat1
        · obtain ⟨h1, h2, h3⟩ := hall audioLang audioList hmem
          refine ⟨List.mem_cons_of_mem _ h1, ?_, List.mem_append_right _ h3⟩
          intro k hk
          obtain ⟨s, a, iw, ih', h1, h2, h3⟩ := h2 k hk
          exact ⟨s, a, iw, ih', h1, h2, List.mem_append_right _ h3⟩


/-! ## Lemmas on the text stage -/

theorem translateWorkers_ok (client : Client) (lang : String) (inputHashes : List String)
    (slides : List SlideText) (i : Nat) (w w' : World) (r : List (SlideText × String))
    (h : translateWorkers client lang inputHashes slides i w = (.ok r, w')) :
    w'.fs = w.fs ∧
    w'.trace = w.trace ++ slides.map (fun s => Event.chat (translatePrompt s.Text lang)) ∧
    r.length = slides.length ∧
    r.map Prod.snd = (inputHashes.drop i).take slides.length := by
  induction slides generalizing i w r with
  | nil =>
    simp only [translateWorkers, Prod.mk.injEq, Except.ok.injEq] at h
    obtain ⟨rfl, rfl⟩ := h
    simp
  | cons s rest ih =>
    unfold translateWorkers at h
    simp only at h
    split at h
    · exact absurd h (by simp)
    · rename_i choices hchat
      split at h
      · rename_i translatedText hh hhead hhash
        split at h
        · rename_i r2 w2 hrest
          simp only [Prod.mk.injEq, Except.ok.injEq] at h
          obtain ⟨rfl, rfl⟩ := h
          obtain ⟨hfs, htr, hlen, hsnd⟩ := ih _ _ _ hrest
          have hi : i < inputHashes.length := by
            by_contra hc
            rw [List.getElem?_eq_none (by omega)] at hhash
            exact absurd hhash (by simp)
          refine ⟨by rw [hfs]; rfl, ?_, by simp [hlen], ?_⟩
          · rw [htr]; simp [World.log]
          · rw [List.getElem?_eq_getElem hi] at hhash
            simp only [List.map_cons, hsnd, List.length_cons, List.take_succ_cons]
            rw [List.drop_eq_getElem_cons hi, List.take_succ_cons]
            congr 1
            exact (Option.some.inj hhash).symm
        · exact absurd h (by simp)
      · exact absurd h (by simp)

theorem translateWorkers_trace (client : Client) (lang : String) (inputHashes : List String)
    (slides : List SlideText) (i : Nat) (w w' : World) (r : Except Fatal (List (SlideText × String)))
    (h : translateWorkers client lang inputHashes slides i w = (r, w')) :
    w'.fs = w.fs ∧
    ∃ n, n ≤ slides.length ∧
      w'.trace = w.trace ++ (slides.take n).map (fun s => Event.chat (translatePrompt s.Text lang)) ∧
      (0 < slides.length → 0 < n) := by
  induction slides generalizing i w w' r with
  | nil =>
    simp only [translateWorkers, Prod.mk.injEq] at h
    obtain ⟨_, rfl⟩ := h
    exact ⟨rfl, 0, by simp, by simp, by simp⟩
  | cons s rest ih =>
    unfold translateWorkers at h
    simp only at h
    have one : (w.log (Event.chat (translatePrompt s.Text lang))).trace =
        w.trace ++ ((s :: rest).take 1).map (fun s => Event.chat (translatePrompt s.Text lang)) := by
      simp [World.log]
    split at h
    · simp only [Prod.mk.injEq] at h
      obtain ⟨_, rfl⟩ := h
      exact ⟨rfl, 1, by simp, one, by simp⟩
    · split at h
      · cases hrest : translateWorkers client lang inputHashes rest (i + 1)
            (w.log (Event.chat (translatePrompt s.Text lang))) with
        | mk r2 w2 =>
          rw [hrest] at h
          obtain ⟨hfs, n, hn, htr, _⟩ := ih _ _ _ _ hrest
          have hw : w' = w2 := by
            cases r2 <;> simp only [Prod.mk.injEq] at h <;> exact h.2.symm
          subst hw
          refine ⟨by rw [hfs]; rfl, n + 1, by simp; omega, ?_, by simp⟩
          rw [htr]; simp [World.log]
      · simp only [Prod.mk.injEq] at h
        obtain ⟨_, rfl⟩ := h
        exact ⟨rfl, 1, by simp, one, by simp⟩

theorem translateWorkers_indep (client : Client) (lang : String) (inputHashes : List String)
    (slides : List SlideText) (i : Nat) (w w2 : World) :
    (translateWorkers client lang inputHashes slides i w).1 =
      (translateWorkers client lang inputHashes slides i w2).1 ∧
    ∃ evs, (translateWorkers client lang inputHashes slides i w).2.trace = w.trace ++ evs ∧
      (translateWorkers client lang inputHashes slides i w2).2.trace = w2.trace ++ evs := by
  induction slides generalizing i w w2 with
  | nil => exact ⟨rfl, [], by simp [translateWorkers], by simp [translateWorkers]⟩
  | cons s rest ih =>
    unfold translateWorkers
    simp only
    cases client.chat (translatePrompt s.Text lang) with
    | error e => exact ⟨rfl, [Event.chat (translatePrompt s.Text lang)], rfl, rfl⟩
    | ok choices =>
      simp only
      cases choices.head? with
      | none => exact ⟨rfl, [Event.chat (translatePrompt s.Text lang)], rfl, rfl⟩
      | some translatedText =>
        cases inputHashes[i]? with
        | none => exact ⟨rfl, [Event.chat (translatePrompt s.Text lang)], rfl, rfl⟩
        | some hsh =>
          simp only
          obtain ⟨h1, evs, h2, h3⟩ := ih (i + 1) (w.log (Event.chat (translatePrompt s.Text lang)))
            (w2.log (Event.chat (translatePrompt s.Text lang)))
          cases ha : translateWorkers client lang inputHashes rest (i + 1)
              (w.log (Event.chat (translatePrompt s.Text lang))) with
          | mk ra wa =>
            cases hb : translateWorkers client lang inputHashes rest (i + 1)
                (w2.log (Event.chat (translatePrompt s.Text lang))) with
            | mk rb wb =>
              rw [ha, hb] at h1
              rw [ha] at h2
              rw [hb] at h3
              simp only at h1 h2 h3
              subst h1
              refine ⟨?_, Event.chat (translatePrompt s.Text lang) :: evs, ?_, ?_⟩
              · cases ra <;> rfl
              · cases ra <;> simp [h2, World.log]
              · cases ra <;> simp [h3, World.log]

theorem translateText_ok (t : Text) (client : Client) (inputText : Text) (w w' : World) (t' : Text)
    (h : t.translateText client inputText w = (.ok t', w')) :
    w'.trace = w.trace ++
      inputText.SlidesText.map (fun s => Event.chat (translatePrompt s.Text t.Lang)) ++
      [Event.create (Join [t.TextDir, "texts.txt"]), Event.create (Join [t.TextDir, "hashes"])] ∧
    t'.Hashes = inputText.Hashes.take inputText.SlidesText.length ∧
    t'.SlidesText.length = inputText.SlidesText.length ∧
    t'.Lang = t.Lang ∧ t'.DataDir = t.DataDir ∧
    (∀ p, p ≠ Join [t.TextDir, "texts.txt"] → p ≠ Join [t.TextDir, "hashes"] → w'.fs p = w.fs p) := by
  unfold Text.translateText at h
  split at h
  · exact absurd h (by simp)
  · rename_i r w1 hw
    obtain ⟨hfs, htr, hlen, hsnd⟩ := translateWorkers_ok _ _ _ _ _ _ _ _ hw
    simp only at h
    split at h
    · exact absurd h (by simp)
    · rename_i w2 hsave
      simp only [Prod.mk.injEq, Except.ok.injEq] at h
      obtain ⟨rfl, rfl⟩ := h
      unfold Text.saveTextFile at hsave
      simp only at hsave
      split at hsave
      · exact absurd hsave (by simp)
      · simp only [Prod.mk.injEq, true_and] at hsave
        subst hsave
        refine ⟨?_, ?_, ?_, rfl, rfl, ?_⟩
        · simp [World.writeFile, htr]
        · simp [hsnd]
        · simp [hlen]
        · intro p h1 h2
          simp [World.writeFile, h1, h2, hfs]


/-! ## Lemmas on the layout of the cache -/

theorem Join_pair_getLast? (d x : String) (hx : x ≠ "") :
    (Join [d, x]).data.getLast? = x.data.getLast? := by
  obtain ⟨pre, h, _⟩ := Join_pair_data d x hx
  have hne : x.data ≠ [] := fun e => hx (String.ext e)
  rw [h, List.getLast?_append_of_ne_nil _ hne]

theorem Join_pair_ne_empty (d x : String) (hx : x ≠ "") : Join [d, x] ≠ "" := by
  intro h
  obtain ⟨pre, hd, _⟩ := Join_pair_data d x hx
  rw [h] at hd
  have hne : x.data ≠ [] := fun e => hx (String.ext e)
  have : pre ++ x.data = [] := hd.symm
  exact hne (List.append_eq_nil.1 this).2

theorem audioPath_ne_any_hashes (d d' : String) (j : Nat) : audioPath d j ≠ Join [d', "hashes"] := by
  intro h
  have h1 := Join_pair_getLast? d _ (mp3_ne_empty j)
  have h2 := Join_pair_getLast? d' "hashes" (by decide)
  unfold audioPath at h
  rw [h, h2] at h1
  simp [String.data_append] at h1

theorem loadTextInput_foldl (sha : Sha256) (lines : List String)
    (st : List SlideText × List String × String) :
    ((lines.foldl (loadTextInputStep sha) st).1.length + st.2.1.length =
      st.1.length + (lines.foldl (loadTextInputStep sha) st).2.1.length) ∧
    ((∀ h ∈ st.2.1, IsHexDigest h) →
      ∀ h ∈ (lines.foldl (loadTextInputStep sha) st).2.1, IsHexDigest h) := by
  induction lines generalizing st with
  | nil => exact ⟨rfl, fun h => h⟩
  | cons line rest ih =>
    simp only [List.foldl_cons]
    obtain ⟨h1, h2⟩ := ih (loadTextInputStep sha st line)
    unfold loadTextInputStep at h1 h2 ⊢
    by_cases hl : line = "-"
    · simp only [hl, if_true, List.length_append, List.length_singleton] at h1 h2 ⊢
      refine ⟨by omega, fun hst => h2 ?_⟩
      intro h hh
      rcases List.mem_append.1 hh with hh | hh
      · exact hst h hh
      · rw [List.mem_singleton.1 hh]
        exact Hash_isHexDigest sha _
    · simp only [hl, if_false] at h1 h2 ⊢
      exact ⟨h1, h2⟩

theorem loadTextInput_NewText (sha : Sha256) (rootDir lang textFile : String) :
    ((NewText rootDir lang).loadTextInput sha textFile).Lang = lang ∧
    ((NewText rootDir lang).loadTextInput sha textFile).DataDir = Join [rootDir, "data"] ∧
    ((NewText rootDir lang).loadTextInput sha textFile).SlidesText.length =
      ((NewText rootDir lang).loadTextInput sha textFile).Hashes.length ∧
    (∀ h ∈ ((NewText rootDir lang).loadTextInput sha textFile).Hashes, IsHexDigest h) := by
  obtain ⟨h1, h2⟩ := loadTextInput_foldl sha (scanLines textFile)
    ((NewText rootDir lang).SlidesText, [], "")
  refine ⟨rfl, rfl, ?_, ?_⟩
  · simp only [Text.loadTextInput, List.length_append, List.length_singleton]
    simp only [NewText, List.length_nil] at h1 ⊢
    omega
  · intro h hh
    simp only [Text.loadTextInput] at hh
    rcases List.mem_append.1 hh with hh | hh
    · exact h2 (by simp) h hh
    · rw [List.mem_singleton.1 hh]
      exact Hash_isHexDigest sha _

theorem GenerateText_some_ok (sha : Sha256) (client : Client) (t inputText : Text) (w w' : World)
    (t' : Text) (h : t.GenerateText sha client (some inputText) w = (.ok t', w')) :
    t.translateText client inputText w = (.ok t', w') := by
  unfold Text.GenerateText at h
  simp only at h
  cases hfile : w.fs (Join [t.TextDir, "texts.txt"]) with
  | none => rw [hfile] at h; exact absurd h (by simp)
  | some c => rw [hfile] at h; exact h

theorem GenerateText_none_ok (sha : Sha256) (client : Client) (t : Text) (w w' : World)
    (t' : Text) (h : t.GenerateText sha client none w = (.ok t', w')) :
    w' = w ∧ ∃ content, w.fs (Join [t.DataDir, "texts.txt"]) = some content ∧
      t' = t.loadTextInput sha content := by
  unfold Text.GenerateText at h
  simp only at h
  cases hfile : w.fs (Join [t.DataDir, "texts.txt"]) with
  | none => rw [hfile] at h; exact absurd h (by simp)
  | some c =>
    rw [hfile] at h
    simp only [Prod.mk.injEq, Except.ok.injEq] at h
    exact ⟨h.2.symm, c, rfl, h.1.symm⟩

theorem generateTextsLoop_ok (sha : Sha256) (client : Client) (rootDir langIn : String) (j : Nat)
    (langs H : List String) (i0 : Option Nat)
    (hi0 : (i0 = some j ∧ langs[j]? = some langIn) ∨
      (i0 = none ∧ j = 0 ∧ langIn ∉ langs ∧ H = []))
    (rest : List String) (i : Nat) (slots : List (Option Text)) (w : World)
    (slots' : List (Option Text)) (w' : World)
    (hdrop : langs.drop i = rest)
    (hinv : SlotsInv rootDir langIn langs H i0 i slots)
    (h : generateTextsLoop sha client rootDir langIn j rest i slots w = (.ok slots', w')) :
    SlotsInv rootDir langIn langs H i0 langs.length slots' ∧
    (∀ p, ¬ TextPath rootDir p → w'.fs p = w.fs p) ∧
    ∃ evs, w'.trace = w.trace ++ evs ∧
      evs.countP isChat = H.length * (rest.filter fun l => decide (l ≠ langIn)).length := by
  induction rest generalizing i slots w with
  | nil =>
    simp only [generateTextsLoop, Prod.mk.injEq, Except.ok.injEq] at h
    obtain ⟨rfl, rfl⟩ := h
    have hlen : langs.length ≤ i := List.drop_eq_nil_iff.1 hdrop
    refine ⟨⟨hinv.1, ?_⟩, fun _ _ => rfl, [], by simp, by simp⟩
    intro k lang hk
    have hkl : k < langs.length := by
      by_contra hc
      rw [List.getElem?_eq_none (by omega)] at hk
      exact absurd hk (by simp)
    obtain ⟨h1, h2⟩ := hinv.2 k lang hk
    constructor
    · intro hc
      apply h1
      rcases hc with ⟨_, hl⟩ | hc
      · exact Or.inl ⟨by omega, hl⟩
      · exact Or.inr hc
    · intro hc
      apply h2
      intro hc'
      apply hc
      rcases hc' with ⟨_, hl⟩ | hc'
      · exact Or.inl ⟨hkl, hl⟩
      · exact Or.inr hc'
  | cons langOut rest' ih =>
    have hi : i < langs.length := by
      by_contra hc
      rw [List.drop_eq_nil_iff.2 (by omega)] at hdrop
      exact absurd hdrop (by simp)
    have hdrop' : langs.drop (i + 1) = rest' := by
      rw [List.drop_eq_getElem_cons hi] at hdrop
      exact (List.cons.inj hdrop).2
    have hlangi : langs[i]? = some langOut := by
      rw [List.drop_eq_getElem_cons hi] at hdrop
      rw [List.getElem?_eq_getElem hi, (List.cons.inj hdrop).1]
    have hsl : i < slots.length := by rw [hinv.1]; exact hi
    unfold generateTextsLoop at h
    by_cases hne : langIn ≠ langOut
    · simp only [hne, ne_eq, not_false_eq_true, if_true] at h
      have hin : ∃ inp, (slots.set i (some (NewText rootDir langOut))).getD j none = some inp ∧
          inp.Hashes = H ∧ inp.SlidesText.length = H.length := by
        rcases hi0 with ⟨h0, hj⟩ | ⟨h0, hj, hnot, hH⟩
        · have hji : j ≠ i := by
            rintro rfl
            rw [hlangi] at hj
            exact hne (Option.some.inj hj).symm
          obtain ⟨txt, hs, hg⟩ := (hinv.2 j langIn hj).1 (Or.inr h0)
          refine ⟨txt, ?_, hg.2.2.1, hg.2.2.2⟩
          rw [List.getD_eq_getElem?_getD, List.getElem?_set_ne (Ne.symm hji), hs]
          rfl
        · subst hj
          by_cases hz : i = 0
          · subst hz
            refine ⟨NewText rootDir langOut, ?_, by rw [hH]; rfl, by rw [hH]; rfl⟩
            rw [List.getD_eq_getElem?_getD, List.getElem?_set_self hsl]
            rfl
          · have h0l : 0 < langs.length := by omega
            have hl0 : langs[0]? = some langs[0] := List.getElem?_eq_getElem h0l
            have hl0ne : langs[0] ≠ langIn := fun e => hnot (e ▸ List.getElem_mem h0l)
            obtain ⟨txt, hs, hg⟩ := (hinv.2 0 _ hl0).1 (Or.inl ⟨by omega, hl0ne⟩)
            refine ⟨txt, ?_, hg.2.2.1, hg.2.2.2⟩
            rw [List.getD_eq_getElem?_getD, List.getElem?_set_ne hz, hs]
            rfl
      obtain ⟨inp, hinp, hinpH, hinpL⟩ := hin
      rw [hinp] at h
      cases hg : (NewText rootDir langOut).GenerateText sha client (some inp) w with
      | mk r w1 =>
        rw [hg] at h
        cases r with
        | error e => exact absurd h (by simp)
        | ok t =>
          simp only at h
          obtain ⟨htr, hH', hL', hlang, hdata, hframe⟩ :=
            translateText_ok _ _ _ _ _ _ (GenerateText_some_ok _ _ _ _ _ _ _ hg)
          have hgood : GoodText rootDir H langOut t := by
            refine ⟨hlang, hdata, ?_, ?_⟩
            · rw [hH', hinpH, hinpL, List.take_length]
            · rw [hL', hinpL]
          have hinv' : SlotsInv rootDir langIn langs H i0 (i + 1)
              ((slots.set i (some (NewText rootDir langOut))).set i (some t)) := by
            refine ⟨by simp [hinv.1], ?_⟩
            intro k lang hk
            by_cases hki : k = i
            · subst hki
              have : lang = langOut := by
                rw [hlangi] at hk; exact (Option.some.inj hk).symm
              subst this
              refine ⟨fun _ => ⟨t, ?_, hgood⟩, fun hc => absurd (Or.inl ⟨by omega, Ne.symm hne⟩) hc⟩
              rw [List.getElem?_set_self (by simpa using hsl)]
            · obtain ⟨h1, h2⟩ := hinv.2 k lang hk
              rw [List.getElem?_set_ne (Ne.symm hki), List.getElem?_set_ne (Ne.symm hki)]
              constructor
              · intro hc
                apply h1
                rcases hc with ⟨hlt, hl⟩ | hc
                · exact Or.inl ⟨by omega, hl⟩
                · exact Or.inr hc
              · intro hc
                apply h2
                intro hc'
                apply hc
                rcases hc' with ⟨hlt, hl⟩ | hc'
                · exact Or.inl ⟨by omega, hl⟩
                · exact Or.inr hc'
          obtain ⟨r1, r2, evs, r3, r4⟩ := ih (i + 1) _ w1 hdrop' hinv' h
          refine ⟨r1, ?_, ?_⟩
          · intro p hp
            rw [r2 p hp]
            apply hframe
            · intro e; exact hp ⟨langOut, Or.inl e⟩
            · intro e; exact hp ⟨langOut, Or.inr e⟩
          · refine ⟨inp.SlidesText.map (fun s => Event.chat (translatePrompt s.Text
                (NewText rootDir langOut).Lang)) ++
              [Event.create (Join [(NewText rootDir langOut).TextDir, "texts.txt"]),
               Event.create (Join [(NewText rootDir langOut).TextDir, "hashes"])] ++ evs, ?_, ?_⟩
            · rw [r3, htr]; simp
            · have hc1 : (inp.SlidesText.map (fun s => Event.chat (translatePrompt s.Text
                  (NewText rootDir langOut).Lang))).countP isChat = inp.SlidesText.length := by
                rw [List.countP_eq_length.2]
                · simp
                · intro e he
                  obtain ⟨s, _, rfl⟩ := List.mem_map.1 he
                  rfl
              have hfil : ((langOut :: rest').filter fun l => decide (l ≠ langIn)) =
                  langOut :: rest'.filter fun l => decide (l ≠ langIn) := by
                rw [List.filter_cons_of_pos]
                simpa using Ne.symm hne
              rw [List.countP_append, List.countP_append, hc1, r4, hfil, hinpL]
              simp only [List.countP_cons, List.countP_nil, isChat, List.length_cons]
              simp [Nat.mul_add, Nat.add_comm]
    · have heq : langIn = langOut := not_not.1 hne
      simp only [heq, ne_eq, not_true_eq_false, if_false] at h
      have hinv' : SlotsInv rootDir langIn langs H i0 (i + 1) slots := by
        refine ⟨hinv.1, ?_⟩
        intro k lang hk
        obtain ⟨h1, h2⟩ := hinv.2 k lang hk
        by_cases hki : k = i
        · subst hki
          have hl : lang = langIn := by
            rw [hlangi] at hk; rw [heq]; exact (Option.some.inj hk).symm
          constructor
          · intro hc
            apply h1
            rcases hc with ⟨_, hc⟩ | hc
            · exact absurd hl hc
            · exact Or.inr hc
          · intro hc
            apply h2
            intro hc'
            apply hc
            rcases hc' with ⟨_, hc'⟩ | hc'
            · exact absurd hl hc'
            · exact Or.inr hc'
        · constructor
          · intro hc
            apply h1
            rcases hc with ⟨hlt, hl⟩ | hc
            · exact Or.inl ⟨by omega, hl⟩
            · exact Or.inr hc
          · intro hc
            apply h2
            intro hc'
            apply hc
            rcases hc' with ⟨hlt, hl⟩ | hc'
            · exact Or.inl ⟨by omega, hl⟩
            · exact Or.inr hc'
      rw [← heq] at h
      obtain ⟨r1, r2, evs, r3, r4⟩ := ih (i + 1) _ w hdrop' hinv' h
      refine ⟨r1, r2, evs, r3, ?_⟩
      rw [r4, ← heq, List.filter_cons_of_neg (by simp)]

theorem GenerateTexts_ok (sha : Sha256) (client : Client) (t : Texts) (w : World)
    (texts : Texts) (w' : World)
    (h : t.GenerateTexts sha client w = (.ok texts, w')) :
    SlotsInv t.RootDir t.LangIn t.LangsOut (inputHashes sha t w.fs)
      (t.LangsOut.indexOf? t.LangIn) t.LangsOut.length texts.Texts ∧
    (∀ x ∈ inputHashes sha t w.fs, IsHexDigest x) ∧
    (∀ p, ¬ TextPath t.RootDir p → w'.fs p = w.fs p) ∧
    ∃ evs, w'.trace = w.trace ++ evs ∧
      evs.countP isChat = (inputHashes sha t w.fs).length *
        (t.LangsOut.filter fun l => decide (l ≠ t.LangIn)).length := by
  unfold Texts.GenerateTexts at h
  simp only at h
  cases hidx : t.LangsOut.indexOf? t.LangIn with
  | some i =>
    rw [hidx] at h
    simp only at h
    cases hg : (NewText t.RootDir t.LangIn).GenerateText sha client none w with
    | mk r w1 =>
      rw [hg] at h
      cases r with
      | error e => exact absurd h (by simp)
      | ok text =>
        simp only at h
        obtain ⟨rfl, content, hfile, rfl⟩ := GenerateText_none_ok _ _ _ _ _ _ hg
        have hfile' : w1.fs (Join [Join [t.RootDir, "data"], "texts.txt"]) = some content := hfile
        have hH : inputHashes sha t w1.fs =
            ((NewText t.RootDir t.LangIn).loadTextInput sha content).Hashes := by
          unfold inputHashes
          rw [hidx, hfile']
        obtain ⟨l1, l2, l3, l4⟩ := loadTextInput_NewText sha t.RootDir t.LangIn content
        have hfind := List.findIdx?_of_eq_some (show t.LangsOut.findIdx? (· == t.LangIn) = some i
          from hidx)
        have hil : i < t.LangsOut.length := by
          by_contra hc
          rw [List.getElem?_eq_none (by omega)] at hfind
          simp at hfind
        have hli : t.LangsOut[i]? = some t.LangIn := by
          rw [List.getElem?_eq_getElem hil] at hfind ⊢
          simp only [beq_iff_eq] at hfind
          rw [hfind]
        cases hl : generateTextsLoop sha client t.RootDir t.LangIn i t.LangsOut 0
            ((List.replicate t.LangsOut.length (none : Option Text)).set i
              (some ((NewText t.RootDir t.LangIn).loadTextInput sha content))) w1 with
        | mk r2 w2 =>
          rw [hl] at h
          cases r2 with
          | error e => exact absurd h (by simp)
          | ok slots2 =>
            simp only [Prod.mk.injEq, Except.ok.injEq] at h
            obtain ⟨rfl, rfl⟩ := h
            have hinv0 : SlotsInv t.RootDir t.LangIn t.LangsOut (inputHashes sha t w1.fs)
                (some i) 0 ((List.replicate t.LangsOut.length (none : Option Text)).set i
                  (some ((NewText t.RootDir t.LangIn).loadTextInput sha content))) := by
              refine ⟨by simp, ?_⟩
              intro k lang hk
              have hkl : k < t.LangsOut.length := by
                by_contra hc
                rw [List.getElem?_eq_none (by omega)] at hk
                exact absurd hk (by simp)
              constructor
              · rintro (⟨hlt, _⟩ | hc)
                · omega
                · have hki : i = k := Option.some.inj hc
                  subst hki
                  have : lang = t.LangIn := by
                    rw [hli] at hk; exact (Option.some.inj hk).symm
                  subst this
                  refine ⟨_, List.getElem?_set_self (by simpa using hil), l1, l2, hH.symm, ?_⟩
                  rw [hH]; exact l3
              · intro hc
                have hki : i ≠ k := fun e => hc (Or.inr (by rw [e]))
                rw [List.getElem?_set_ne hki, List.getElem?_replicate, if_pos hkl]
            obtain ⟨r1, r2, r3⟩ := generateTextsLoop_ok sha client t.RootDir t.LangIn i t.LangsOut
              (inputHashes sha t w1.fs) (some i) (Or.inl ⟨rfl, hli⟩) t.LangsOut 0 _ w1 _ _ rfl
              hinv0 hl
            refine ⟨r1, ?_, r2, r3⟩
            rw [hH]; exact l4
  | none =>
    rw [hidx] at h
    simp only at h
    have hH : inputHashes sha t w.fs = [] := by
      unfold inputHashes
      rw [hidx]
    have hnot : t.LangIn ∉ t.LangsOut := by
      have := List.findIdx?_of_eq_none (show t.LangsOut.findIdx? (· == t.LangIn) = none from hidx)
      intro hmem
      obtain ⟨n, hn, hget⟩ := List.getElem_of_mem hmem
      have h2 := this n
      rw [List.getElem?_eq_getElem hn, hget] at h2
      simp at h2
    cases hl : generateTextsLoop sha client t.RootDir t.LangIn 0 t.LangsOut 0
        (List.replicate t.LangsOut.length (none : Option Text)) w with
    | mk r2 w2 =>
      rw [hl] at h
      cases r2 with
      | error e => exact absurd h (by simp)
      | ok slots2 =>
        simp only [Prod.mk.injEq, Except.ok.injEq] at h
        obtain ⟨rfl, rfl⟩ := h
        have hinv0 : SlotsInv t.RootDir t.LangIn t.LangsOut (inputHashes sha t w.fs) none 0
            (List.replicate t.LangsOut.length (none : Option Text)) := by
          refine ⟨by simp, ?_⟩
          intro k lang hk
          have hkl : k < t.LangsOut.length := by
            by_contra hc
            rw [List.getElem?_eq_none (by omega)] at hk
            exact absurd hk (by simp)
          constructor
          · rintro (⟨hlt, _⟩ | hc)
            · omega
            · exact absurd hc (by simp)
          · intro _
            rw [List.getElem?_replicate, if_pos hkl]
        obtain ⟨r1, r2, r3⟩ := generateTextsLoop_ok sha client t.RootDir t.LangIn 0 t.LangsOut
          (inputHashes sha t w.fs) none (Or.inr ⟨rfl, rfl, hnot, hH⟩) t.LangsOut 0 _ w _ _ rfl
          hinv0 hl
        refine ⟨r1, ?_, r2, r3⟩
        rw [hH]; simp

/-! ## Lemmas on two consecutive runs -/

theorem generateAudiosLang_sidecar (sha : Sha256) (client : Client) (audioModel : Model)
    (txt : Text) (w w' : World) (results : List String)
    (h : generateAudiosLang sha client audioModel txt w = (.ok results, w')) :
    w'.fs (audioHashesPath txt.DataDir txt.Lang) = some (audioHashesContent txt.Hashes) ∧
    ∀ d, Join [d, "hashes"] ≠ audioHashesPath txt.DataDir txt.Lang →
      w'.fs (Join [d, "hashes"]) = w.fs (Join [d, "hashes"]) := by
  obtain ⟨w2, hwork, _, hfs⟩ := generateAudiosLang_ok _ _ _ _ _ _ _ h
  obtain ⟨_, _, _, hframe⟩ := audioWorkers_effects _ _ _ _ _ _ _ _ _ _ _ hwork
  unfold audioHashesPath
  rw [hfs]
  refine ⟨by simp, ?_⟩
  intro d hd
  simp only [hd, if_false]
  rw [hframe _ (fun k _ _ e => audioPath_ne_any_hashes _ _ _ e.symm)]
  simp [World.writeFile, hd]

theorem generateAudiosLang_all_hits (sha : Sha256) (client : Client) (audioModel : Model)
    (txt : Text) (w : World)
    (hc : txt.GenerateCacheHashes w.fs (Join [txt.DataDir, "cache", txt.Lang, "audio"]) =
      txt.Hashes) :
    generateAudiosLang sha client audioModel txt w =
      (.ok ((List.range txt.Hashes.length).map fun k =>
          audioPath (Join [txt.DataDir, "cache", txt.Lang, "audio"]) (0 + k)),
        { fs := fun p => if p = audioHashesPath txt.DataDir txt.Lang then
            some (audioHashesContent txt.Hashes) else w.fs p,
          trace := w.trace ++ [Event.create (audioHashesPath txt.DataDir txt.Lang)] }) := by
  unfold generateAudiosLang
  simp only [hc]
  rw [audioWorkers_all_hits _ _ _ _ _ _ _ _ _
    (fun k hk => by rw [Nat.zero_add]; exact getElem?_eq_some_cachedHashAt _ k hk)]
  simp only [World.writeFile, audioHashesPath, Prod.mk.injEq, true_and]
  congr 1
  funext p
  by_cases hp : p = Join [Join [txt.DataDir, "cache", txt.Lang, "audio"], "hashes"] <;> simp [hp]

theorem SlotsInv.of_mem {rootDir langIn : String} {langs H : List String} {i0 : Option Nat}
    {slots : List (Option Text)}
    (hinv : SlotsInv rootDir langIn langs H i0 langs.length slots) {txt : Text}
    (hmem : some txt ∈ slots) :
    ∃ k lang, langs[k]? = some lang ∧ slots[k]? = some (some txt) ∧
      GoodText rootDir H lang txt ∧ ((k < langs.length ∧ lang ≠ langIn) ∨ i0 = some k) := by
  obtain ⟨k, hk, hget⟩ := List.getElem_of_mem hmem
  have hkl : k < langs.length := by rw [← hinv.1]; exact hk
  have hs : slots[k]? = some (some txt) := by rw [List.getElem?_eq_getElem hk, hget]
  obtain ⟨h1, h2⟩ := hinv.2 k langs[k] (List.getElem?_eq_getElem hkl)
  by_cases hc : (k < langs.length ∧ langs[k] ≠ langIn) ∨ i0 = some k
  · obtain ⟨txt', hs', hg⟩ := h1 hc
    rw [hs] at hs'
    have : txt = txt' := Option.some.inj (Option.some.inj hs')
    subst this
    exact ⟨k, langs[k], List.getElem?_eq_getElem hkl, hs, hg, hc⟩
  · have := h2 hc
    rw [hs] at this
    exact absurd this (by simp)

theorem splitSegments_ne_nil (lines : List String) : splitSegments lines ≠ [] := by
  induction lines with
  | nil => simp [splitSegments]
  | cons line rest ih =>
    unfold splitSegments
    split
    · simp
    · split <;> simp

theorem splitSegments_length (lines : List String) :
    (splitSegments lines).length = lines.count "-" + 1 := by
  induction lines with
  | nil => rfl
  | cons line rest ih =>
    unfold splitSegments
    by_cases h : line = "-"
    · simp only [h, if_true, List.length_cons, ih, List.count_cons_self]
    · simp only [h, if_false]
      have hc : (line :: rest).count "-" = rest.count "-" := by
        rw [List.count_cons_of_ne (Ne.symm h)]
      rw [hc, ← ih]
      cases hs : splitSegments rest with
      | nil => exact absurd hs (splitSegments_ne_nil rest)
      | cons seg segs => rfl

theorem prefixFirst_empty (segs : List String) : prefixFirst "" segs = segs := by
  cases segs with
  | nil => rfl
  | cons s ss =>
    have e : "" ++ s = s := String.ext (by simp [String.data_append])
    simp only [prefixFirst, e]

theorem string_append_assoc (a b c : String) : (a ++ b) ++ c = a ++ (b ++ c) :=
  String.ext (by simp [String.data_append])

theorem string_append_empty (a : String) : a ++ "" = a :=
  String.ext (by simp [String.data_append])

theorem loadTextInput_foldl_parse (sha : Sha256) (lines : List String)
    (st : List SlideText × List String × String) :
    (lines.foldl (loadTextInputStep sha) st).1 ++
        [NewSlideText (lines.foldl (loadTextInputStep sha) st).2.2] =
      st.1 ++ (prefixFirst st.2.2 (parseSegments lines)).map NewSlideText ∧
    (lines.foldl (loadTextInputStep sha) st).2.1 ++
        [(NewSlideText (lines.foldl (loadTextInputStep sha) st).2.2).Hash sha] =
      st.2.1 ++ ((prefixFirst st.2.2 (parseSegments lines)).map NewSlideText).map
        (SlideText.Hash sha) := by
  induction lines generalizing st with
  | nil =>
    simp [parseSegments, splitSegments, segmentText, prefixFirst, string_append_empty]
  | cons line rest ih =>
    simp only [List.foldl_cons]
    obtain ⟨h1, h2⟩ := ih (loadTextInputStep sha st line)
    rw [h1, h2]
    unfold loadTextInputStep
    by_cases hl : line = "-"
    · simp only [hl, if_true, prefixFirst_empty]
      have e : parseSegments ("-" :: rest) = "" :: parseSegments rest := by
        simp [parseSegments, splitSegments, segmentText]
      rw [e]
      simp [prefixFirst, string_append_empty]
    · simp only [hl, if_false]
      have e : prefixFirst st.2.2 (parseSegments (line :: rest)) =
          prefixFirst (st.2.2 ++ (line ++ "\n")) (parseSegments rest) := by
        unfold parseSegments
        simp only [splitSegments, hl, if_false]
        cases hs : splitSegments rest with
        | nil => exact absurd hs (splitSegments_ne_nil rest)
        | cons seg segs =>
          simp only [List.map_cons, prefixFirst, segmentText]
          congr 1
          exact String.ext (by simp [String.data_append])
      rw [e]
      exact ⟨rfl, rfl⟩

theorem loadTextInput_parse (sha : Sha256) (rootDir lang textFile : String) :
    ((NewText rootDir lang).loadTextInput sha textFile).SlidesText =
      (parseSegments (scanLines textFile)).map NewSlideText ∧
    ((NewText rootDir lang).loadTextInput sha textFile).Hashes =
      ((NewText rootDir lang).loadTextInput sha textFile).SlidesText.map (SlideText.Hash sha) := by
  obtain ⟨h1, h2⟩ := loadTextInput_foldl_parse sha (scanLines textFile)
    ((NewText rootDir lang).SlidesText, [], "")
  have hS : ((NewText rootDir lang).loadTextInput sha textFile).SlidesText =
      (parseSegments (scanLines textFile)).map NewSlideText := by
    simp only [Text.loadTextInput]
    rw [h1]
    simp [NewText, prefixFirst_empty]
  refine ⟨hS, ?_⟩
  rw [hS]
  simp only [Text.loadTextInput, List.getLast_append_singleton]
  rw [h2]
  simp [prefixFirst_empty]

theorem inputHashes_eq_map (sha : Sha256) (t : Texts) (fs : FS) :
    inputHashes sha t fs = (inputSlides sha t fs).map (SlideText.Hash sha) := by
  unfold inputHashes inputSlides
  cases t.LangsOut.indexOf? t.LangIn with
  | none => rfl
  | some i =>
    cases fs (Join [Join [t.RootDir, "data"], "texts.txt"]) with
    | none => rfl
    | some content => exact (loadTextInput_parse sha t.RootDir t.LangIn content).2

theorem generateTextsLoop_keeps (sha : Sha256) (client : Client) (rootDir langIn : String) (j : Nat)
    (langs : List String) (rest : List String) (i : Nat) (slots : List (Option Text)) (w : World)
    (slots' : List (Option Text)) (w' : World)
    (hdrop : langs.drop i = rest)
    (h : generateTextsLoop sha client rootDir langIn j rest i slots w = (.ok slots', w')) :
    ∀ k : Nat, langs[k]? = some langIn → slots'[k]? = slots[k]? := by
  induction rest generalizing i slots w with
  | nil =>
    simp only [generateTextsLoop, Prod.mk.injEq, Except.ok.injEq] at h
    intro k _
    rw [h.1]
  | cons langOut rest' ih =>
    have hi : i < langs.length := by
      by_contra hc
      rw [List.drop_eq_nil_iff.2 (by omega)] at hdrop
      exact absurd hdrop (by simp)
    have hdrop' : langs.drop (i + 1) = rest' := by
      rw [List.drop_eq_getElem_cons hi] at hdrop
      exact (List.cons.inj hdrop).2
    have hlangi : langs[i]? = some langOut := by
      rw [List.drop_eq_getElem_cons hi] at hdrop
      rw [List.getElem?_eq_getElem hi, (List.cons.inj hdrop).1]
    unfold generateTextsLoop at h
    by_cases hne : langIn ≠ langOut
    · simp only [hne, ne_eq, not_false_eq_true, if_true] at h
      cases hg : (NewText rootDir langOut).GenerateText sha client
          ((slots.set i (some (NewText rootDir langOut))).getD j none) w with
      | mk r w1 =>
        rw [hg] at h
        cases r with
        | error e => exact absurd h (by simp)
        | ok t =>
          simp only at h
          intro k hk
          have hki : i ≠ k := by
            rintro rfl
            rw [hlangi] at hk
            exact hne (Option.some.inj hk).symm
          rw [ih (i + 1) _ w1 hdrop' h k hk, List.getElem?_set_ne hki, List.getElem?_set_ne hki]
    · have heq : langIn = langOut := not_not.1 hne
      simp only [heq, ne_eq, not_true_eq_false, if_false] at h
      rw [← heq] at h
      exact ih (i + 1) _ w hdrop' h

theorem GenerateTexts_input_slot (sha : Sha256) (client : Client) (t : Texts) (w : World)
    (texts : Texts) (w' : World)
    (h : t.GenerateTexts sha client w = (.ok texts, w'))
    (k : Nat) (txt : Text) (hslot : texts.Texts[k]? = some (some txt))
    (hlang : t.LangsOut[k]? = some t.LangIn) :
    txt.SlidesText = inputSlides sha t w.fs := by
  unfold Texts.GenerateTexts at h
  simp only at h
  cases hidx : t.LangsOut.indexOf? t.LangIn with
  | some i =>
    rw [hidx] at h
    simp only at h
    cases hg : (NewText t.RootDir t.LangIn).GenerateText sha client none w with
    | mk r w1 =>
      rw [hg] at h
      cases r with
      | error e => exact absurd h (by simp)
      | ok text =>
        simp only at h
        obtain ⟨rfl, content, hfile, rfl⟩ := GenerateText_none_ok _ _ _ _ _ _ hg
        have hfile' : w1.fs (Join [Join [t.RootDir, "data"], "texts.txt"]) = some content := hfile
        cases hl : generateTextsLoop sha client t.RootDir t.LangIn i t.LangsOut 0
            ((List.replicate t.LangsOut.length (none : Option Text)).set i
              (some ((NewText t.RootDir t.LangIn).loadTextInput sha content))) w1 with
        | mk r2 w2 =>
          rw [hl] at h
          cases r2 with
          | error e => exact absurd h (by simp)
          | ok slots2 =>
            simp only [Prod.mk.injEq, Except.ok.injEq] at h
            obtain ⟨rfl, rfl⟩ := h
            have hkeep := generateTextsLoop_keeps sha client t.RootDir t.LangIn i t.LangsOut
              t.LangsOut 0 _ w1 _ _ rfl hl k hlang
            simp only at hslot
            rw [hkeep] at hslot
            have hkl : k < t.LangsOut.length := by
              by_contra hc
              rw [List.getElem?_eq_none (by omega)] at hlang
              exact absurd hlang (by simp)
            by_cases hik : i = k
            · subst hik
              rw [List.getElem?_set_self (by simpa using hkl)] at hslot
              have : txt = (NewText t.RootDir t.LangIn).loadTextInput sha content :=
                (Option.some.inj (Option.some.inj hslot)).symm
              rw [this]
              unfold inputSlides
              rw [hidx, hfile']
            · rw [List.getElem?_set_ne hik, List.getElem?_replicate, if_pos hkl] at hslot
              exact absurd hslot (by simp)
  | none =>
    have hnot : t.LangIn ∉ t.LangsOut := by
      have := List.findIdx?_of_eq_none (show t.LangsOut.findIdx? (· == t.LangIn) = none from hidx)
      intro hmem
      obtain ⟨n, hn, hget⟩ := List.getElem_of_mem hmem
      have h2 := this n
      rw [List.getElem?_eq_getElem hn, hget] at h2
      simp at h2
    exact absurd (List.getElem?_mem hlang) hnot

theorem scanLines_long_first_line (n : Nat) (rest : List Char) (hn : MaxScanTokenSize ≤ n) :
    rawLines (List.replicate n 'a' ++ '\n' :: rest) = List.replicate n 'a' :: rawLines rest ∧
    scanLines (String.mk (List.replicate n 'a' ++ '\n' :: rest)) = [] := by
  have hnl : '\n' ∉ List.replicate n 'a' := by
    intro h
    exact absurd (List.eq_of_mem_replicate h) (by decide)
  have hraw := rawLines_append_newline (List.replicate n 'a') rest hnl
  refine ⟨hraw, ?_⟩
  have hsize : (String.mk (List.replicate n 'a')).utf8ByteSize = n := by
    show String.utf8ByteSize.go (List.replicate n 'a') = n
    rw [utf8ByteSize_go_ascii _ (fun c hc => by
      rw [List.eq_of_mem_replicate hc]; decide)]
    exact List.length_replicate n 'a'
  unfold scanLines
  rw [hraw, List.takeWhile_cons_of_neg]
  · rfl
  · rw [hsize]
    simpa using hn

theorem scanLines_short_lines (content : String)
    (h : ∀ l ∈ rawLines content.data, (String.mk l).utf8ByteSize < MaxScanTokenSize) :
    scanLines content = (rawLines content.data).map fun l => String.mk (dropCR l) := by
  unfold scanLines
  rw [List.takeWhile_eq_self_iff.2]
  intro l hl
  simpa using h l hl

/-! ## Lemmas on the order of the segment goroutines -/

theorem audioWorkersInOrder_range' (sha : Sha256) (client : Client) (audioModel : Model)
    (txt : Text) (audioDir : String) (cachedHashes hs : List String)
    (suffix : List String) (j : Nat) (results : List String) (w : World)
    (hdrop : hs.drop j = suffix) (hlen : results.length = hs.length) :
    audioWorkersInOrder sha client audioModel txt audioDir cachedHashes hs
        (List.range' j suffix.length) results w =
      match audioWorkers sha client audioModel txt audioDir cachedHashes suffix j w with
      | (.error e, w1) => (.error e, w1)
      | (.ok rs, w1) => (.ok (results.take j ++ rs), w1) := by
  induction suffix generalizing j results w with
  | nil =>
    have hj : hs.length ≤ j := List.drop_eq_nil_iff.1 hdrop
    simp only [List.length_nil, List.range'_zero, audioWorkersInOrder, audioWorkers,
      List.append_nil]
    rw [List.take_of_length_le (by omega)]
  | cons h rest ih =>
    have hj : j < hs.length := by
      by_contra hc
      rw [List.drop_eq_nil_iff.2 (by omega)] at hdrop
      exact absurd hdrop (by simp)
    have hdrop' : hs.drop (j + 1) = rest := by
      rw [List.drop_eq_getElem_cons hj] at hdrop
      exact (List.cons.inj hdrop).2
    have hget : hs[j]? = some h := by
      rw [List.drop_eq_getElem_cons hj] at hdrop
      rw [List.getElem?_eq_getElem hj, (List.cons.inj hdrop).1]
    simp only [List.length_cons, List.range'_succ, audioWorkersInOrder, hget, audioWorkers]
    cases hseg : audioSegment sha client audioModel txt audioDir cachedHashes j h w with
    | mk r w1 =>
      cases r with
      | error e => rfl
      | ok p =>
        simp only
        rw [ih (j + 1) (results.set j p) w1 hdrop' (by simpa using hlen)]
        cases audioWorkers sha client audioModel txt audioDir cachedHashes rest (j + 1) w1 with
        | mk r2 w2 =>
          cases r2 with
          | error e => rfl
          | ok rs =>
            simp only [Prod.mk.injEq, Except.ok.injEq, and_true]
            have hjr : j < results.length := by omega
            have htake : (results.set j p).take j = results.take j :=
              List.ext_getElem? fun i => by
                rw [List.getElem?_take, List.getElem?_take]
                split
                · rw [List.getElem?_set_ne (by omega)]
                · rfl
            rw [List.take_succ, htake]
            simp [List.getElem?_set_self hjr]

theorem generateAudiosLangInOrder_range (sha : Sha256) (client : Client) (audioModel : Model)
    (txt : Text) (w : World) :
    generateAudiosLangInOrder sha client audioModel txt (List.range txt.Hashes.length) w =
      generateAudiosLang sha client audioModel txt w := by
  unfold generateAudiosLangInOrder generateAudiosLang
  simp only
  rw [List.range_eq_range']
  rw [audioWorkersInOrder_range' sha client audioModel txt _ _ txt.Hashes txt.Hashes 0 _ _ rfl
    (by simp)]
  cases audioWorkers sha client audioModel txt (Join [txt.DataDir, "cache", txt.Lang, "audio"])
      (txt.GenerateCacheHashes w.fs (Join [txt.DataDir, "cache", txt.Lang, "audio"])) txt.Hashes 0
      (w.writeFile (Join [Join [txt.DataDir, "cache", txt.Lang, "audio"], "hashes"]) "") with
  | mk r w2 =>
    cases r with
    | error e => rfl
    | ok rs => simp

/-! ## Lemmas on the names of the rendered segments -/

theorem videoName_ne_empty (n : Nat) (lang : String) :
    "slide" ++ toString n ++ "_video_" ++ lang ++ ".mp4" ≠ "" := by
  intro h
  have := congrArg String.length h
  simp only [String.length_append] at this
  have h2 : ".mp4".length = 4 := by decide
  have h3 : "".length = 0 := by decide
  omega

theorem videoName_injective (lang : String) {i j : Nat}
    (h : "slide" ++ toString i ++ "_video_" ++ lang ++ ".mp4" =
      "slide" ++ toString j ++ "_video_" ++ lang ++ ".mp4") : i = j := by
  apply Nat_repr_injective
  have hd := congrArg String.data h
  simp only [String.data_append, List.append_assoc] at hd
  have h1 := List.append_cancel_left hd
  have hlen : (toString i).data.length = (toString j).data.length := by
    have := congrArg List.length h1
    simp only [List.length_append] at this
    omega
  exact String.ext (List.append_inj_left h1 hlen)

theorem outputVideoPath_injective (videoDir lang : String) {i j : Nat}
    (h : outputVideoPath videoDir lang i = outputVideoPath videoDir lang j) : i = j := by
  unfold outputVideoPath at h
  have := videoName_injective lang
    (Join_pair_injective videoDir _ _ (videoName_ne_empty _ lang) (videoName_ne_empty _ lang) h)
  omega

theorem outputVideoPath_ne_zero_based (videoDir lang : String) (i : Nat) :
    outputVideoPath videoDir lang i ≠
      Join [videoDir, "slide" ++ toString i ++ "_video_" ++ lang ++ ".mp4"] := by
  intro h
  unfold outputVideoPath at h
  have := videoName_injective lang
    (Join_pair_injective videoDir _ _ (videoName_ne_empty _ lang) (videoName_ne_empty _ lang) h)
  omega

theorem videoDir_data (lang : String) (hlang : lang ≠ "") :
    Join [Join [Join ["data", "cache"], lang], "videos"] =
      "data/cache" ++ "/" ++ lang ++ "/" ++ "videos" := by
  have h1 : Join ["data", "cache"] = "data/cache" := by decide
  have h2 : ("data/cache" : String) ≠ "" := by decide
  have h3 : Join ["data/cache", lang] ≠ "" := Join_pair_ne_empty _ _ hlang
  rw [h1, Join_pair _ _ (by decide : ("videos" : String) ≠ ""), if_neg h3, Join_pair _ _ hlang,
    if_neg h2]

theorem outputVideoPath_data (lang : String) (hlang : lang ≠ "") (i : Nat) :
    outputVideoPath (Join [Join [Join ["data", "cache"], lang], "videos"]) lang i =
      "data/cache" ++ "/" ++ lang ++ "/" ++ "videos" ++ "/" ++
        ("slide" ++ toString (i + 1) ++ "_video_" ++ lang ++ ".mp4") := by
  have hv : Join [Join [Join ["data", "cache"], lang], "videos"] ≠ "" :=
    Join_pair_ne_empty _ _ (by decide)
  unfold outputVideoPath
  rw [Join_pair _ _ (videoName_ne_empty _ lang), if_neg hv, videoDir_data lang hlang]

/-! ## Lemmas on the shape check of the video stage -/

theorem generateVideosLang_mismatch (enc : Encoder) (width height : Int) (slides : List String)
    (cacheDir dataDir audioLang : String) (audioList : List String) (w : World)
    (h : slides.length ≠ audioList.length) :
    generateVideosLang enc width height slides cacheDir dataDir audioLang audioList w =
      (.error (.exit "Slide and audio count mismatch"), w) := by
  unfold generateVideosLang
  simp [h]

theorem generateVideosLoop_mismatch (enc : Encoder) (width height : Int) (slides : List String)
    (cacheDir dataDir : String) (pre post : List (String × List String)) (audioLang : String)
    (audioList : List String) (w : World) (h : slides.length ≠ audioList.length) :
    (∃ e, (generateVideosLoop enc width height slides cacheDir dataDir
      (pre ++ (audioLang, audioList) :: post) w).1 = .error e) ∧
    (generateVideosLoop enc width height slides cacheDir dataDir
      (pre ++ (audioLang, audioList) :: post) w).2 =
      (generateVideosLoop enc width height slides cacheDir dataDir pre w).2 ∧
    ((∃ r, (generateVideosLoop enc width height slides cacheDir dataDir pre w).1 = .ok r) →
      (generateVideosLoop enc width height slides cacheDir dataDir
        (pre ++ (audioLang, audioList) :: post) w).1 =
        .error (.exit "Slide and audio count mismatch")) := by
  induction pre generalizing w with
  | nil =>
    simp only [List.nil_append]
    have e : generateVideosLoop enc width height slides cacheDir dataDir
        ((audioLang, audioList) :: post) w =
        (.error (.exit "Slide and audio count mismatch"), w) := by
      rw [generateVideosLoop, generateVideosLang_mismatch _ _ _ _ _ _ _ _ _ h]
    rw [e]
    exact ⟨⟨_, rfl⟩, rfl, fun _ => rfl⟩
  | cons entry rest ih =>
    obtain ⟨lang0, list0⟩ := entry
    simp only [List.cons_append]
    rw [generateVideosLoop, generateVideosLoop]
    cases hl : generateVideosLang enc width height slides cacheDir dataDir lang0 list0 w with
    | mk r0 w1 =>
      cases r0 with
      | error e0 => exact ⟨⟨_, rfl⟩, rfl, fun ⟨r, hr⟩ => absurd hr (by simp)⟩
      | ok files =>
        obtain ⟨⟨e, he⟩, hw, hok⟩ := ih w1
        simp only
        cases hfull : generateVideosLoop enc width height slides cacheDir dataDir
            (rest ++ (audioLang, audioList) :: post) w1 with
        | mk r1 w2 =>
          rw [hfull] at he hw hok
          simp only at he hw hok
          subst he
          cases hpre : generateVideosLoop enc width height slides cacheDir dataDir rest w1 with
          | mk r2 w3 =>
            rw [hpre] at hw hok
            simp only at hw hok
            subst hw
            cases r2 with
            | error e2 => exact ⟨⟨_, rfl⟩, rfl, fun ⟨r, hr⟩ => absurd hr (by simp)⟩
            | ok r2 =>
              have := Except.error.inj (hok ⟨_, rfl⟩)
              subst this
              exact ⟨⟨_, rfl⟩, rfl, fun _ => rfl⟩

/-! ## Lemmas on the join points -/

theorem countP_set_add {α : Type} (p : α → Bool) (l : List α) (i : Nat) (a b : α)
    (h : l[i]? = some a) :
    (l.set i b).countP p + (if p a then 1 else 0) = l.countP p + (if p b then 1 else 0) := by
  induction l generalizing i with
  | nil => simp at h
  | cons x xs ih =>
    cases i with
    | zero =>
      simp only [List.getElem?_cons_zero, Option.some.injEq] at h
      subst h
      simp only [List.set_cons_zero, List.countP_cons]
      omega
    | succ i =>
      simp only [List.getElem?_cons_succ] at h
      have := ih i h
      simp only [List.set_cons_succ, List.countP_cons]
      omega

theorem map_set_same {α β : Type} (f : α → β) (l : List α) (i : Nat) (a b : α)
    (h : l[i]? = some a) (hf : f b = f a) : (l.set i b).map f = l.map f := by
  induction l generalizing i with
  | nil => simp
  | cons x xs ih =>
    cases i with
    | zero =>
      simp only [List.getElem?_cons_zero, Option.some.injEq] at h
      subst h
      simp [hf]
    | succ i =>
      simp only [List.getElem?_cons_succ] at h
      simp [ih i h]

theorem segs_all_done (segs : List SegPc) (h : segs.count SegPc.running = 0) :
    segs = List.replicate segs.length SegPc.done := by
  induction segs with
  | nil => rfl
  | cons x xs ih =>
    cases x with
    | running => simp at h
    | done =>
      have hx : xs.count SegPc.running = 0 := by simpa using h
      rw [List.length_cons, List.replicate_succ, ← ih hx]

theorem replicate_done_no_running (n j : Nat) :
    (List.replicate n SegPc.done)[j]? ≠ some SegPc.running := by
  intro h
  have := List.getElem?_mem h
  rw [List.mem_replicate] at this
  exact absurd this.2 (by decide)

theorem stepLang_inv (ls ls1 : LangWorker) (hinv : LangInv ls) (h : stepLang ls = some ls1) :
    LangInv ls1 ∧ ls1.n = ls.n ∧ ls1.pc ≠ LangPc.done ∧ ls.pc ≠ LangPc.done := by
  obtain ⟨pc, wg, segs, n⟩ := ls
  unfold LangInv at hinv
  unfold stepLang at h
  simp only at hinv h
  cases pc with
  | add j =>
    simp only at hinv h
    obtain ⟨hwg, hlen, hj⟩ := hinv
    by_cases hjn : j < n
    · rw [if_pos hjn] at h
      cases Option.some.inj h
      exact ⟨⟨by simp only [LangPc.pending] at hwg ⊢; omega, hlen, hjn⟩, rfl, by simp, by simp⟩
    · rw [if_neg hjn] at h
      cases Option.some.inj h
      exact ⟨⟨by simp only [LangPc.pending] at hwg ⊢; omega, by simp only; omega⟩, rfl, by simp,
        by simp⟩
  | go j =>
    simp only at hinv h
    obtain ⟨hwg, hlen, hj⟩ := hinv
    cases Option.some.inj h
    refine ⟨⟨?_, ?_, ?_⟩, rfl, by simp, by simp⟩
    · simp only [List.count_append, List.count_singleton_self, LangPc.pending] at hwg ⊢
      omega
    · simp only [List.length_append, List.length_singleton]
      omega
    · show j + 1 ≤ n
      omega
  | wait =>
    simp only at hinv h
    obtain ⟨hwg, hlen⟩ := hinv
    by_cases hz : wg = 0
    · rw [if_pos hz] at h
      cases Option.some.inj h
      have hc : segs.count SegPc.running = 0 := by
        simp only [LangPc.pending] at hwg
        omega
      refine ⟨⟨by simp only [LangPc.pending] at hwg ⊢; omega, ?_⟩, rfl, by simp, by simp⟩
      simp only
      rw [← hlen]
      exact segs_all_done segs hc
    · rw [if_neg hz] at h
      exact absurd h (by simp)
  | joined =>
    simp only at hinv h
    cases Option.some.inj h
    exact ⟨⟨hinv.1, hinv.2⟩, rfl, by simp, by simp⟩
  | published => exact absurd h (by simp)
  | done => exact absurd h (by simp)

theorem langInv_seg_done (ls : LangWorker) (j : Nat) (hinv : LangInv ls)
    (hseg : ls.segs[j]? = some SegPc.running) :
    0 < ls.wg ∧
    LangInv { ls with segs := ls.segs.set j SegPc.done, wg := ls.wg - 1 } := by
  obtain ⟨pc, wg, segs, n⟩ := ls
  unfold LangInv at hinv ⊢
  simp only at hinv hseg ⊢
  have hc := countP_set_add (fun x => x == SegPc.running) segs j SegPc.running SegPc.done hseg
  have hd : (SegPc.done == SegPc.running) = false := by decide
  simp only [beq_self_eq_true, if_true, hd, Bool.false_eq_true, if_false, Nat.add_zero] at hc
  have hc2 : (segs.set j SegPc.done).count SegPc.running + 1 = segs.count SegPc.running := hc
  obtain ⟨hwg, hrest⟩ := hinv
  cases pc with
  | add i =>
    simp only [LangPc.pending] at hwg hrest ⊢
    exact ⟨by omega, by omega, by simpa using hrest⟩
  | go i =>
    simp only [LangPc.pending] at hwg hrest ⊢
    exact ⟨by omega, by omega, by simpa using hrest⟩
  | wait =>
    simp only [LangPc.pending] at hwg hrest ⊢
    exact ⟨by omega, by omega, by simpa using hrest⟩
  | joined =>
    simp only at hrest
    rw [hrest] at hseg
    exact absurd hseg (replicate_done_no_running _ _)
  | published =>
    simp only at hrest
    rw [hrest] at hseg
    exact absurd hseg (replicate_done_no_running _ _)
  | done =>
    simp only at hrest
    rw [hrest] at hseg
    exact absurd hseg (replicate_done_no_running _ _)

theorem stageInv_set (cfg : List Nat) (s : GoState) (l : Nat) (ls ls1 : LangWorker)
    (hinv : StageInv cfg s) (hl : s.langs[l]? = some ls) (h1 : LangInv ls1) (hn : ls1.n = ls.n)
    (hpc : (ls1.pc = LangPc.done ↔ ls.pc = LangPc.done)) :
    StageInv cfg { s with langs := s.langs.set l ls1 } := by
  obtain ⟨hmap, hall, hwg, hmain⟩ := hinv
  have hmem : ∀ x ∈ s.langs.set l ls1, x ∈ s.langs ∨ x = ls1 :=
    fun x hx => List.mem_or_eq_of_mem_set hx
  have hc := countP_set_add LangWorker.active s.langs l ls ls1 hl
  have hp : ls1.active = ls.active := by
    unfold LangWorker.active
    by_cases hd : ls.pc = LangPc.done
    · simp [hd, hpc.2 hd]
    · have hd1 : ¬ ls1.pc = LangPc.done := fun e => hd (hpc.1 e)
      simp [hd, hd1]
  rw [hp] at hc
  have hcount : (s.langs.set l ls1).countP LangWorker.active =
      s.langs.countP LangWorker.active := by omega
  refine ⟨?_, ?_, ?_, ?_⟩
  · simp only [List.length_set]
    rw [map_set_same _ _ _ _ _ hl hn]
    exact hmap
  · intro x hx
    rcases hmem x hx with hx | rfl
    · exact hall x hx
    · exact h1
  · simp only
    rw [hcount]
    exact hwg
  · simp only [List.length_set]
    cases hm : s.main with
    | add k => rw [hm] at hmain; exact hmain
    | go k => rw [hm] at hmain; exact hmain
    | wait => rw [hm] at hmain; exact hmain
    | returned =>
      rw [hm] at hmain
      refine ⟨hmain.1, ?_⟩
      intro x hx
      rcases hmem x hx with hx | rfl
      · exact hmain.2 x hx
      · exact hpc.2 (hmain.2 ls (List.getElem?_mem hl))

theorem stageInv_exited (cfg : List Nat) (s : GoState) (b : Bool) (hinv : StageInv cfg s) :
    StageInv cfg { s with exited := b } := hinv

theorem stageInv_lang_done (cfg : List Nat) (s : GoState) (l : Nat) (ls : LangWorker)
    (hinv : StageInv cfg s) (hl : s.langs[l]? = some ls) (hpc : ls.pc = LangPc.published) :
    0 < s.wgTop ∧
    StageInv cfg { s with langs := s.langs.set l { ls with pc := LangPc.done },
                          wgTop := s.wgTop - 1 } := by
  obtain ⟨hmap, hall, hwg, hmain⟩ := hinv
  have hmem : ∀ x ∈ s.langs.set l { ls with pc := LangPc.done },
      x ∈ s.langs ∨ x = { ls with pc := LangPc.done } :=
    fun x hx => List.mem_or_eq_of_mem_set hx
  have hc := countP_set_add LangWorker.active s.langs l ls { ls with pc := LangPc.done } hl
  have hp1 : ls.active = true := by simp [LangWorker.active, hpc]
  have hp2 : LangWorker.active { ls with pc := LangPc.done } = false := by
    simp [LangWorker.active]
  rw [hp1, hp2] at hc
  simp only [if_true, Bool.false_eq_true, if_false, Nat.add_zero] at hc
  have hls := hall ls (List.getElem?_mem hl)
  have hls1 : LangInv { ls with pc := LangPc.done } := by
    unfold LangInv at hls ⊢
    rw [hpc] at hls
    exact hls
  refine ⟨by omega, ?_, ?_, ?_, ?_⟩
  · simp only [List.length_set]
    have := map_set_same (fun x : LangWorker => x.n) s.langs l ls
      { ls with pc := LangPc.done } hl rfl
    exact this.trans hmap
  · intro x hx
    rcases hmem x hx with hx | rfl
    · exact hall x hx
    · exact hls1
  · simp only
    omega
  · simp only [List.length_set]
    cases hm : s.main with
    | add k => rw [hm] at hmain; exact hmain
    | go k => rw [hm] at hmain; exact hmain
    | wait => rw [hm] at hmain; exact hmain
    | returned =>
      rw [hm] at hmain
      refine ⟨hmain.1, ?_⟩
      intro x hx
      rcases hmem x hx with hx | rfl
      · exact hmain.2 x hx
      · rfl

theorem stepMain_inv (cfg : List Nat) (s s1 : GoState) (hinv : StageInv cfg s)
    (h : stepMain cfg s = some s1) : StageInv cfg s1 := by
  obtain ⟨main, wgTop, langs, exited⟩ := s
  obtain ⟨hmap, hall, hwg, hmain⟩ := hinv
  unfold stepMain at h
  simp only at hmap hall hwg hmain h
  cases main with
  | add k =>
    simp only at hwg hmain h
    by_cases hk : k < cfg.length
    · rw [if_pos hk] at h
      cases Option.some.inj h
      exact ⟨hmap, hall, by simp only [MainPc.pending] at hwg ⊢; omega, hmain.1, hk⟩
    · rw [if_neg hk] at h
      cases Option.some.inj h
      exact ⟨hmap, hall, by simp only [MainPc.pending] at hwg ⊢; omega, by simp only; omega⟩
  | go k =>
    simp only at hwg hmain h
    cases Option.some.inj h
    obtain ⟨hlen, hk⟩ := hmain
    refine ⟨?_, ?_, ?_, ?_⟩
    · simp only [List.map_append, List.map_cons, List.map_nil, List.length_append,
        List.length_singleton]
      rw [hmap, hlen, List.take_succ, List.getElem?_eq_getElem hk]
      simp [newLangWorker, List.getD, List.getElem?_eq_getElem hk]
    · intro x hx
      rcases List.mem_append.1 hx with hx | hx
      · exact hall x hx
      · rw [List.mem_singleton] at hx
        subst hx
        exact ⟨by simp [newLangWorker, LangPc.pending], by simp [newLangWorker]⟩
    · have ha : (newLangWorker (cfg.getD k 0)).active = true := by
        simp [newLangWorker, LangWorker.active]
      simp only [List.countP_append, List.countP_cons, List.countP_nil, ha, if_true,
        MainPc.pending] at hwg ⊢
      omega
    · simp only [List.length_append, List.length_singleton]
      omega
  | wait =>
    simp only at hwg hmain h
    by_cases hz : wgTop = 0
    · rw [if_pos hz] at h
      cases Option.some.inj h
      simp only [MainPc.pending] at hwg
      refine ⟨hmap, hall, by simp only [MainPc.pending]; omega, hmain, ?_⟩
      have hc : langs.countP LangWorker.active = 0 := by omega
      rw [List.countP_eq_zero] at hc
      intro x hx
      have := hc x hx
      simpa [LangWorker.active] using this
    · rw [if_neg hz] at h
      exact absurd h (by simp)
  | returned => exact absurd h (by simp)

theorem step_inv (cfg : List Nat) (s s1 : GoState) (a : Action) (hinv : StageInv cfg s)
    (h : step cfg s a = some s1) : StageInv cfg s1 := by
  unfold step at h
  split at h
  · exact absurd h (by simp)
  · cases a with
    | main => exact stepMain_inv cfg s s1 hinv h
    | lang l =>
      simp only at h
      cases hl : s.langs[l]? with
      | none => rw [hl] at h; exact absurd h (by simp)
      | some ls =>
        rw [hl] at h
        simp only at h
        by_cases hpc : ls.pc = LangPc.published
        · rw [if_pos hpc] at h
          obtain ⟨hpos, hdone⟩ := stageInv_lang_done cfg s l ls hinv hl hpc
          rw [if_neg (by omega)] at h
          cases Option.some.inj h
          exact hdone
        · rw [if_neg hpc] at h
          cases hs : stepLang ls with
          | none => rw [hs] at h; exact absurd h (by simp)
          | some ls1 =>
            rw [hs] at h
            cases Option.some.inj h
            obtain ⟨h1, h2, h3, h4⟩ := stepLang_inv ls ls1
              (hinv.2.1 ls (List.getElem?_mem hl)) hs
            exact stageInv_set cfg s l ls ls1 hinv hl h1 h2
              ⟨fun e => absurd e h3, fun e => absurd e h4⟩
    | seg l j =>
      simp only at h
      cases hl : s.langs[l]? with
      | none => rw [hl] at h; exact absurd h (by simp)
      | some ls =>
        rw [hl] at h
        simp only at h
        split at h
        · rename_i hseg
          obtain ⟨hpos, hls1⟩ := langInv_seg_done ls j (hinv.2.1 ls (List.getElem?_mem hl)) hseg
          rw [if_neg (by omega)] at h
          cases Option.some.inj h
          exact stageInv_set cfg s l ls _ hinv hl hls1 rfl Iff.rfl
        · exact absurd h (by simp)
    | exit =>
      cases Option.some.inj h
      exact hinv

theorem runSchedule_inv (cfg : List Nat) (actions : List Action) (s s1 : GoState)
    (hinv : StageInv cfg s) (h : runSchedule cfg actions s = some s1) : StageInv cfg s1 := by
  induction actions generalizing s with
  | nil =>
    cases Option.some.inj h
    exact hinv
  | cons a rest ih =>
    unfold runSchedule at h
    cases hs : step cfg s a with
    | none => rw [hs] at h; exact absurd h (by simp)
    | some s2 =>
      rw [hs] at h
      exact ih s2 (step_inv cfg s s2 a hinv hs) h

theorem stageInv_initial (cfg : List Nat) : StageInv cfg initialState := by
  refine ⟨by simp [initialState], by simp [initialState],
    by simp [initialState, MainPc.pending], ?_⟩
  simp [initialState]

/-! ## Lemmas on the concatenation command -/

theorem string_empty_append (s : String) : "" ++ s = s :=
  String.ext (by simp [String.data_append])

theorem foldl_append_init (l : List String) (acc : String) :
    l.foldl (fun r s => r ++ s) acc = acc ++ l.foldl (fun r s => r ++ s) "" := by
  induction l generalizing acc with
  | nil => exact (string_append_empty acc).symm
  | cons a rest ih =>
    simp only [List.foldl_cons]
    rw [ih (acc ++ a), ih ("" ++ a), string_empty_append, string_append_assoc]

theorem String_join_cons (a : String) (l : List String) :
    String.join (a :: l) = a ++ String.join l := by
  unfold String.join
  rw [List.foldl_cons, foldl_append_init, string_empty_append]

theorem concatInputs_eq_flatMap (videoFiles : List String) :
    concatInputs videoFiles = videoFiles.flatMap fun video => ["-i", video] := by
  induction videoFiles with
  | nil => rfl
  | cons v rest ih => simp [concatInputs, ih]

theorem concatInputs_length (videoFiles : List String) :
    (concatInputs videoFiles).length = 2 * videoFiles.length := by
  induction videoFiles with
  | nil => rfl
  | cons v rest ih =>
    simp only [concatInputs, List.length_cons, ih]
    omega

theorem concatStreams_eq_join (n i : Nat) :
    concatStreams n i = String.join ((List.range' i n).map streamPair) := by
  induction n generalizing i with
  | zero => rfl
  | succ n ih =>
    rw [List.range'_succ, List.map_cons, String_join_cons, concatStreams, ih (i + 1)]
    rfl

/-! ## Lemmas on the two spellings of a digest -/

theorem ldigits_getD_eq_hextable (n : Nat) (h : n < 16) :
    ldigits.getD n '0' = hextable.getD n '0' := by
  interval_cases n <;> rfl

theorem SprintfHex_eq_EncodeToString (b : List Byte) : SprintfHex b = EncodeToString b := by
  unfold SprintfHex EncodeToString
  congr 1
  induction b with
  | nil => rfl
  | cons v vs ih =>
    have h1 : v.val >>> 4 < 16 := by
      have := v.isLt
      rw [Nat.shiftRight_eq_div_pow]; omega
    have h2 : v.val &&& 0xF < 16 := by
      have : v.val &&& 0xF ≤ 0xF := Nat.and_le_right
      omega
    simp only [List.flatMap_cons, ih, ldigits_getD_eq_hextable _ h1,
      ldigits_getD_eq_hextable _ h2]

/-! ## Lemmas on the speaker notes -/

theorem String_join_append (a b : List String) :
    String.join (a ++ b) = String.join a ++ String.join b := by
  induction a with
  | nil =>
    rw [List.nil_append]
    exact (string_empty_append _).symm
  | cons x xs ih =>
    rw [List.cons_append, String_join_cons, String_join_cons, ih, string_append_assoc]

theorem textElementsLoop_ok (l : List (Option TextElement)) (noteText : String)
    (h : ∀ textElement ∈ l, textElement ≠ none) :
    textElementsLoop l noteText = .ok (noteText ++ String.join (textRunsOf ⟨l⟩)) := by
  induction l generalizing noteText with
  | nil =>
    rw [textElementsLoop]
    exact congrArg Except.ok (string_append_empty noteText).symm
  | cons x rest ih =>
    have hrest : ∀ textElement ∈ rest, textElement ≠ none :=
      fun t ht => h t (List.mem_cons_of_mem _ ht)
    cases x with
    | none => exact absurd rfl (h none (List.mem_cons_self _ _))
    | some textElement =>
      obtain ⟨run⟩ := textElement
      cases run with
      | none =>
        rw [textElementsLoop]
        simp only
        rw [ih _ hrest]
        have e : textRunsOf ⟨some ⟨none⟩ :: rest⟩ = textRunsOf ⟨rest⟩ := by
          simp [textRunsOf]
        rw [e]
      | some textRun =>
        rw [textElementsLoop]
        simp only
        rw [ih _ hrest]
        have e : textRunsOf ⟨some ⟨some textRun⟩ :: rest⟩ =
            textRun.Content :: textRunsOf ⟨rest⟩ := by
          simp [textRunsOf]
        rw [e, String_join_cons, string_append_assoc]

theorem pageElementsLoop_ok (l : List (Option PageElement)) (noteText : String)
    (h1 : ∀ pageElement ∈ l, pageElement ≠ none)
    (h2 : ∀ (pageElement : PageElement) (shape : Shape) (text : TextContent),
      some pageElement ∈ l → pageElement.Shape = some shape → shape.Text = some text →
        ∀ textElement ∈ text.TextElements, textElement ≠ none) :
    pageElementsLoop l noteText = .ok (noteText ++ String.join (l.flatMap elementRuns)) := by
  induction l generalizing noteText with
  | nil =>
    rw [pageElementsLoop]
    exact congrArg Except.ok (string_append_empty noteText).symm
  | cons x rest ih =>
    have hrest1 : ∀ pageElement ∈ rest, pageElement ≠ none :=
      fun t ht => h1 t (List.mem_cons_of_mem _ ht)
    have hrest2 : ∀ (pageElement : PageElement) (shape : Shape) (text : TextContent),
        some pageElement ∈ rest → pageElement.Shape = some shape → shape.Text = some text →
          ∀ textElement ∈ text.TextElements, textElement ≠ none :=
      fun pe sh t hm => h2 pe sh t (List.mem_cons_of_mem _ hm)
    cases x with
    | none => exact absurd rfl (h1 none (List.mem_cons_self _ _))
    | some pageElement =>
      rw [List.flatMap_cons, String_join_append]
      cases hs : pageElement.Shape with
      | none =>
        rw [pageElementsLoop]
        simp only [hs]
        rw [ih _ hrest1 hrest2]
        have e : elementRuns (some pageElement) = [] := by simp [elementRuns, hs]
        rw [e]
        exact congrArg Except.ok (by rw [show String.join [] = "" from rfl, string_empty_append])
      | some shape =>
        cases ht : shape.Text with
        | none =>
          rw [pageElementsLoop]
          simp only [hs, ht]
          rw [ih _ hrest1 hrest2]
          have e : elementRuns (some pageElement) = [] := by simp [elementRuns, hs, ht]
          rw [e]
          exact congrArg Except.ok (by rw [show String.join [] = "" from rfl, string_empty_append])
        | some text =>
          have hte := h2 pageElement shape text (List.mem_cons_self _ _) hs ht
          rw [pageElementsLoop]
          simp only [hs, ht]
          rw [textElementsLoop_ok _ _ hte]
          simp only
          rw [ih _ hrest1 hrest2]
          have e : elementRuns (some pageElement) = textRunsOf text := by
            simp [elementRuns, hs, ht]
          rw [e, string_append_assoc]

/-! ## Lemmas on configurations that list the input language -/

theorem indexOf?_isSome_of_mem (langs : List String) (lang : String) (h : lang ∈ langs) :
    ∃ i, langs.indexOf? lang = some i := by
  cases hidx : langs.indexOf? lang with
  | some i => exact ⟨i, rfl⟩
  | none =>
    exfalso
    have := List.findIdx?_of_eq_none (show langs.findIdx? (· == lang) = none from hidx)
    obtain ⟨k, hk, hget⟩ := List.getElem_of_mem h
    have hh := this k
    rw [List.getElem?_eq_getElem hk, hget] at hh
    simp at hh

theorem inputSlides_eq_narrationSlides (sha : Sha256) (t : Texts) (fs : FS)
    (hin : t.LangIn ∈ t.LangsOut) : inputSlides sha t fs = narrationSlides sha t fs := by
  obtain ⟨i, hi⟩ := indexOf?_isSome_of_mem _ _ hin
  unfold inputSlides narrationSlides
  rw [hi]
  cases fs (Join [Join [t.RootDir, "data"], "texts.txt"]) <;> rfl

theorem narrationSlides_pos (sha : Sha256) (t : Texts) (fs : FS) (content : String)
    (h : fs (Join [Join [t.RootDir, "data"], "texts.txt"]) = some content) :
    narrationSlides sha t fs =
      ((NewText t.RootDir t.LangIn).loadTextInput sha content).SlidesText ∧
    0 < (narrationSlides sha t fs).length := by
  have e : narrationSlides sha t fs =
      ((NewText t.RootDir t.LangIn).loadTextInput sha content).SlidesText := by
    unfold narrationSlides
    rw [h]
  refine ⟨e, ?_⟩
  rw [e, (loadTextInput_parse sha t.RootDir t.LangIn content).1, List.length_map]
  unfold parseSegments
  rw [List.length_map, splitSegments_length]
  omega

theorem GenerateTexts_narration_exists (sha : Sha256) (client : Client) (t : Texts) (w : World)
    (texts : Texts) (w' : World) (hin : t.LangIn ∈ t.LangsOut)
    (hrun : t.GenerateTexts sha client w = (.ok texts, w')) :
    ∃ content, w.fs (Join [Join [t.RootDir, "data"], "texts.txt"]) = some content := by
  obtain ⟨i, hi⟩ := indexOf?_isSome_of_mem _ _ hin
  unfold Texts.GenerateTexts at hrun
  simp only [hi] at hrun
  cases hg : (NewText t.RootDir t.LangIn).GenerateText sha client none w with
  | mk r w1 =>
    rw [hg] at hrun
    cases r with
    | error e => exact absurd hrun (by simp)
    | ok text =>
      obtain ⟨_, content, hfile, _⟩ := GenerateText_none_ok _ _ _ _ _ _ hg
      exact ⟨content, hfile⟩

/-! ## Lemmas on a run with the Google model -/

theorem audioWorkers_google_all_miss (sha : Sha256) (client : Client) (txt : Text)
    (audioDir : String) (cachedHashes : List String) (hs : List String) (j : Nat) (w : World)
    (hmiss : ∀ k, k < hs.length → hs[k]? ≠ some (cachedHashAt cachedHashes (j + k))) :
    audioWorkers sha client GoogleTTS txt audioDir cachedHashes hs j w =
      (.ok (List.replicate hs.length ""), w) := by
  induction hs generalizing j with
  | nil => rfl
  | cons h rest ih =>
    have h0 : h ≠ cachedHashAt cachedHashes j := by
      have := hmiss 0 (by simp)
      simpa using this
    have hrest : ∀ k, k < rest.length → rest[k]? ≠ some (cachedHashAt cachedHashes (j + 1 + k)) := by
      intro k hk
      have := hmiss (k + 1) (by simpa using hk)
      rw [List.getElem?_cons_succ] at this
      have e : j + (k + 1) = j + 1 + k := by omega
      rwa [e] at this
    have hseg : audioSegment sha client GoogleTTS txt audioDir cachedHashes j h w = (.ok "", w) := by
      unfold audioSegment audioGate
      rw [if_neg h0]
      have hm : ¬ (GoogleTTS = OpenAITTS) := by decide
      simp only [hm, if_false, if_true]
    rw [audioWorkers, hseg]
    simp only
    rw [ih (j + 1) hrest]
    rfl

/-! ## Lemmas on the schedules of `translateText` -/

theorem translateWorkersScheduled_uniform (client : Client) (lang : String) (inputText : Text)
    (schedule : List TranslateStep) (slots : List (Option SlideText)) (hashes : List String) :
    ∃ (r : Except Fatal (List (Option SlideText) × List String)) (evs : List Event),
      (∀ w : World, translateWorkersScheduled client lang inputText schedule slots hashes w =
        (r, ⟨w.fs, w.trace ++ evs⟩)) ∧
      ((∃ v, r = .ok v) → evs = (sendsOf schedule).filterMap fun i =>
        (inputText.SlidesText[i]?).map fun s => Event.chat (translatePrompt s.Text lang)) := by
  induction schedule generalizing slots hashes with
  | nil =>
    refine ⟨.ok (slots, hashes), [], ?_, fun _ => rfl⟩
    intro w
    simp [translateWorkersScheduled]
  | cons step rest ih =>
    cases step with
    | send i =>
      obtain ⟨r, evs, hr, hev⟩ := ih slots hashes
      cases hs : inputText.SlidesText[i]? with
      | none =>
        refine ⟨r, evs, ?_, ?_⟩
        · intro w
          rw [translateWorkersScheduled]
          simp only [hs]
          exact hr w
        · intro hok
          rw [hev hok]
          simp [sendsOf, hs]
      | some slideText =>
        refine ⟨r, Event.chat (translatePrompt slideText.Text lang) :: evs, ?_, ?_⟩
        · intro w
          rw [translateWorkersScheduled]
          simp only [hs]
          rw [hr]
          simp [World.log]
        · intro hok
          rw [hev hok]
          simp [sendsOf, hs]
    | done i =>
      cases hs : inputText.SlidesText[i]? with
      | none =>
        obtain ⟨r, evs, hr, hev⟩ := ih slots hashes
        refine ⟨r, evs, ?_, ?_⟩
        · intro w
          rw [translateWorkersScheduled]
          simp only [hs]
          exact hr w
        · intro hok
          rw [hev hok]
          simp [sendsOf]
      | some slideText =>
        cases hc : client.chat (translatePrompt slideText.Text lang) with
        | error e =>
          refine ⟨.error (.exit ("Translation error: " ++ e)), [], ?_, ?_⟩
          · intro w
            rw [translateWorkersScheduled]
            simp [hs, hc]
          · rintro ⟨v, hv⟩
            exact absurd hv (by simp)
        | ok choices =>
          cases hh : choices.head? with
          | none =>
            refine ⟨.error (.panic "index out of range"), [], ?_, ?_⟩
            · intro w
              rw [translateWorkersScheduled]
              simp [hs, hc, hh]
            · rintro ⟨v, hv⟩
              exact absurd hv (by simp)
          | some translatedText =>
            cases hH : inputText.Hashes[i]? with
            | none =>
              refine ⟨.error (.panic "index out of range"), [], ?_, ?_⟩
              · intro w
                rw [translateWorkersScheduled]
                simp [hs, hc, hh, hH]
              · rintro ⟨v, hv⟩
                exact absurd hv (by simp)
            | some h =>
              obtain ⟨r, evs, hr, hev⟩ := ih (slots.set i (some (NewSlideText translatedText)))
                (hashes.set i h)
              refine ⟨r, evs, ?_, ?_⟩
              · intro w
                rw [translateWorkersScheduled]
                simp only [hs, hc, hh, hH]
                exact hr w
              · intro hok
                rw [hev hok]
                simp [sendsOf]

theorem translationOf_of_head (client : Client) (lang : String) (slideText : SlideText)
    (choices : List String) (translatedText : String)
    (hc : client.chat (translatePrompt slideText.Text lang) = .ok choices)
    (hh : choices.head? = some translatedText) :
    translationOf client lang slideText = some (NewSlideText translatedText) := by
  unfold translationOf
  rw [hc]
  cases choices with
  | nil => simp at hh
  | cons x xs =>
    simp only [List.head?_cons, Option.some.injEq] at hh
    rw [hh]

theorem translateWorkersScheduled_slots (client : Client) (lang : String) (inputText : Text)
    (schedule : List TranslateStep) (slots : List (Option SlideText)) (hashes : List String)
    (w w' : World) (slots' : List (Option SlideText)) (hashes' : List String)
    (h : translateWorkersScheduled client lang inputText schedule slots hashes w =
      (.ok (slots', hashes'), w')) :
    slots'.length = slots.length ∧ hashes'.length = hashes.length ∧
    (∀ i, i ∈ donesOf schedule → ∀ s, inputText.SlidesText[i]? = some s →
      i < slots.length → i < hashes.length →
        (∃ tr, translationOf client lang s = some tr ∧ slots'[i]? = some (some tr)) ∧
        (∃ hv, inputText.Hashes[i]? = some hv ∧ hashes'[i]? = some hv)) ∧
    (∀ i, i ∉ donesOf schedule → slots'[i]? = slots[i]? ∧ hashes'[i]? = hashes[i]?) := by
  induction schedule generalizing slots hashes w with
  | nil =>
    simp only [translateWorkersScheduled, Prod.mk.injEq, Except.ok.injEq] at h
    obtain ⟨⟨rfl, rfl⟩, _⟩ := h
    exact ⟨rfl, rfl, fun i hi => absurd hi (by simp [donesOf]), fun i _ => ⟨rfl, rfl⟩⟩
  | cons step rest ih =>
    cases step with
    | send i =>
      rw [translateWorkersScheduled] at h
      cases hs : inputText.SlidesText[i]? with
      | none =>
        simp only [hs] at h
        exact ih _ _ _ h
      | some slideText =>
        simp only [hs] at h
        exact ih _ _ _ h
    | done i =>
      rw [translateWorkersScheduled] at h
      cases hs : inputText.SlidesText[i]? with
      | none =>
        simp only [hs] at h
        obtain ⟨h1, h2, h3, h4⟩ := ih _ _ _ h
        refine ⟨h1, h2, ?_, ?_⟩
        · intro k hk s hks
          simp only [donesOf, List.mem_cons] at hk
          rcases hk with rfl | hk
          · rw [hs] at hks
            exact absurd hks (by simp)
          · exact h3 k hk s hks
        · intro k hk
          simp only [donesOf, List.mem_cons, not_or] at hk
          exact h4 k hk.2
      | some slideText =>
        simp only [hs] at h
        cases hc : client.chat (translatePrompt slideText.Text lang) with
        | error e => rw [hc] at h; exact absurd h (by simp)
        | ok choices =>
          rw [hc] at h
          simp only at h
          cases hh : choices.head? with
          | none => rw [hh] at h; exact absurd h (by simp)
          | some translatedText =>
            cases hH : inputText.Hashes[i]? with
            | none => rw [hh, hH] at h; exact absurd h (by simp)
            | some hv =>
              rw [hh, hH] at h
              simp only at h
              obtain ⟨h1, h2, h3, h4⟩ := ih _ _ _ h
              rw [List.length_set] at h1 h2
              have htr := translationOf_of_head client lang slideText choices translatedText hc hh
              refine ⟨h1, h2, ?_, ?_⟩
              · intro k hk s hks hkl hkh
                by_cases hkr : k ∈ donesOf rest
                · exact h3 k hkr s hks (by rw [List.length_set]; exact hkl)
                    (by rw [List.length_set]; exact hkh)
                · simp only [donesOf, List.mem_cons] at hk
                  rcases hk with rfl | hk
                  · obtain ⟨e1, e2⟩ := h4 k hkr
                    rw [hs] at hks
                    cases Option.some.inj hks
                    refine ⟨⟨_, htr, ?_⟩, ⟨hv, hH, ?_⟩⟩
                    · rw [e1, List.getElem?_set_self hkl]
                    · rw [e2, List.getElem?_set_self hkh]
                  · exact absurd hk hkr
              · intro k hk
                simp only [donesOf, List.mem_cons, not_or] at hk
                obtain ⟨e1, e2⟩ := h4 k hk.2
                rw [e1, e2, List.getElem?_set_ne (fun e => hk.1 e.symm),
                  List.getElem?_set_ne (fun e => hk.1 e.symm)]
                exact ⟨rfl, rfl⟩

theorem allSlots_eq_some (slots : List (Option SlideText)) (slidesText : List SlideText)
    (h : allSlots slots = some slidesText) : slots = slidesText.map some := by
  induction slots generalizing slidesText with
  | nil =>
    simp only [allSlots, Option.some.injEq] at h
    rw [← h]
    rfl
  | cons x rest ih =>
    cases x with
    | none => simp [allSlots] at h
    | some s =>
      simp only [allSlots, Option.map_eq_some'] at h
      obtain ⟨r, hr, rfl⟩ := h
      rw [List.map_cons, ← ih r hr]

theorem translateWorkers_of_all (client : Client) (lang : String) (inputHashes : List String)
    (slides : List SlideText) (i : Nat) (w : World)
    (hall : ∀ k s, slides[k]? = some s →
      (∃ tr, translationOf client lang s = some tr) ∧ ∃ hv, inputHashes[i + k]? = some hv) :
    ∃ r, translateWorkers client lang inputHashes slides i w =
        (.ok r, ⟨w.fs, w.trace ++
          slides.map (fun s => Event.chat (translatePrompt s.Text lang))⟩) ∧
      r.map (fun p => some p.1) = slides.map (translationOf client lang) := by
  induction slides generalizing i w with
  | nil =>
    refine ⟨[], ?_, rfl⟩
    simp [translateWorkers]
  | cons s rest ih =>
    obtain ⟨⟨tr, htr⟩, hv, hhv⟩ := hall 0 s (List.getElem?_cons_zero)
    rw [Nat.add_zero] at hhv
    have hrest : ∀ k s', rest[k]? = some s' →
        (∃ tr, translationOf client lang s' = some tr) ∧ ∃ hv, inputHashes[i + 1 + k]? = some hv := by
      intro k s' hk
      have := hall (k + 1) s' (by simpa using hk)
      have e : i + (k + 1) = i + 1 + k := by omega
      rwa [e] at this
    obtain ⟨r, hr, hmap⟩ := ih (i + 1) (w.log (Event.chat (translatePrompt s.Text lang))) hrest
    unfold translationOf at htr
    cases hc : client.chat (translatePrompt s.Text lang) with
    | error e => rw [hc] at htr; exact absurd htr (by simp)
    | ok choices =>
      rw [hc] at htr
      cases choices with
      | nil => exact absurd htr (by simp)
      | cons x xs =>
        simp only [Option.some.injEq] at htr
        refine ⟨(NewSlideText x, hv) :: r, ?_, ?_⟩
        · rw [translateWorkers]
          simp only [hc, List.head?_cons, hhv, hr]
          simp [World.log]
        · rw [List.map_cons, List.map_cons, hmap]
          congr 1
          unfold translationOf
          rw [hc]

theorem filterMap_range_getElem? {α β : Type} (l : List α) (f : α → β) :
    (List.range l.length).filterMap (fun i => (l[i]?).map f) = l.map f := by
  induction l with
  | nil => rfl
  | cons x xs ih =>
    rw [List.length_cons, List.range_succ_eq_map, List.filterMap_cons]
    simp only [List.getElem?_cons_zero, Option.map_some', List.filterMap_map, List.map_cons]
    congr 1
    rw [← ih]
    apply List.filterMap_congr
    intro i _
    simp

theorem translateTextScheduled_ok (t : Text) (client : Client) (inputText : Text)
    (schedule : List TranslateStep) (w w' : World) (t' : Text)
    (hvalid : ValidSchedule inputText.SlidesText.length schedule)
    (hrun : t.translateTextScheduled client inputText schedule w = (.ok t', w')) :
    w'.trace = w.trace ++
      ((sendsOf schedule).filterMap fun i =>
        (inputText.SlidesText[i]?).map fun s => Event.chat (translatePrompt s.Text t.Lang)) ++
      [Event.create (Join [t.TextDir, "texts.txt"]), Event.create (Join [t.TextDir, "hashes"])] ∧
    (∀ w2 : World, ∃ w2', t.translateTextScheduled client inputText schedule w2 = (.ok t', w2') ∧
      w2'.trace = w2.trace ++
        ((sendsOf schedule).filterMap fun i =>
          (inputText.SlidesText[i]?).map fun s => Event.chat (translatePrompt s.Text t.Lang)) ++
        [Event.create (Join [t.TextDir, "texts.txt"]),
         Event.create (Join [t.TextDir, "hashes"])]) ∧
    ∃ w'', t.translateText client inputText w = (.ok t', w'') ∧ w''.fs = w'.fs := by
  obtain ⟨r, evs, huni, hevs⟩ := translateWorkersScheduled_uniform client t.Lang inputText schedule
    (List.replicate inputText.SlidesText.length none)
    (List.replicate inputText.SlidesText.length "")
  unfold Text.translateTextScheduled at hrun
  rw [huni w] at hrun
  cases r with
  | error e => exact absurd hrun (by simp)
  | ok v =>
    obtain ⟨slots', hashes'⟩ := v
    simp only at hrun
    have hevs' := hevs ⟨_, rfl⟩
    cases hall : allSlots slots' with
    | none => rw [hall] at hrun; exact absurd hrun (by simp)
    | some slidesText =>
      rw [hall] at hrun
      simp only at hrun
      unfold Text.saveTextFile at hrun
      simp only at hrun
      cases hfc : hashFileContent slidesText.length hashes' 0 with
      | none => rw [hfc] at hrun; exact absurd hrun (by simp)
      | some hs =>
        rw [hfc] at hrun
        simp only [Prod.mk.injEq, Except.ok.injEq] at hrun
        obtain ⟨ht', hw'⟩ := hrun
        have hscheduled : ∀ w2 : World, t.translateTextScheduled client inputText schedule w2 =
            (.ok t', ((⟨w2.fs, w2.trace ++ evs⟩ : World).writeFile (Join [t.TextDir, "texts.txt"])
              (textFileContent slidesText)).writeFile (Join [t.TextDir, "hashes"]) hs) := by
          intro w2
          unfold Text.translateTextScheduled
          rw [huni w2]
          simp only [hall]
          unfold Text.saveTextFile
          simp only [hfc, ht']
        have htrace : ∀ w2 : World,
            (((⟨w2.fs, w2.trace ++ evs⟩ : World).writeFile (Join [t.TextDir, "texts.txt"])
              (textFileContent slidesText)).writeFile (Join [t.TextDir, "hashes"]) hs).trace =
            w2.trace ++
              ((sendsOf schedule).filterMap fun i =>
                (inputText.SlidesText[i]?).map fun s =>
                  Event.chat (translatePrompt s.Text t.Lang)) ++
              [Event.create (Join [t.TextDir, "texts.txt"]),
               Event.create (Join [t.TextDir, "hashes"])] := by
          intro w2
          rw [← hevs']
          simp [World.writeFile]
        refine ⟨?_, fun w2 => ⟨_, hscheduled w2, htrace w2⟩, ?_⟩
        · rw [← hw']
          exact htrace w
        · -- the goroutines run in ordinal order give the same text
          obtain ⟨hl1, hl2, hdone, _⟩ := translateWorkersScheduled_slots client t.Lang inputText
            schedule _ _ w _ slots' hashes' (huni w)
          rw [List.length_replicate] at hl1 hl2
          have hmemd : ∀ k, k < inputText.SlidesText.length → k ∈ donesOf schedule := by
            intro k hk
            exact (hvalid.2.1.mem_iff).2 (List.mem_range.2 hk)
          have hfacts : ∀ (k : Nat) (s : SlideText), inputText.SlidesText[k]? = some s →
              (∃ tr, translationOf client t.Lang s = some tr ∧ slots'[k]? = some (some tr)) ∧
              (∃ hv, inputText.Hashes[k]? = some hv ∧ hashes'[k]? = some hv) := by
            intro k s hk
            have hkl : k < inputText.SlidesText.length := by
              by_contra hc
              rw [List.getElem?_eq_none (by omega)] at hk
              exact absurd hk (by simp)
            exact hdone k (hmemd k hkl) s hk (by rw [List.length_replicate]; exact hkl)
              (by rw [List.length_replicate]; exact hkl)
          have hall0 : ∀ (k : Nat) (s : SlideText), inputText.SlidesText[k]? = some s →
              (∃ tr, translationOf client t.Lang s = some tr) ∧
                ∃ hv, inputText.Hashes[0 + k]? = some hv := by
            intro k s hk
            obtain ⟨⟨tr, h1, _⟩, hv, h2, _⟩ := hfacts k s hk
            refine ⟨⟨tr, h1⟩, hv, ?_⟩
            rw [Nat.zero_add]
            exact h2
          obtain ⟨rs, hrs, hmap⟩ := translateWorkers_of_all client t.Lang inputText.Hashes
            inputText.SlidesText 0 w hall0
          have hsnd := (translateWorkers_ok _ _ _ _ _ _ _ _ hrs).2.2.2
          have hslots : slots' = inputText.SlidesText.map (translationOf client t.Lang) := by
            apply List.ext_getElem?
            intro k
            by_cases hk : k < inputText.SlidesText.length
            · obtain ⟨⟨tr, h1, h2⟩, _⟩ := hfacts k _ (List.getElem?_eq_getElem hk)
              rw [h2, List.getElem?_map, List.getElem?_eq_getElem hk, Option.map_some', h1]
            · rw [List.getElem?_eq_none (by omega), List.getElem?_eq_none (by simp; omega)]
          have hfst : rs.map Prod.fst = slidesText := by
            have h1 : (rs.map Prod.fst).map some = slidesText.map some := by
              rw [List.map_map, ← allSlots_eq_some _ _ hall, hslots, ← hmap]
              rfl
            exact List.map_injective_iff.2 (Option.some_injective _) h1
          have hhashes : rs.map Prod.snd = hashes' := by
            rw [hsnd, List.drop_zero]
            apply List.ext_getElem?
            intro k
            by_cases hk : k < inputText.SlidesText.length
            · obtain ⟨_, hv, h1, h2⟩ := hfacts k _ (List.getElem?_eq_getElem hk)
              rw [List.getElem?_take_of_lt hk, h1, h2]
            · rw [List.getElem?_eq_none (by rw [List.length_take]; omega),
                List.getElem?_eq_none (by omega)]
          refine ⟨((⟨w.fs, w.trace ++ inputText.SlidesText.map
              (fun s => Event.chat (translatePrompt s.Text t.Lang))⟩ : World).writeFile
              (Join [t.TextDir, "texts.txt"]) (textFileContent slidesText)).writeFile
              (Join [t.TextDir, "hashes"]) hs, ?_, ?_⟩
          · unfold Text.translateText
            rw [hrs]
            simp only [hfst, hhashes]
            unfold Text.saveTextFile
            simp only [hfc, ht']
          · rw [← hw']
            rfl

theorem allSlots_map_some (l : List SlideText) : allSlots (l.map some) = some l := by
  induction l with
  | nil => rfl
  | cons x xs ih => simp [allSlots, ih]

theorem take_set_self {α : Type} (l : List α) (i : Nat) (a : α) :
    (l.set i a).take i = l.take i :=
  List.ext_getElem? fun k => by
    rw [List.getElem?_take, List.getElem?_take]
    split
    · rw [List.getElem?_set_ne (by omega)]
    · rfl

theorem translateWorkersScheduled_ordinal (client : Client) (lang : String) (inputText : Text)
    (rest : List SlideText) (i : Nat) (slots : List (Option SlideText)) (hashes : List String)
    (w : World)
    (hdrop : inputText.SlidesText.drop i = rest)
    (hslots : slots.length = inputText.SlidesText.length)
    (hhashes : hashes.length = inputText.SlidesText.length) :
    translateWorkersScheduled client lang inputText (ordinalSchedule rest.length i) slots hashes w =
      match translateWorkers client lang inputText.Hashes rest i w with
      | (.error e, w1) => (.error e, w1)
      | (.ok r, w1) =>
        (.ok (slots.take i ++ r.map (fun p => some p.1), hashes.take i ++ r.map Prod.snd), w1) := by
  induction rest generalizing i slots hashes w with
  | nil =>
    have hi : inputText.SlidesText.length ≤ i := List.drop_eq_nil_iff.1 hdrop
    simp only [List.length_nil, ordinalSchedule, translateWorkersScheduled, translateWorkers,
      List.map_nil, List.append_nil]
    rw [List.take_of_length_le (by omega), List.take_of_length_le (by omega)]
  | cons s rest ih =>
    have hi : i < inputText.SlidesText.length := by
      by_contra hc
      rw [List.drop_eq_nil_iff.2 (by omega)] at hdrop
      exact absurd hdrop (by simp)
    have hdrop' : inputText.SlidesText.drop (i + 1) = rest := by
      rw [List.drop_eq_getElem_cons hi] at hdrop
      exact (List.cons.inj hdrop).2
    have hget : inputText.SlidesText[i]? = some s := by
      rw [List.drop_eq_getElem_cons hi] at hdrop
      rw [List.getElem?_eq_getElem hi, (List.cons.inj hdrop).1]
    simp only [List.length_cons, ordinalSchedule, translateWorkersScheduled, hget, translateWorkers]
    cases hc : client.chat (translatePrompt s.Text lang) with
    | error e => rfl
    | ok choices =>
      simp only
      cases hh : choices.head? with
      | none => rfl
      | some translatedText =>
        cases hH : inputText.Hashes[i]? with
        | none => rfl
        | some hv =>
          simp only
          rw [ih (i + 1) _ _ _ hdrop' (by rw [List.length_set]; exact hslots)
            (by rw [List.length_set]; exact hhashes)]
          cases translateWorkers client lang inputText.Hashes rest (i + 1)
              (w.log (Event.chat (translatePrompt s.Text lang))) with
          | mk r2 w2 =>
            cases r2 with
            | error e => rfl
            | ok rs =>
              simp only [Prod.mk.injEq, Except.ok.injEq, and_true, List.map_cons]
              constructor
              · rw [List.take_succ, take_set_self,
                  List.getElem?_set_self (by rw [hslots]; exact hi)]
                simp
              · rw [List.take_succ, take_set_self,
                  List.getElem?_set_self (by rw [hhashes]; exact hi)]
                simp

theorem translateTextScheduled_ordinal (t : Text) (client : Client) (inputText : Text)
    (w : World) :
    t.translateTextScheduled client inputText
        (ordinalSchedule inputText.SlidesText.length 0) w =
      t.translateText client inputText w := by
  unfold Text.translateTextScheduled Text.translateText
  have h := translateWorkersScheduled_ordinal client t.Lang inputText inputText.SlidesText 0
    (List.replicate inputText.SlidesText.length none)
    (List.replicate inputText.SlidesText.length "") w rfl (by simp) (by simp)
  rw [h]
  cases translateWorkers client t.Lang inputText.Hashes inputText.SlidesText 0 w with
  | mk r w1 =>
    cases r with
    | error e => rfl
    | ok rs =>
      simp only [List.take_zero, List.nil_append]
      have e : rs.map (fun p => some p.1) = (rs.map Prod.fst).map some := by
        rw [List.map_map]
        rfl
      rw [e, allSlots_map_some]

theorem sendsOf_ordinalSchedule (n i : Nat) : sendsOf (ordinalSchedule n i) = List.range' i n := by
  induction n generalizing i with
  | zero => rfl
  | succ n ih => simp [ordinalSchedule, sendsOf, ih, List.range'_succ]

theorem donesOf_ordinalSchedule (n i : Nat) : donesOf (ordinalSchedule n i) = List.range' i n := by
  induction n generalizing i with
  | zero => rfl
  | succ n ih => simp [ordinalSchedule, donesOf, ih, List.range'_succ]

theorem sentBeforeDone_ordinalSchedule (n i : Nat) (sent : List Nat) :
    sentBeforeDone (ordinalSchedule n i) sent = true := by
  induction n generalizing i sent with
  | zero => rfl
  | succ n ih => simp [ordinalSchedule, sentBeforeDone, ih]

theorem validSchedule_ordinalSchedule (n : Nat) : ValidSchedule n (ordinalSchedule n 0) := by
  refine ⟨?_, ?_, sentBeforeDone_ordinalSchedule n 0 []⟩
  · rw [sendsOf_ordinalSchedule, List.range_eq_range']
  · rw [donesOf_ordinalSchedule, List.range_eq_range']

/-! ## The claims -/

/-- C6: `SlideText.Hash` is the hexadecimal encoding of the SHA-256 digest of the
text, it has 64 characters, all of them lowercase hexadecimal, and two values with
the same text have the same digest. -/
theorem Hash_pure (sha : Sha256) (s₁ s₂ : SlideText) (h : s₁.Text = s₂.Text) :
    s₁.Hash sha = EncodeToString (sha s₁.Text).bytes ∧
    (s₁.Hash sha).length = 64 ∧
    (∀ c ∈ (s₁.Hash sha).data, c ∈ "0123456789abcdef".data) ∧
    s₁.Hash sha = s₂.Hash sha := by
  refine ⟨rfl, (Hash_isHexDigest sha s₁).1, (Hash_isHexDigest sha s₁).2, ?_⟩
  unfold SlideText.Hash
  rw [h]

/-- Witness of C6 on two values built from the text `A`. -/
theorem Hash_pure_witness :
    (NewSlideText "A").Hash exampleSha = EncodeToString (exampleSha "A").bytes ∧
    ((NewSlideText "A").Hash exampleSha).length = 64 ∧
    (∀ c ∈ ((NewSlideText "A").Hash exampleSha).data, c ∈ "0123456789abcdef".data) ∧
    (NewSlideText "A").Hash exampleSha = (SlideText.mk "A").Hash exampleSha :=
  Hash_pure exampleSha (NewSlideText "A") (SlideText.mk "A") rfl

/-- C1, as the code has it: the cache test of the audio stage decides Reuse exactly
when the current fingerprint equals the stored fingerprint paired with the
ordinal, which is `stored[i]` for `i < len(stored)` and the empty string beyond;
it decides Recompute in every other case; the files on disk play no part, and on
Reuse the segment goroutine yields the path and has no effect at all. -/
theorem audioGate_reuse_iff (audioDir : String) (i : Nat) (fp : String) (stored : List String) :
    (audioGate audioDir i fp stored = Decision.Reuse (audioPath audioDir i) ↔
      (i < stored.length ∧ stored[i]? = some fp) ∨ (stored.length ≤ i ∧ fp = "")) ∧
    (audioGate audioDir i fp stored = Decision.Recompute ↔
      ¬ ((i < stored.length ∧ stored[i]? = some fp) ∨ (stored.length ≤ i ∧ fp = ""))) ∧
    (∀ (sha : Sha256) (client : Client) (audioModel : Model) (txt : Text) (w : World),
      audioGate audioDir i fp stored = Decision.Reuse (audioPath audioDir i) →
      audioSegment sha client audioModel txt audioDir stored i fp w =
        (.ok (audioPath audioDir i), w)) := by
  have key : fp = cachedHashAt stored i ↔
      (i < stored.length ∧ stored[i]? = some fp) ∨ (stored.length ≤ i ∧ fp = "") := by
    unfold cachedHashAt
    by_cases hi : i < stored.length
    · simp only [hi, dite_true, true_and, List.getElem?_eq_getElem, Option.some.injEq]
      constructor
      · intro h; exact Or.inl h.symm
      · rintro (h | ⟨h, _⟩)
        · exact h.symm
        · omega
    · simp only [hi, dite_false, false_and, false_or]
      constructor
      · intro h; exact ⟨by omega, h⟩
      · intro h; exact h.2
  refine ⟨?_, ?_, ?_⟩
  · rw [← key]; unfold audioGate
    by_cases h : fp = cachedHashAt stored i <;> simp [h]
  · rw [← key]; unfold audioGate
    by_cases h : fp = cachedHashAt stored i <;> simp [h]
  · intro sha client audioModel txt w h
    unfold audioSegment
    rw [h]

/-- C1 as stated fails: with the stored fingerprint of ordinal 0 equal to the
current one and no file `0.mp3` on disk, the decision is Reuse, the run returns
the path of the missing file and the speech backend is not called. -/
theorem audioGate_reuse_without_artifact :
    sidecarOnlyWorld.fs (audioPath "data/cache/en/audio" 0) = none ∧
    ¬ (audioGate "data/cache/en/audio" 0 (exampleText.Hashes.getD 0 "")
          (exampleText.GenerateCacheHashes sidecarOnlyWorld.fs "data/cache/en/audio") =
        Decision.Reuse (audioPath "data/cache/en/audio" 0) ↔
      (0 < (exampleText.GenerateCacheHashes sidecarOnlyWorld.fs "data/cache/en/audio").length ∧
        (exampleText.GenerateCacheHashes sidecarOnlyWorld.fs "data/cache/en/audio")[0]? =
          some (exampleText.Hashes.getD 0 "") ∧
        (sidecarOnlyWorld.fs (audioPath "data/cache/en/audio" 0)).isSome = true)) ∧
    (generateAudiosLang exampleSha exampleClient OpenAITTS exampleText sidecarOnlyWorld).1 =
      .ok ["data/cache/en/audio/0.mp3", "data/cache/en/audio/1.mp3", "data/cache/en/audio/2.mp3"] ∧
    (generateAudiosLang exampleSha exampleClient OpenAITTS exampleText sidecarOnlyWorld).2.trace =
      [Event.create "data/cache/en/audio/hashes"] := by
  decide

/-- Witness of C1 (as the code has it) on a stored sequence of one fingerprint. -/
theorem audioGate_reuse_iff_witness :
    audioGate "data/cache/en/audio" 0 "ab" ["ab"] =
      Decision.Reuse (audioPath "data/cache/en/audio" 0) ∧
    audioGate "data/cache/en/audio" 1 "ab" ["ab"] = Decision.Recompute ∧
    audioGate "data/cache/en/audio" 0 "cd" ["ab"] = Decision.Recompute ∧
    audioSegment exampleSha exampleClient OpenAITTS exampleText "data/cache/en/audio" ["ab"] 0 "ab"
      sidecarOnlyWorld = (.ok (audioPath "data/cache/en/audio" 0), sidecarOnlyWorld) :=
  ⟨(audioGate_reuse_iff "data/cache/en/audio" 0 "ab" ["ab"]).1.2 (Or.inl (by decide)),
   (audioGate_reuse_iff "data/cache/en/audio" 1 "ab" ["ab"]).2.1.2 (by decide),
   (audioGate_reuse_iff "data/cache/en/audio" 0 "cd" ["ab"]).2.1.2 (by decide),
   (audioGate_reuse_iff "data/cache/en/audio" 0 "ab" ["ab"]).2.2 exampleSha exampleClient OpenAITTS
     exampleText sidecarOnlyWorld (by decide)⟩

/-- C7, as the code has it: when `<directory>/hashes` is absent,
`GenerateCacheHashes` returns (it cannot fail) one empty string for every segment
of the current language, a sequence of length `len(t.SlidesText)`. -/
theorem GenerateCacheHashes_absent (t : Text) (fs : FS) (directory : String)
    (habsent : fs (Join [directory, "hashes"]) = none) :
    t.GenerateCacheHashes fs directory = List.replicate t.SlidesText.length "" ∧
    (t.GenerateCacheHashes fs directory).length = t.SlidesText.length := by
  unfold Text.GenerateCacheHashes
  rw [habsent]
  simp

/-- Witness of C7 (as the code has it): three segments, no file at all. -/
theorem GenerateCacheHashes_absent_witness :
    (fun _ => none : FS) (Join ["data/cache/en/audio", "hashes"]) = none ∧
    exampleText.GenerateCacheHashes (fun _ => none) "data/cache/en/audio" =
      List.replicate exampleText.SlidesText.length "" ∧
    (exampleText.GenerateCacheHashes (fun _ => none) "data/cache/en/audio").length =
      exampleText.SlidesText.length :=
  ⟨rfl, GenerateCacheHashes_absent exampleText (fun _ => none) "data/cache/en/audio" rfl⟩

/-- C7 as stated fails: with the hashes file absent and three segments loaded,
`GenerateCacheHashes` returns three empty strings, not the empty sequence. -/
theorem GenerateCacheHashes_absent_not_empty :
    (fun _ => none : FS) (Join ["data/cache/en/audio", "hashes"]) = none ∧
    exampleText.GenerateCacheHashes (fun _ => none) "data/cache/en/audio" = ["", "", ""] ∧
    (exampleText.GenerateCacheHashes (fun _ => none) "data/cache/en/audio").length ≠ 0 := by
  decide

/-- C2: a sequence of hex digests written to a hashes file, joined by newlines as
`saveTextFile` does or each followed by a newline as `GenerateAudios` does, is read
back by `GenerateCacheHashes` as the same sequence. -/
theorem hashStore_roundtrip (hs : List String) (hdig : ∀ h ∈ hs, IsHexDigest h) :
    scanLines (joinLines hs) = hs ∧
    scanLines (audioHashesContent hs) = hs ∧
    (∀ (t reader : Text) (slidesText : List SlideText) (w : World),
      t.Hashes = hs → slidesText.length = hs.length →
      ∃ w', t.saveTextFile slidesText w = (.ok (), w') ∧
        w'.fs (Join [t.TextDir, "hashes"]) = some (joinLines hs) ∧
        reader.GenerateCacheHashes w'.fs t.TextDir = hs) ∧
    (∀ (sha : Sha256) (client : Client) (audioModel : Model) (txt reader : Text)
        (w w' : World) (results : List String),
      txt.Hashes = hs →
      generateAudiosLang sha client audioModel txt w = (.ok results, w') →
      w'.fs (Join [Join [txt.DataDir, "cache", txt.Lang, "audio"], "hashes"]) =
        some (audioHashesContent hs) ∧
      reader.GenerateCacheHashes w'.fs (Join [txt.DataDir, "cache", txt.Lang, "audio"]) = hs) := by
  have hclean : ∀ h ∈ hs, CleanLine h ∧ h ≠ "" := fun h hh => ⟨(hdig h hh).cleanLine, (hdig h hh).ne_empty⟩
  have r1 := scanLines_joinLines hs hclean
  have r2 := scanLines_audioHashesContent hs (fun h hh => (hclean h hh).1)
  refine ⟨r1, r2, ?_, ?_⟩
  · intro t reader slidesText w ht hlen
    have hc : hashFileContent slidesText.length t.Hashes 0 = some (joinLines hs) := by
      rw [hashFileContent_eq _ _ _ (by rw [ht, hlen]; omega), ht, hlen]
      simp
    refine ⟨(w.writeFile (Join [t.TextDir, "texts.txt"]) (textFileContent slidesText)).writeFile
      (Join [t.TextDir, "hashes"]) (joinLines hs), ?_, ?_, ?_⟩
    · unfold Text.saveTextFile
      simp only [hc]
    · simp [World.writeFile]
    · unfold Text.GenerateCacheHashes
      simp [World.writeFile, r1]
  · intro sha client audioModel txt reader w w' results ht hrun
    unfold generateAudiosLang at hrun
    simp only at hrun
    split at hrun
    · exact absurd hrun (by simp)
    · simp only [Prod.mk.injEq, Except.ok.injEq] at hrun
      obtain ⟨_, rfl⟩ := hrun
      refine ⟨by simp [ht], ?_⟩
      unfold Text.GenerateCacheHashes
      simp [ht, r2]

/-- Witness of C2 on the three fingerprints of the example narration. -/
theorem hashStore_roundtrip_witness :
    (∀ h ∈ exampleText.Hashes, IsHexDigest h) ∧
    scanLines (joinLines exampleText.Hashes) = exampleText.Hashes ∧
    scanLines (audioHashesContent exampleText.Hashes) = exampleText.Hashes ∧
    exampleText.GenerateCacheHashes
      (exampleText.saveTextFile exampleText.SlidesText ⟨fun _ => none, []⟩).2.fs
      exampleText.TextDir = exampleText.Hashes ∧
    exampleText.GenerateCacheHashes
      (generateAudiosLang exampleSha exampleClient OpenAITTS exampleText ⟨fun _ => none, []⟩).2.fs
      (Join [exampleText.DataDir, "cache", exampleText.Lang, "audio"]) = exampleText.Hashes := by
  have hd : ∀ h ∈ exampleText.Hashes, IsHexDigest h := by decide
  have h := hashStore_roundtrip exampleText.Hashes hd
  refine ⟨hd, h.1, h.2.1, ?_, ?_⟩
  · obtain ⟨w', e, _, r⟩ := h.2.2.1 exampleText exampleText exampleText.SlidesText
      ⟨fun _ => none, []⟩ rfl (by decide)
    rw [e]; exact r
  · have e1 : (generateAudiosLang exampleSha exampleClient OpenAITTS exampleText
        ⟨fun _ => none, []⟩).1 = .ok ["data/cache/en/audio/0.mp3", "data/cache/en/audio/1.mp3",
          "data/cache/en/audio/2.mp3"] := by decide
    exact (h.2.2.2 exampleSha exampleClient OpenAITTS exampleText exampleText ⟨fun _ => none, []⟩
      _ _ rfl (Prod.ext e1 rfl)).2

/-- C8: an ordinal without a prior fingerprint, because the audio sidecar is absent
or because the stored sequence ends before it, is a cache miss for every actual
fingerprint: the decision is Recompute, never Reuse, and with the OpenAI model the
segment goroutine calls the speech backend for the text of that ordinal. -/
theorem no_prior_fingerprint_is_miss (sha : Sha256) (client : Client) (txt : Text) (fs : FS)
    (audioDir : String) (j : Nat) (currentHash : String) (slide : SlideText) (w : World)
    (hdig : IsHexDigest currentHash)
    (hnone : fs (Join [audioDir, "hashes"]) = none ∨
      (txt.GenerateCacheHashes fs audioDir).length ≤ j)
    (hslide : txt.SlidesText[j]? = some slide) :
    audioGate audioDir j currentHash (txt.GenerateCacheHashes fs audioDir) = Decision.Recompute ∧
    (∀ p, audioGate audioDir j currentHash (txt.GenerateCacheHashes fs audioDir) ≠
      Decision.Reuse p) ∧
    audioSegment sha client OpenAITTS txt audioDir (txt.GenerateCacheHashes fs audioDir) j
        currentHash w =
      (match client.speech slide.Text with
       | .ok body =>
         (.ok (audioPath audioDir j),
           (w.log (Event.speech slide.Text)).writeFile (audioPath audioDir j) body)
       | .error e =>
         (.error (.exit ("Failed to generate audio: " ++ e)), w.log (Event.speech slide.Text))) := by
  have hempty : cachedHashAt (txt.GenerateCacheHashes fs audioDir) j = "" := by
    rcases hnone with h | h
    · unfold Text.GenerateCacheHashes
      rw [h]
      exact cachedHashAt_replicate _ _
    · exact cachedHashAt_beyond _ _ h
  have hne : currentHash ≠ "" := hdig.ne_empty
  have hgate : audioGate audioDir j currentHash (txt.GenerateCacheHashes fs audioDir) =
      Decision.Recompute := by
    unfold audioGate
    rw [hempty, if_neg hne]
  refine ⟨hgate, fun p hp => by rw [hgate] at hp; exact absurd hp (by simp), ?_⟩
  unfold audioSegment
  rw [hgate]
  simp only [if_true, hslide, hempty]
  unfold GenerateAudioOpenAI
  simp only [SprintfHex_digest_ne_empty, if_false]
  cases client.speech slide.Text <;> rfl

/-- Witness of C8: ordinal 1 of the example narration with no sidecar on disk. -/
theorem no_prior_fingerprint_is_miss_witness :
    IsHexDigest (exampleText.Hashes.getD 1 "") ∧
    (fun _ => none : FS) (Join ["data/cache/en/audio", "hashes"]) = none ∧
    exampleText.SlidesText[1]? = some (NewSlideText "B\n") ∧
    audioGate "data/cache/en/audio" 1 (exampleText.Hashes.getD 1 "")
      (exampleText.GenerateCacheHashes (fun _ => none) "data/cache/en/audio") =
        Decision.Recompute ∧
    (audioSegment exampleSha exampleClient OpenAITTS exampleText "data/cache/en/audio"
      (exampleText.GenerateCacheHashes (fun _ => none) "data/cache/en/audio") 1
      (exampleText.Hashes.getD 1 "") ⟨fun _ => none, []⟩).2.trace =
        [Event.speech "B\n", Event.create "data/cache/en/audio/1.mp3"] := by
  have hd : IsHexDigest (exampleText.Hashes.getD 1 "") := by decide
  have hs : exampleText.SlidesText[1]? = some (NewSlideText "B\n") := by decide
  have h := no_prior_fingerprint_is_miss exampleSha exampleClient exampleText (fun _ => none)
    "data/cache/en/audio" 1 (exampleText.Hashes.getD 1 "") (NewSlideText "B\n")
    ⟨fun _ => none, []⟩ hd (Or.inl rfl) hs
  refine ⟨hd, rfl, hs, h.1, ?_⟩
  rw [h.2.2]
  decide

/-- C10: on a cache hit at ordinal `j` (the stored fingerprint at `j` is the current
one) a completed run of the language goroutine of `GenerateAudios` has the path
`<DataDir>/cache/<L>/audio/<j>.mp3` at position `j` of its result list; the
segment goroutine of `j` has no effect, every effect of the run besides the
creation of the hashes file belongs to another ordinal, and the audio file of `j`
is neither created nor changed. -/
theorem GenerateAudios_hit_reuses_path (sha : Sha256) (client : Client) (audioModel : Model)
    (txt : Text) (w w' : World) (results : List String) (j : Nat) (fp : String)
    (hrun : generateAudiosLang sha client audioModel txt w = (.ok results, w'))
    (hcur : txt.Hashes[j]? = some fp)
    (hstored : (txt.GenerateCacheHashes w.fs (Join [txt.DataDir, "cache", txt.Lang, "audio"]))[j]? =
      some fp) :
    results[j]? =
      some (Join [Join [txt.DataDir, "cache", txt.Lang, "audio"], toString j ++ ".mp3"]) ∧
    (txt.DataDir = "data" → txt.Lang ≠ "" →
      results[j]? = some ("data/cache/" ++ txt.Lang ++ "/audio/" ++ toString j ++ ".mp3")) ∧
    (∀ w0 : World,
      audioSegment sha client audioModel txt (Join [txt.DataDir, "cache", txt.Lang, "audio"])
        (txt.GenerateCacheHashes w.fs (Join [txt.DataDir, "cache", txt.Lang, "audio"])) j fp w0 =
      (.ok (audioPath (Join [txt.DataDir, "cache", txt.Lang, "audio"]) j), w0)) ∧
    (∃ evs, w'.trace = w.trace ++
        Event.create (Join [Join [txt.DataDir, "cache", txt.Lang, "audio"], "hashes"]) :: evs ∧
      (∀ e ∈ evs, ∃ k, k ≠ j ∧
        SegmentEvent txt (Join [txt.DataDir, "cache", txt.Lang, "audio"]) k e) ∧
      Event.create (audioPath (Join [txt.DataDir, "cache", txt.Lang, "audio"]) j) ∉ evs) ∧
    w'.fs (audioPath (Join [txt.DataDir, "cache", txt.Lang, "audio"]) j) =
      w.fs (audioPath (Join [txt.DataDir, "cache", txt.Lang, "audio"]) j) := by
  obtain ⟨w2, hwork, htrace, hfs⟩ := generateAudiosLang_ok _ _ _ _ _ _ _ hrun
  have hjc : j < (txt.GenerateCacheHashes w.fs (Join [txt.DataDir, "cache", txt.Lang, "audio"])).length := by
    by_contra hc
    rw [List.getElem?_eq_none (by omega)] at hstored
    exact absurd hstored (by simp)
  have hat : cachedHashAt (txt.GenerateCacheHashes w.fs
      (Join [txt.DataDir, "cache", txt.Lang, "audio"])) j = fp := by
    unfold cachedHashAt
    rw [dif_pos hjc]
    rw [List.getElem?_eq_getElem hjc] at hstored
    exact Option.some.inj hstored
  have hhit : txt.Hashes[j]? = some (cachedHashAt (txt.GenerateCacheHashes w.fs
      (Join [txt.DataDir, "cache", txt.Lang, "audio"])) (0 + j)) := by
    rw [Nat.zero_add, hat]; exact hcur
  have hres := (audioWorkers_results _ _ _ _ _ _ _ _ _ _ _ hwork).2 j hhit
  rw [Nat.zero_add] at hres
  obtain ⟨evs, hev, hattr, hframe⟩ := audioWorkers_effects _ _ _ _ _ _ _ _ _ _ _ hwork
  have hothers : ∀ e ∈ evs, ∃ k, k ≠ j ∧
      SegmentEvent txt (Join [txt.DataDir, "cache", txt.Lang, "audio"]) k e := by
    intro e he
    obtain ⟨k, _, hne, hseg⟩ := hattr e he
    rw [Nat.zero_add] at hne hseg
    refine ⟨k, ?_, hseg⟩
    rintro rfl
    rw [Nat.zero_add] at hhit
    exact hne hhit
  refine ⟨hres, ?_, ?_, ⟨evs, ?_, hothers, ?_⟩, ?_⟩
  · intro hd hl
    rw [hres, hd, audioDir_render _ hl]
    unfold audioPath
    rw [Join_pair _ _ (mp3_ne_empty j), if_neg]
    · congr 1
      apply String.ext
      simp [String.data_append]
    · intro h
      have := congrArg String.length h
      simp only [String.length_append] at this
      have h2 : "data/cache/".length = 11 := by decide
      have h3 : "".length = 0 := by decide
      omega
  · intro w0
    exact audioSegment_hit _ _ _ _ _ _ _ _ _ hat.symm
  · rw [htrace, hev]
    simp [World.writeFile]
  · intro hmem
    obtain ⟨k, hk, hseg⟩ := hothers _ hmem
    rcases hseg with h | ⟨_, _, h⟩
    · have := audioPath_injective _ (Event.create.inj h)
      exact hk this.symm
    · exact absurd h (by simp)
  · rw [hfs]
    simp only [if_neg (audioPath_ne_hashes _ j)]
    rw [hframe]
    · simp [World.writeFile, audioPath_ne_hashes]
    · intro k _ hne heq
      have := audioPath_injective _ heq
      rw [Nat.zero_add] at this hhit
      subst this
      exact hne (by rw [Nat.zero_add]; exact hhit)

/-- Witness of C10: ordinal 1 of the example narration with its fingerprints stored. -/
theorem GenerateAudios_hit_reuses_path_witness :
    exampleText.Hashes[1]? = some (exampleText.Hashes.getD 1 "") ∧
    (exampleText.GenerateCacheHashes sidecarOnlyWorld.fs
      (Join [exampleText.DataDir, "cache", exampleText.Lang, "audio"]))[1]? =
        some (exampleText.Hashes.getD 1 "") ∧
    (generateAudiosLang exampleSha exampleClient OpenAITTS exampleText sidecarOnlyWorld).1 =
      .ok ["data/cache/en/audio/0.mp3", "data/cache/en/audio/1.mp3", "data/cache/en/audio/2.mp3"] ∧
    ["data/cache/en/audio/0.mp3", "data/cache/en/audio/1.mp3", "data/cache/en/audio/2.mp3"][1]? =
      some ("data/cache/" ++ exampleText.Lang ++ "/audio/" ++ toString 1 ++ ".mp3") ∧
    (generateAudiosLang exampleSha exampleClient OpenAITTS exampleText sidecarOnlyWorld).2.fs
        (audioPath (Join [exampleText.DataDir, "cache", exampleText.Lang, "audio"]) 1) =
      sidecarOnlyWorld.fs
        (audioPath (Join [exampleText.DataDir, "cache", exampleText.Lang, "audio"]) 1) := by
  have h1 : exampleText.Hashes[1]? = some (exampleText.Hashes.getD 1 "") := by decide
  have h2 : (exampleText.GenerateCacheHashes sidecarOnlyWorld.fs
      (Join [exampleText.DataDir, "cache", exampleText.Lang, "audio"]))[1]? =
        some (exampleText.Hashes.getD 1 "") := by decide
  have h3 : (generateAudiosLang exampleSha exampleClient OpenAITTS exampleText
      sidecarOnlyWorld).1 = .ok ["data/cache/en/audio/0.mp3", "data/cache/en/audio/1.mp3",
        "data/cache/en/audio/2.mp3"] := by decide
  have h := GenerateAudios_hit_reuses_path exampleSha exampleClient OpenAITTS exampleText
    sidecarOnlyWorld _ _ 1 _ (Prod.ext h3 rfl) h1 h2
  exact ⟨h1, h2, h3, h.2.1 (by decide) (by decide), h.2.2.2.2⟩

/-- C4, as the code has it: when the audio sidecar of a language holds the
fingerprints `prev` of the previous run, the current fingerprints differ from
them at ordinal `i` only, and the digest of the language's own text of segment
`i` is not the stored fingerprint either, then with the OpenAI model and an
answering backend the language goroutine of `GenerateAudios` completes with one
speech request, the one for segment `i`, and creates one audio file, `i.mp3`;
no audio file of another ordinal is created or changed. -/
theorem single_change_single_synthesis (sha : Sha256) (client : Client) (txt : Text) (w : World)
    (prev : List String) (i : Nat) (slide : SlideText) (body : String)
    (hprev : txt.GenerateCacheHashes w.fs (Join [txt.DataDir, "cache", txt.Lang, "audio"]) = prev)
    (hlen : txt.Hashes.length = prev.length)
    (hsame : ∀ j, j ≠ i → txt.Hashes[j]? = prev[j]?)
    (hdiff : txt.Hashes[i]? ≠ prev[i]?)
    (hslide : txt.SlidesText[i]? = some slide)
    (hinner : some (SprintfHex (sha slide.Text).bytes) ≠ prev[i]?)
    (hspeech : client.speech slide.Text = .ok body) :
    ∃ w', generateAudiosLang sha client OpenAITTS txt w =
        (.ok ((List.range txt.Hashes.length).map
          (audioPath (Join [txt.DataDir, "cache", txt.Lang, "audio"]))), w') ∧
      w'.trace = w.trace ++
        [Event.create (Join [Join [txt.DataDir, "cache", txt.Lang, "audio"], "hashes"]),
         Event.speech slide.Text,
         Event.create (audioPath (Join [txt.DataDir, "cache", txt.Lang, "audio"]) i)] ∧
      (∀ j, j ≠ i →
        Event.create (audioPath (Join [txt.DataDir, "cache", txt.Lang, "audio"]) j) ∉
          [Event.create (Join [Join [txt.DataDir, "cache", txt.Lang, "audio"], "hashes"]),
           Event.speech slide.Text,
           Event.create (audioPath (Join [txt.DataDir, "cache", txt.Lang, "audio"]) i)]) ∧
      (∀ j, j ≠ i →
        w'.fs (audioPath (Join [txt.DataDir, "cache", txt.Lang, "audio"]) j) =
          w.fs (audioPath (Join [txt.DataDir, "cache", txt.Lang, "audio"]) j)) ∧
      w'.fs (audioPath (Join [txt.DataDir, "cache", txt.Lang, "audio"]) i) = some body := by
  have hi : i < prev.length := by
    by_contra hc
    apply hdiff
    rw [List.getElem?_eq_none (by omega), List.getElem?_eq_none (by omega)]
  have hiH : i < txt.Hashes.length := by omega
  have hat : prev[i]? = some (cachedHashAt prev i) := getElem?_eq_some_cachedHashAt prev i hi
  have hmiss : txt.Hashes[i] ≠ cachedHashAt prev i := by
    intro e
    apply hdiff
    rw [hat, List.getElem?_eq_getElem hiH, e]
  have hinner' : SprintfHex (sha slide.Text).bytes ≠ cachedHashAt prev i := by
    intro e
    apply hinner
    rw [hat, e]
  have hsplit : txt.Hashes = txt.Hashes.take i ++ ([txt.Hashes[i]] ++ txt.Hashes.drop (i + 1)) := by
    rw [List.singleton_append, ← List.drop_eq_getElem_cons hiH, List.take_append_drop]
  have hpre : ∀ k, k < (txt.Hashes.take i).length →
      (txt.Hashes.take i)[k]? = some (cachedHashAt prev (0 + k)) := by
    intro k hk
    have hki : k < i := by
      rw [List.length_take] at hk; omega
    rw [List.getElem?_take_of_lt hki, hsame k (by omega), Nat.zero_add]
    exact getElem?_eq_some_cachedHashAt prev k (by omega)
  have hpost : ∀ k, k < (txt.Hashes.drop (i + 1)).length →
      (txt.Hashes.drop (i + 1))[k]? = some (cachedHashAt prev (0 + (txt.Hashes.take i).length + 1 + k)) := by
    intro k hk
    have htl : (txt.Hashes.take i).length = i := by
      rw [List.length_take]; omega
    rw [List.length_drop] at hk
    rw [List.getElem?_drop, hsame _ (by omega), htl, Nat.zero_add]
    exact getElem?_eq_some_cachedHashAt prev _ (by omega)
  have htl : (txt.Hashes.take i).length = i := by
    rw [List.length_take]; omega
  have hrun : ∀ w1 : World,
      audioWorkers sha client OpenAITTS txt (Join [txt.DataDir, "cache", txt.Lang, "audio"]) prev
        txt.Hashes 0 w1 =
      (.ok ((List.range txt.Hashes.length).map fun k =>
          audioPath (Join [txt.DataDir, "cache", txt.Lang, "audio"]) (0 + k)),
        (w1.log (Event.speech slide.Text)).writeFile
          (audioPath (Join [txt.DataDir, "cache", txt.Lang, "audio"]) i) body) := by
    intro w1
    have hstep : audioWorkers sha client OpenAITTS txt
        (Join [txt.DataDir, "cache", txt.Lang, "audio"]) prev txt.Hashes 0 w1 =
        (.ok ((List.range (txt.Hashes.take i).length).map (fun k =>
            audioPath (Join [txt.DataDir, "cache", txt.Lang, "audio"]) (0 + k)) ++
          ([audioPath (Join [txt.DataDir, "cache", txt.Lang, "audio"]) i] ++
          (List.range (txt.Hashes.drop (i + 1)).length).map (fun k =>
            audioPath (Join [txt.DataDir, "cache", txt.Lang, "audio"])
              (0 + (txt.Hashes.take i).length + 1 + k)))),
          (w1.log (Event.speech slide.Text)).writeFile
            (audioPath (Join [txt.DataDir, "cache", txt.Lang, "audio"]) i) body) := by
      conv_lhs => rw [hsplit]
      rw [audioWorkers_append, audioWorkers_all_hits _ _ _ _ _ _ _ _ _ hpre]
      simp only
      rw [audioWorkers_append]
      have hone : audioWorkers sha client OpenAITTS txt
          (Join [txt.DataDir, "cache", txt.Lang, "audio"]) prev [txt.Hashes[i]]
          (0 + (txt.Hashes.take i).length) w1 =
          (.ok [audioPath (Join [txt.DataDir, "cache", txt.Lang, "audio"]) i],
            (w1.log (Event.speech slide.Text)).writeFile
              (audioPath (Join [txt.DataDir, "cache", txt.Lang, "audio"]) i) body) := by
        rw [htl, Nat.zero_add]
        simp only [audioWorkers]
        rw [audioSegment_miss_openai sha client txt _ prev i _ w1 slide body hmiss hslide hinner'
          hspeech]
      rw [hone]
      simp only [List.length_singleton]
      rw [audioWorkers_all_hits _ _ _ _ _ _ _ _ _ hpost]
    rw [hstep]
    have := audioWorkers_openai_results _ _ _ _ _ _ _ _ _ _ hstep
    rw [this]
  refine ⟨{ ((w.writeFile (Join [Join [txt.DataDir, "cache", txt.Lang, "audio"], "hashes"]) "").log
      (Event.speech slide.Text)).writeFile
        (audioPath (Join [txt.DataDir, "cache", txt.Lang, "audio"]) i) body with
      fs := fun p =>
        if p = Join [Join [txt.DataDir, "cache", txt.Lang, "audio"], "hashes"] then
          some (audioHashesContent txt.Hashes)
        else (((w.writeFile (Join [Join [txt.DataDir, "cache", txt.Lang, "audio"], "hashes"]) "").log
          (Event.speech slide.Text)).writeFile
            (audioPath (Join [txt.DataDir, "cache", txt.Lang, "audio"]) i) body).fs p },
    ?_, ?_, ?_, ?_, ?_⟩
  · unfold generateAudiosLang
    simp only [hprev, hrun]
    simp only [Nat.zero_add]
  · simp [World.writeFile, World.log]
  · intro j hj hmem
    simp only [List.mem_cons, Event.create.injEq, List.mem_singleton, List.not_mem_nil,
      or_false] at hmem
    rcases hmem with h | h | h
    · exact audioPath_ne_hashes _ j h
    · exact absurd h (by simp)
    · exact hj (audioPath_injective _ h)
  · intro j hj
    have h1 : audioPath (Join [txt.DataDir, "cache", txt.Lang, "audio"]) j ≠
        audioPath (Join [txt.DataDir, "cache", txt.Lang, "audio"]) i :=
      fun h => hj (audioPath_injective _ h)
    simp [World.writeFile, World.log, audioPath_ne_hashes, h1]
  · simp [World.writeFile, World.log, audioPath_ne_hashes]

/-- Witness of C4 (as the code has it): the sidecar holds the fingerprints of
`A`, `B`, `C` and segment 1 now reads `B2`. -/
theorem single_change_single_synthesis_witness :
    changedText.GenerateCacheHashes sidecarOnlyWorld.fs
      (Join [changedText.DataDir, "cache", changedText.Lang, "audio"]) = exampleText.Hashes ∧
    changedText.Hashes[1]? ≠ exampleText.Hashes[1]? ∧
    ∃ w', generateAudiosLang exampleSha exampleClient OpenAITTS changedText sidecarOnlyWorld =
        (.ok ["data/cache/en/audio/0.mp3", "data/cache/en/audio/1.mp3", "data/cache/en/audio/2.mp3"],
          w') ∧
      w'.trace = [Event.create "data/cache/en/audio/hashes", Event.speech "B2\n",
        Event.create "data/cache/en/audio/1.mp3"] ∧
      w'.fs "data/cache/en/audio/1.mp3" = some "mp3:B2\n" := by
  have hprev : changedText.GenerateCacheHashes sidecarOnlyWorld.fs
      (Join [changedText.DataDir, "cache", changedText.Lang, "audio"]) = exampleText.Hashes := by
    decide
  have hdiff : changedText.Hashes[1]? ≠ exampleText.Hashes[1]? := by decide
  obtain ⟨w', h1, h2, _, _, h5⟩ := single_change_single_synthesis exampleSha exampleClient
    changedText sidecarOnlyWorld exampleText.Hashes 1 (NewSlideText "B2\n") "mp3:B2\n" hprev
    (by decide) (by
      intro j hj
      match j with
      | 0 => decide
      | 1 => exact absurd rfl hj
      | 2 => decide
      | j + 3 => rfl) hdiff (by decide) (by decide) (by decide)
  exact ⟨hprev, hdiff, w', h1, h2, h5⟩

/-- C4 as stated fails: the `fr` sidecar holds the fingerprint of the previous
narration `Salut`, the narration now reads `Hello` (another fingerprint) and its
translation is `Salut`; the run takes the miss branch for ordinal 0, yet
`GenerateAudioOpenAI` finds the digest of the text equal to the stored one and
returns without calling the speech backend. -/
theorem changed_segment_without_synthesis :
    ((NewText "" "fr").translateText salutClient helloText salutWorld).1 = .ok salutText ∧
    salutText.GenerateCacheHashes salutWorld.fs "data/cache/fr/audio" =
      [(NewSlideText "Salut\n").Hash exampleSha] ∧
    salutText.Hashes[0]? ≠
      (salutText.GenerateCacheHashes salutWorld.fs "data/cache/fr/audio")[0]? ∧
    audioGate "data/cache/fr/audio" 0 (salutText.Hashes.getD 0 "")
      (salutText.GenerateCacheHashes salutWorld.fs "data/cache/fr/audio") = Decision.Recompute ∧
    (generateAudiosLang exampleSha salutClient OpenAITTS salutText salutWorld).1 =
      .ok ["data/cache/fr/audio/0.mp3"] ∧
    (generateAudiosLang exampleSha salutClient OpenAITTS salutText salutWorld).2.trace =
      [Event.create "data/cache/fr/audio/hashes"] ∧
    (generateAudiosLang exampleSha salutClient OpenAITTS salutText salutWorld).2.fs
      "data/cache/fr/audio/0.mp3" = none := by
  decide

/-- C5: in a completed run of `GenerateVideos`, for every language of the audio map
the list handed to `BuildFFmpegConcatCommand` has as many files as there are
slides, position `k` holds the segment that was rendered from slide `k` and audio
`k`, and in the concatenation command that was run the `k`-th `-i` argument is
followed by that `k`-th file. -/
theorem GenerateVideos_concat_in_ordinal_order (enc : Encoder) (slides : List String)
    (audiosLangToPath : List (String × List String)) (dataDir : String) (w w' : World)
    (r : List (String × List String)) (audioLang : String) (audioList : List String)
    (hrun : GenerateVideos enc slides audiosLangToPath dataDir w = (.ok r, w'))
    (hlang : (audioLang, audioList) ∈ audiosLangToPath) :
    ∃ videoFiles, (audioLang, videoFiles) ∈ r ∧
      videoFiles.length = slides.length ∧
      Event.exec (BuildFFmpegConcatCommand videoFiles
        (Join [Join [dataDir, "out"], "output-" ++ audioLang ++ ".mp4"])) ∈ w'.trace ∧
      ∀ k, k < slides.length →
        ∃ segment slide audio width height iw ih,
          videoFiles[k]? = some segment ∧
          slides[k]? = some slide ∧ audioList[k]? = some audio ∧
          Event.exec (renderCommand width height iw ih slide audio segment) ∈ w'.trace ∧
          (BuildFFmpegConcatCommand videoFiles
            (Join [Join [dataDir, "out"], "output-" ++ audioLang ++ ".mp4"]))[2 + 2 * k]? =
              some "-i" ∧
          (BuildFFmpegConcatCommand videoFiles
            (Join [Join [dataDir, "out"], "output-" ++ audioLang ++ ".mp4"]))[3 + 2 * k]? =
              some segment := by
  unfold GenerateVideos at hrun
  split at hrun
  · exact absurd hrun (by simp)
  · rename_i firstSlide rest
    split at hrun
    · exact absurd hrun (by simp)
    · rename_i width height w1 hdim
      simp only at hrun
      obtain ⟨evs, htr, hall⟩ := generateVideosLoop_ok _ _ _ _ _ _ _ _ _ _ hrun
      obtain ⟨h1, h2, h3⟩ := hall audioLang audioList hlang
      refine ⟨_, h1, by simp, ?_, ?_⟩
      · rw [htr]; exact List.mem_append_right _ h3
      · intro k hk
        obtain ⟨s, a, iw, ih, hs, ha, hev⟩ := h2 k hk
        have hklen : k < ((List.range (firstSlide :: rest).length).map
            (outputVideoPath (Join [Join [Join [dataDir, "cache"], audioLang], "videos"])
              audioLang)).length := by simpa using hk
        obtain ⟨c1, c2⟩ := BuildFFmpegConcatCommand_inputs _
          (Join [Join [dataDir, "out"], "output-" ++ audioLang ++ ".mp4"]) k hklen
        have hseg : ((List.range (firstSlide :: rest).length).map
            (outputVideoPath (Join [Join [Join [dataDir, "cache"], audioLang], "videos"])
              audioLang))[k]? =
            some (outputVideoPath (Join [Join [Join [dataDir, "cache"], audioLang], "videos"])
              audioLang k) := by
          rw [List.getElem?_map, List.getElem?_range hk]
          rfl
        refine ⟨outputVideoPath (Join [Join [Join [dataDir, "cache"], audioLang], "videos"])
          audioLang k, s, a, (if width % 2 ≠ 0 then width - 1 else width),
          (if height % 2 ≠ 0 then height - 1 else height), iw, ih, hseg, hs, ha, ?_, c1, ?_⟩
        · rw [htr]
          exact List.mem_append_right _ hev
        · rw [c2, hseg]

/-- Witness of C5: two slides and the language `en`. -/
theorem GenerateVideos_concat_in_ordinal_order_witness :
    (GenerateVideos exampleEncoder ["s0.png", "s1.png"] [("en", ["0.mp3", "1.mp3"])] "data"
      ⟨fun _ => none, []⟩).1 =
      .ok [("en", ["data/cache/en/videos/slide1_video_en.mp4",
        "data/cache/en/videos/slide2_video_en.mp4"])] ∧
    ∃ videoFiles,
      ("en", videoFiles) ∈ [("en", ["data/cache/en/videos/slide1_video_en.mp4",
        "data/cache/en/videos/slide2_video_en.mp4"])] ∧
      videoFiles.length = ["s0.png", "s1.png"].length ∧
      Event.exec (BuildFFmpegConcatCommand videoFiles
        (Join [Join ["data", "out"], "output-" ++ "en" ++ ".mp4"])) ∈
          (GenerateVideos exampleEncoder ["s0.png", "s1.png"] [("en", ["0.mp3", "1.mp3"])] "data"
            ⟨fun _ => none, []⟩).2.trace ∧
      ∀ k, k < ["s0.png", "s1.png"].length →
        ∃ segment slide audio width height iw ih,
          videoFiles[k]? = some segment ∧
          ["s0.png", "s1.png"][k]? = some slide ∧ ["0.mp3", "1.mp3"][k]? = some audio ∧
          Event.exec (renderCommand width height iw ih slide audio segment) ∈
            (GenerateVideos exampleEncoder ["s0.png", "s1.png"] [("en", ["0.mp3", "1.mp3"])] "data"
              ⟨fun _ => none, []⟩).2.trace ∧
          (BuildFFmpegConcatCommand videoFiles
            (Join [Join ["data", "out"], "output-" ++ "en" ++ ".mp4"]))[2 + 2 * k]? = some "-i" ∧
          (BuildFFmpegConcatCommand videoFiles
            (Join [Join ["data", "out"], "output-" ++ "en" ++ ".mp4"]))[3 + 2 * k]? =
              some segment := by
  have h1 : (GenerateVideos exampleEncoder ["s0.png", "s1.png"] [("en", ["0.mp3", "1.mp3"])] "data"
      ⟨fun _ => none, []⟩).1 =
      .ok [("en", ["data/cache/en/videos/slide1_video_en.mp4",
        "data/cache/en/videos/slide2_video_en.mp4"])] := by decide
  exact ⟨h1, GenerateVideos_concat_in_ordinal_order exampleEncoder ["s0.png", "s1.png"]
    [("en", ["0.mp3", "1.mp3"])] "data" ⟨fun _ => none, []⟩ _ _ "en" ["0.mp3", "1.mp3"]
    (Prod.ext h1 rfl) (by decide)⟩

/-- C9, as the code has it: `GenerateText` for an output language other than the
input language sends every input segment to the translation backend: under every
schedule of the segment goroutines a completed run has issued exactly one request
per input segment, in the order in which the goroutines sent them; no stored
fingerprint is read: the outcome and the requests are the same in any two project
directories in which the cached `texts.txt` of the language exists.  The
resulting text does not depend on the schedule: it is the one of the goroutines
run one after the other in ordinal order. -/
theorem translation_not_gated (sha : Sha256) (client : Client) (t inputText : Text)
    (schedule : List TranslateStep) (w : World) (t' : Text) (w' : World)
    (hvalid : ValidSchedule inputText.SlidesText.length schedule)
    (hrun : t.GenerateTextScheduled client inputText schedule w = (.ok t', w')) :
    w'.trace = w.trace ++
      ((sendsOf schedule).filterMap fun i =>
        (inputText.SlidesText[i]?).map fun s => Event.chat (translatePrompt s.Text t.Lang)) ++
      [Event.create (Join [t.TextDir, "texts.txt"]), Event.create (Join [t.TextDir, "hashes"])] ∧
    ((sendsOf schedule).filterMap fun i =>
        (inputText.SlidesText[i]?).map fun s => Event.chat (translatePrompt s.Text t.Lang)).Perm
      (inputText.SlidesText.map fun s => Event.chat (translatePrompt s.Text t.Lang)) ∧
    (∀ (i : Nat) (s : SlideText), inputText.SlidesText[i]? = some s →
      Event.chat (translatePrompt s.Text t.Lang) ∈ w'.trace) ∧
    (∀ w2 : World, w2.fs (Join [t.TextDir, "texts.txt"]) ≠ none →
      ∃ w2', t.GenerateTextScheduled client inputText schedule w2 = (.ok t', w2') ∧
        w2'.trace = w2.trace ++
          ((sendsOf schedule).filterMap fun i =>
            (inputText.SlidesText[i]?).map fun s =>
              Event.chat (translatePrompt s.Text t.Lang)) ++
          [Event.create (Join [t.TextDir, "texts.txt"]),
           Event.create (Join [t.TextDir, "hashes"])]) ∧
    ∃ w'', t.GenerateText sha client (some inputText) w = (.ok t', w'') ∧ w''.fs = w'.fs := by
  have hfile : w.fs (Join [t.TextDir, "texts.txt"]) ≠ none := by
    intro hnone
    unfold Text.GenerateTextScheduled at hrun
    rw [hnone] at hrun
    exact absurd hrun (by simp)
  have hgen : ∀ w2 : World, w2.fs (Join [t.TextDir, "texts.txt"]) ≠ none →
      t.GenerateTextScheduled client inputText schedule w2 =
        t.translateTextScheduled client inputText schedule w2 := by
    intro w2 hw2
    unfold Text.GenerateTextScheduled
    cases h : w2.fs (Join [t.TextDir, "texts.txt"]) with
    | none => exact absurd h hw2
    | some c => rfl
  rw [hgen w hfile] at hrun
  obtain ⟨htr, hindep, w'', hseq, hfs⟩ :=
    translateTextScheduled_ok t client inputText schedule w w' t' hvalid hrun
  have hperm : ((sendsOf schedule).filterMap fun i =>
        (inputText.SlidesText[i]?).map fun s => Event.chat (translatePrompt s.Text t.Lang)).Perm
      (inputText.SlidesText.map fun s => Event.chat (translatePrompt s.Text t.Lang)) := by
    rw [← filterMap_range_getElem? inputText.SlidesText
      (fun s => Event.chat (translatePrompt s.Text t.Lang))]
    exact hvalid.1.filterMap _
  refine ⟨htr, hperm, ?_, ?_, w'', ?_, hfs⟩
  · intro i s hs
    rw [htr]
    apply List.mem_append_left
    apply List.mem_append_right
    exact hperm.mem_iff.2 (List.mem_map.2 ⟨s, List.getElem?_mem hs, rfl⟩)
  · intro w2 hw2
    rw [hgen w2 hw2]
    exact hindep w2
  · unfold Text.GenerateText
    simp only
    cases h : w.fs (Join [t.TextDir, "texts.txt"]) with
    | none => exact absurd h hfile
    | some c => exact hseq

/-- Witness of C9 (as the code has it): `fr` translated from the example narration
under `scrambledSchedule`: the requests leave in the order `C`, `A`, `B`. -/
theorem translation_not_gated_witness :
    ValidSchedule exampleText.SlidesText.length scrambledSchedule ∧
    ((NewText "" "fr").GenerateTextScheduled exampleClient exampleText scrambledSchedule
      translatedWorld).2.trace =
      [Event.chat (translatePrompt "C\n" "fr"), Event.chat (translatePrompt "A\n" "fr"),
       Event.chat (translatePrompt "B\n" "fr"),
       Event.create "data/cache/fr/text/texts.txt", Event.create "data/cache/fr/text/hashes"] ∧
    ((NewText "" "fr").GenerateTextScheduled exampleClient exampleText scrambledSchedule
      translatedWorld).1 =
      ((NewText "" "fr").GenerateText exampleSha exampleClient (some exampleText)
        translatedWorld).1 ∧
    Event.chat (translatePrompt "B\n" "fr") ∈
      ((NewText "" "fr").GenerateTextScheduled exampleClient exampleText scrambledSchedule
        translatedWorld).2.trace := by
  have hvalid : ValidSchedule exampleText.SlidesText.length scrambledSchedule := by
    refine ⟨?_, ?_, by decide⟩
    · show [2, 0, 1].Perm [0, 1, 2]
      decide
    · show [1, 2, 0].Perm [0, 1, 2]
      decide
  have h1 : ((NewText "" "fr").GenerateTextScheduled exampleClient exampleText scrambledSchedule
      translatedWorld).1 = .ok { NewText "" "fr" with
        SlidesText := [NewSlideText "<Translate 'A\n' to fr and don't return anything else than the translation.>",
          NewSlideText "<Translate 'B\n' to fr and don't return anything else than the translation.>",
          NewSlideText "<Translate 'C\n' to fr and don't return anything else than the translation.>"],
        Hashes := exampleText.Hashes } := by decide
  have h := translation_not_gated exampleSha exampleClient (NewText "" "fr") exampleText
    scrambledSchedule translatedWorld _
    ((NewText "" "fr").GenerateTextScheduled exampleClient exampleText scrambledSchedule
      translatedWorld).2 hvalid (Prod.ext h1 rfl)
  refine ⟨hvalid, h.1.trans (by decide), by decide, h.2.2.1 1 (NewSlideText "B\n") (by decide)⟩

/-- C9 as stated fails: the text sidecar of `fr` holds the current fingerprints of
the input language at every ordinal, and `GenerateTexts` still sends each of the
three segments to the translation backend. -/
theorem translation_called_on_unchanged_source :
    (exampleTexts.GenerateTexts exampleSha exampleClient translatedWorld).1.toOption.map
        (fun ts => ts.Texts.map (Option.map fun t => t.Hashes)) =
      some [some exampleText.Hashes, some exampleText.Hashes] ∧
    exampleText.GenerateCacheHashes translatedWorld.fs "data/cache/fr/text" = exampleText.Hashes ∧
    (exampleTexts.GenerateTexts exampleSha exampleClient translatedWorld).2.trace =
      [Event.chat (translatePrompt "A\n" "fr"), Event.chat (translatePrompt "B\n" "fr"),
       Event.chat (translatePrompt "C\n" "fr"),
       Event.create "data/cache/fr/text/texts.txt", Event.create "data/cache/fr/text/hashes"] := by
  decide

/-- C12: for the input language, `loadTextInput` on a freshly created `Text` yields
exactly the segments parsed from the lines of the input file, as many fingerprints
as segments, and at every ordinal the fingerprint is `Hash()` of the segment at
that ordinal. -/
theorem loadTextInput_fresh (sha : Sha256) (rootDir lang textFile : String) :
    ((NewText rootDir lang).loadTextInput sha textFile).SlidesText =
      (parseSegments (scanLines textFile)).map NewSlideText ∧
    ((NewText rootDir lang).loadTextInput sha textFile).Hashes.length =
      ((NewText rootDir lang).loadTextInput sha textFile).SlidesText.length ∧
    ∀ i : Nat, ((NewText rootDir lang).loadTextInput sha textFile).Hashes[i]? =
      (((NewText rootDir lang).loadTextInput sha textFile).SlidesText[i]?).map
        (SlideText.Hash sha) := by
  obtain ⟨h1, h2⟩ := loadTextInput_parse sha rootDir lang textFile
  refine ⟨h1, ?_, ?_⟩
  · rw [h2, List.length_map]
  · intro i
    rw [h2, List.getElem?_map]

/-- C11, as the code has it: after `GenerateTexts` with the input language among
the output languages, the fingerprints of every language, translated languages
included, are the fingerprints of the segments of the input narration file:
`Hashes[i]` is `Hash()` of input segment `i`, and every language has as many
segments as the narration file, which has at least one.  Only for the input
language is this the language's own text. -/
theorem GenerateTexts_hashes_of_input (sha : Sha256) (client : Client) (t : Texts) (w : World)
    (texts : Texts) (w' : World) (k : Nat) (txt : Text)
    (hin : t.LangIn ∈ t.LangsOut)
    (hrun : t.GenerateTexts sha client w = (.ok texts, w'))
    (hslot : texts.Texts[k]? = some (some txt)) :
    (∃ content, w.fs (Join [Join [t.RootDir, "data"], "texts.txt"]) = some content ∧
      narrationSlides sha t w.fs =
        ((NewText t.RootDir t.LangIn).loadTextInput sha content).SlidesText) ∧
    0 < (narrationSlides sha t w.fs).length ∧
    txt.Hashes = (narrationSlides sha t w.fs).map (SlideText.Hash sha) ∧
    (∀ i : Nat, txt.Hashes[i]? = ((narrationSlides sha t w.fs)[i]?).map (SlideText.Hash sha)) ∧
    txt.SlidesText.length = (narrationSlides sha t w.fs).length ∧
    (t.LangsOut[k]? = some t.LangIn →
      txt.SlidesText = narrationSlides sha t w.fs ∧
      ∀ i : Nat, txt.Hashes[i]? = (txt.SlidesText[i]?).map (SlideText.Hash sha)) := by
  obtain ⟨content, hfile⟩ := GenerateTexts_narration_exists _ _ _ _ _ _ hin hrun
  obtain ⟨hnar, hpos⟩ := narrationSlides_pos sha t w.fs content hfile
  have hN := inputSlides_eq_narrationSlides sha t w.fs hin
  obtain ⟨inv, _, _, _⟩ := GenerateTexts_ok _ _ _ _ _ _ hrun
  obtain ⟨_, _, _, hs, hg, _⟩ := inv.of_mem (List.getElem?_mem hslot)
  have hH : txt.Hashes = (narrationSlides sha t w.fs).map (SlideText.Hash sha) := by
    rw [hg.2.2.1, inputHashes_eq_map, hN]
  refine ⟨⟨content, hfile, hnar⟩, hpos, hH, ?_, ?_, ?_⟩
  · intro i
    rw [hH, List.getElem?_map]
  · rw [hg.2.2.2, inputHashes_eq_map, List.length_map, hN]
  · intro hlang
    have hS := GenerateTexts_input_slot _ _ _ _ _ _ hrun k txt hslot hlang
    rw [hN] at hS
    refine ⟨hS, ?_⟩
    intro i
    rw [hH, hS, List.getElem?_map]

/-- Witness of C11 (as the code has it): the language `fr` of the example run. -/
theorem GenerateTexts_hashes_of_input_witness :
    exampleTexts.LangIn ∈ exampleTexts.LangsOut ∧
    firstRunTexts.1.toOption.isSome = true ∧
    (∃ fr, (firstRunTexts.1.toOption.getD exampleTexts).Texts[1]? = some (some fr) ∧
      fr.Lang = "fr" ∧
      fr.Hashes = (narrationSlides exampleSha exampleTexts translatedWorld.fs).map
        (SlideText.Hash exampleSha) ∧
      fr.SlidesText.length =
        (narrationSlides exampleSha exampleTexts translatedWorld.fs).length) ∧
    narrationSlides exampleSha exampleTexts translatedWorld.fs =
      [NewSlideText "A\n", NewSlideText "B\n", NewSlideText "C\n"] := by
  have h1 : exampleTexts.GenerateTexts exampleSha exampleClient translatedWorld =
      (.ok (firstRunTexts.1.toOption.getD exampleTexts), firstRunTexts.2) :=
    Prod.ext (by decide) rfl
  have hslot : (firstRunTexts.1.toOption.getD exampleTexts).Texts[1]? =
      some (some (((firstRunTexts.1.toOption.getD exampleTexts).Texts.getD 1 none).getD
        exampleText)) := by decide
  have h := GenerateTexts_hashes_of_input exampleSha exampleClient exampleTexts translatedWorld
    _ _ 1 _ (by decide) h1 hslot
  exact ⟨by decide, by decide, ⟨_, hslot, by decide, h.2.2.1, h.2.2.2.2.1⟩, by decide⟩

/-- C11 as stated fails: in the example run the language `fr` carries at ordinal 0
the fingerprint of the input segment `A`, which is not `Hash()` of its own
translated segment. -/
theorem translated_hash_is_not_own_hash :
    ∃ fr, (firstRunTexts.1.toOption.getD exampleTexts).Texts[1]? = some (some fr) ∧
      fr.Lang = "fr" ∧
      (fr.SlidesText[0]?).map (fun s => s.Text) = some ("<" ++ translatePrompt "A\n" "fr" ++ ">") ∧
      fr.Hashes[0]? = some ((NewSlideText "A\n").Hash exampleSha) ∧
      fr.Hashes[0]? ≠ (fr.SlidesText[0]?).map (SlideText.Hash exampleSha) := by
  refine ⟨((firstRunTexts.1.toOption.getD exampleTexts).Texts.getD 1 none).getD exampleText,
    by decide, by decide, by decide, by decide, by decide⟩

/-- C14, as the code has it: `loadTextInput` cuts the lines that the scanner yields
into segments at every line that is exactly `-`: with `d` delimiter lines among
them it produces `d + 1` segments in file order, the text of a segment being its
lines, each followed by a newline, and an empty file gives one segment with empty
text.  The scanner yields every line of the file without its end-of-line marker
when all lines are shorter than `MaxScanTokenSize` bytes. -/
theorem loadTextInput_segments (sha : Sha256) (rootDir lang textFile : String) :
    (((NewText rootDir lang).loadTextInput sha textFile).SlidesText.map fun s => s.Text) =
      (splitSegments (scanLines textFile)).map segmentText ∧
    ((NewText rootDir lang).loadTextInput sha textFile).SlidesText.length =
      (scanLines textFile).count "-" + 1 ∧
    ((NewText rootDir lang).loadTextInput sha "").SlidesText = [NewSlideText ""] ∧
    ((∀ l ∈ rawLines textFile.data, (String.mk l).utf8ByteSize < MaxScanTokenSize) →
      scanLines textFile = (rawLines textFile.data).map fun l => String.mk (dropCR l)) := by
  have h1 := (loadTextInput_parse sha rootDir lang textFile).1
  refine ⟨?_, ?_, ?_, scanLines_short_lines textFile⟩
  · rw [h1, List.map_map]
    unfold parseSegments
    conv_rhs => rw [← List.map_id (List.map segmentText (splitSegments (scanLines textFile)))]
    apply List.map_congr_left
    intro s _
    rfl
  · rw [h1, List.length_map]
    unfold parseSegments
    rw [List.length_map, splitSegments_length]
  · rw [(loadTextInput_parse sha rootDir lang "").1]
    rfl

/-- Witness of C14 (as the code has it): the example narration has two delimiter
lines and three segments. -/
theorem loadTextInput_segments_witness :
    (∀ l ∈ rawLines exampleNarration.data, (String.mk l).utf8ByteSize < MaxScanTokenSize) ∧
    scanLines exampleNarration = ["A", "-", "B", "-", "C"] ∧
    (((NewText "" "en").loadTextInput exampleSha exampleNarration).SlidesText.map fun s => s.Text) =
      ["A\n", "B\n", "C\n"] ∧
    ((NewText "" "en").loadTextInput exampleSha exampleNarration).SlidesText.length =
      (scanLines exampleNarration).count "-" + 1 := by
  have hshort : ∀ l ∈ rawLines exampleNarration.data,
      (String.mk l).utf8ByteSize < MaxScanTokenSize := by decide
  have h := loadTextInput_segments exampleSha "" "en" exampleNarration
  refine ⟨hshort, ?_, ?_, h.2.1⟩
  · rw [h.2.2.2 hshort]
    decide
  · rw [h.1]
    decide

/-- C14 as stated fails: the file `longLineNarration` has three lines, the second
of which is exactly `-`, yet `loadTextInput` produces a single segment and its
text is empty, because the scanner gives up on the first line of 65536 bytes. -/
theorem long_line_loses_segments :
    rawLines longLineNarration.data = [List.replicate 65536 'a', ['-'], ['B']] ∧
    scanLines longLineNarration = [] ∧
    ((NewText "" "en").loadTextInput exampleSha longLineNarration).SlidesText =
      [NewSlideText ""] ∧
    ((NewText "" "en").loadTextInput exampleSha longLineNarration).SlidesText.length ≠ 1 + 1 := by
  have h := scanLines_long_first_line 65536 "-\nB".data (by decide)
  have hraw : rawLines longLineNarration.data = [List.replicate 65536 'a', ['-'], ['B']] := by
    show rawLines (List.replicate 65536 'a' ++ '\n' :: "-\nB".data) = _
    rw [h.1]
    rfl
  have hscan : scanLines longLineNarration = [] := h.2
  have hS : ((NewText "" "en").loadTextInput exampleSha longLineNarration).SlidesText =
      [NewSlideText ""] := by
    rw [(loadTextInput_parse exampleSha "" "en" longLineNarration).1, hscan]
    rfl
  refine ⟨hraw, hscan, hS, ?_⟩
  rw [hS]
  decide

/-- C13: when the language goroutine of `GenerateAudios` completes, in whatever
order its segment goroutines ran, the audio hashes file of the language holds the
current fingerprints `h_0, ..., h_{n-1}` in ordinal order, each followed by a
newline; read back line by line it gives that sequence.  The order `0, 1, ...` is
the run of `GenerateAudios` as embedded. -/
theorem audio_hashes_in_ordinal_order (sha : Sha256) (client : Client) (audioModel : Model)
    (txt : Text) (order : List Nat) (w w' : World) (results : List String)
    (hrun : generateAudiosLangInOrder sha client audioModel txt order w = (.ok results, w')) :
    w'.fs (audioHashesPath txt.DataDir txt.Lang) = some (audioHashesContent txt.Hashes) ∧
    ((∀ h ∈ txt.Hashes, IsHexDigest h) →
      ∀ reader : Text, reader.GenerateCacheHashes w'.fs
        (Join [txt.DataDir, "cache", txt.Lang, "audio"]) = txt.Hashes) ∧
    generateAudiosLangInOrder sha client audioModel txt (List.range txt.Hashes.length) w =
      generateAudiosLang sha client audioModel txt w := by
  have hfile : w'.fs (audioHashesPath txt.DataDir txt.Lang) =
      some (audioHashesContent txt.Hashes) := by
    unfold generateAudiosLangInOrder at hrun
    simp only at hrun
    split at hrun
    · exact absurd hrun (by simp)
    · simp only [Prod.mk.injEq, Except.ok.injEq] at hrun
      rw [← hrun.2]
      simp [audioHashesPath]
  refine ⟨hfile, ?_, generateAudiosLangInOrder_range sha client audioModel txt w⟩
  intro hdig reader
  unfold Text.GenerateCacheHashes
  unfold audioHashesPath at hfile
  rw [hfile]
  exact scanLines_audioHashesContent _ (fun h hh => (hdig h hh).cleanLine)

/-- Witness of C13: the segment goroutines of the example narration run in the
order 2, 0, 1. -/
theorem audio_hashes_in_ordinal_order_witness :
    (generateAudiosLangInOrder exampleSha exampleClient OpenAITTS exampleText [2, 0, 1]
      ⟨fun _ => none, []⟩).1 =
      .ok ["data/cache/en/audio/0.mp3", "data/cache/en/audio/1.mp3", "data/cache/en/audio/2.mp3"] ∧
    (generateAudiosLangInOrder exampleSha exampleClient OpenAITTS exampleText [2, 0, 1]
      ⟨fun _ => none, []⟩).2.trace =
      [Event.create "data/cache/en/audio/hashes",
       Event.speech "C\n", Event.create "data/cache/en/audio/2.mp3",
       Event.speech "A\n", Event.create "data/cache/en/audio/0.mp3",
       Event.speech "B\n", Event.create "data/cache/en/audio/1.mp3"] ∧
    (generateAudiosLangInOrder exampleSha exampleClient OpenAITTS exampleText [2, 0, 1]
      ⟨fun _ => none, []⟩).2.fs (audioHashesPath exampleText.DataDir exampleText.Lang) =
      some (audioHashesContent exampleText.Hashes) ∧
    exampleText.GenerateCacheHashes
      (generateAudiosLangInOrder exampleSha exampleClient OpenAITTS exampleText [2, 0, 1]
        ⟨fun _ => none, []⟩).2.fs
      (Join [exampleText.DataDir, "cache", exampleText.Lang, "audio"]) = exampleText.Hashes := by
  have h1 : (generateAudiosLangInOrder exampleSha exampleClient OpenAITTS exampleText [2, 0, 1]
      ⟨fun _ => none, []⟩).1 =
      .ok ["data/cache/en/audio/0.mp3", "data/cache/en/audio/1.mp3",
        "data/cache/en/audio/2.mp3"] := by decide
  have h := audio_hashes_in_ordinal_order exampleSha exampleClient OpenAITTS exampleText [2, 0, 1]
    ⟨fun _ => none, []⟩ _ _ (Prod.ext h1 rfl)
  exact ⟨h1, by decide, h.1, h.2.1 (by decide) exampleText⟩

/-- C15, as the code has it: in a completed run of `GenerateVideos`, for every
language `L` of the audio map and every zero-based ordinal `i`, the segment rendered
from slide `i` and audio `i` is written to
`<dataDir>/cache/L/videos/slide<i+1>_video_L.mp4`: the file name carries the
one-based number `i + 1`, never the zero-based ordinal `i`; that file is entry `i`
of the list handed to the concatenation, and different ordinals get different
files. -/
theorem GenerateVideos_segment_file_name (enc : Encoder) (slides : List String)
    (audiosLangToPath : List (String × List String)) (dataDir : String) (w w' : World)
    (r : List (String × List String)) (audioLang : String) (audioList : List String)
    (hrun : GenerateVideos enc slides audiosLangToPath dataDir w = (.ok r, w'))
    (hlang : (audioLang, audioList) ∈ audiosLangToPath) :
    ∃ videoFiles, (audioLang, videoFiles) ∈ r ∧
      ∀ i, i < slides.length →
        (∃ slide audio width height iw ih,
          slides[i]? = some slide ∧ audioList[i]? = some audio ∧
          Event.exec (renderCommand width height iw ih slide audio
            (Join [Join [Join [Join [dataDir, "cache"], audioLang], "videos"],
              "slide" ++ toString (i + 1) ++ "_video_" ++ audioLang ++ ".mp4"])) ∈ w'.trace) ∧
        videoFiles[i]? = some (Join [Join [Join [Join [dataDir, "cache"], audioLang], "videos"],
          "slide" ++ toString (i + 1) ++ "_video_" ++ audioLang ++ ".mp4"]) ∧
        Join [Join [Join [Join [dataDir, "cache"], audioLang], "videos"],
            "slide" ++ toString (i + 1) ++ "_video_" ++ audioLang ++ ".mp4"] ≠
          Join [Join [Join [Join [dataDir, "cache"], audioLang], "videos"],
            "slide" ++ toString i ++ "_video_" ++ audioLang ++ ".mp4"] ∧
        (∀ j, videoFiles[j]? = videoFiles[i]? → j = i) ∧
        (dataDir = "data" → audioLang ≠ "" →
          Join [Join [Join [Join [dataDir, "cache"], audioLang], "videos"],
              "slide" ++ toString (i + 1) ++ "_video_" ++ audioLang ++ ".mp4"] =
            "data/cache" ++ "/" ++ audioLang ++ "/" ++ "videos" ++ "/" ++
              ("slide" ++ toString (i + 1) ++ "_video_" ++ audioLang ++ ".mp4")) := by
  unfold GenerateVideos at hrun
  split at hrun
  · exact absurd hrun (by simp)
  · rename_i firstSlide rest
    split at hrun
    · exact absurd hrun (by simp)
    · rename_i width height w1 hdim
      simp only at hrun
      obtain ⟨evs, htr, hall⟩ := generateVideosLoop_ok _ _ _ _ _ _ _ _ _ _ hrun
      obtain ⟨h1, h2, _⟩ := hall audioLang audioList hlang
      refine ⟨_, h1, ?_⟩
      intro i hi
      obtain ⟨s, a, iw, ih, hs, ha, hev⟩ := h2 i hi
      have hseg : ∀ k, k < (firstSlide :: rest).length →
          ((List.range (firstSlide :: rest).length).map
            (outputVideoPath (Join [Join [Join [dataDir, "cache"], audioLang], "videos"])
              audioLang))[k]? =
            some (outputVideoPath (Join [Join [Join [dataDir, "cache"], audioLang], "videos"])
              audioLang k) := by
        intro k hk
        rw [List.getElem?_map, List.getElem?_range hk]
        rfl
      refine ⟨⟨s, a, (if width % 2 ≠ 0 then width - 1 else width),
        (if height % 2 ≠ 0 then height - 1 else height), iw, ih, hs, ha, ?_⟩, hseg i hi,
        outputVideoPath_ne_zero_based _ _ i, ?_, ?_⟩
      · rw [htr]
        exact List.mem_append_right _ hev
      · intro j hj
        rw [hseg i hi] at hj
        have hjlt : j < (firstSlide :: rest).length := by
          by_contra hge
          rw [List.getElem?_eq_none (by simpa using Nat.le_of_not_lt hge)] at hj
          exact absurd hj (by simp)
        rw [hseg j hjlt] at hj
        exact outputVideoPath_injective _ _ (Option.some.inj hj)
      · intro hd hl
        subst hd
        exact outputVideoPath_data audioLang hl i

/-- Witness of C15 (as the code has it): two slides and the language `en`. -/
theorem GenerateVideos_segment_file_name_witness :
    (GenerateVideos exampleEncoder ["s0.png", "s1.png"] [("en", ["0.mp3", "1.mp3"])] "data"
      ⟨fun _ => none, []⟩).1 =
      .ok [("en", ["data/cache/en/videos/slide1_video_en.mp4",
        "data/cache/en/videos/slide2_video_en.mp4"])] ∧
    ∃ videoFiles, ("en", videoFiles) ∈ [("en", ["data/cache/en/videos/slide1_video_en.mp4",
        "data/cache/en/videos/slide2_video_en.mp4"])] ∧
      ∀ i, i < ["s0.png", "s1.png"].length →
        (∃ slide audio width height iw ih,
          ["s0.png", "s1.png"][i]? = some slide ∧ ["0.mp3", "1.mp3"][i]? = some audio ∧
          Event.exec (renderCommand width height iw ih slide audio
            (Join [Join [Join [Join ["data", "cache"], "en"], "videos"],
              "slide" ++ toString (i + 1) ++ "_video_" ++ "en" ++ ".mp4"])) ∈
            (GenerateVideos exampleEncoder ["s0.png", "s1.png"] [("en", ["0.mp3", "1.mp3"])]
              "data" ⟨fun _ => none, []⟩).2.trace) ∧
        videoFiles[i]? = some (Join [Join [Join [Join ["data", "cache"], "en"], "videos"],
          "slide" ++ toString (i + 1) ++ "_video_" ++ "en" ++ ".mp4"]) ∧
        Join [Join [Join [Join ["data", "cache"], "en"], "videos"],
            "slide" ++ toString (i + 1) ++ "_video_" ++ "en" ++ ".mp4"] ≠
          Join [Join [Join [Join ["data", "cache"], "en"], "videos"],
            "slide" ++ toString i ++ "_video_" ++ "en" ++ ".mp4"] ∧
        (∀ j, videoFiles[j]? = videoFiles[i]? → j = i) ∧
        ("data" = "data" → "en" ≠ "" →
          Join [Join [Join [Join ["data", "cache"], "en"], "videos"],
              "slide" ++ toString (i + 1) ++ "_video_" ++ "en" ++ ".mp4"] =
            "data/cache" ++ "/" ++ "en" ++ "/" ++ "videos" ++ "/" ++
              ("slide" ++ toString (i + 1) ++ "_video_" ++ "en" ++ ".mp4")) := by
  have h1 : (GenerateVideos exampleEncoder ["s0.png", "s1.png"] [("en", ["0.mp3", "1.mp3"])] "data"
      ⟨fun _ => none, []⟩).1 =
      .ok [("en", ["data/cache/en/videos/slide1_video_en.mp4",
        "data/cache/en/videos/slide2_video_en.mp4"])] := by decide
  exact ⟨h1, GenerateVideos_segment_file_name exampleEncoder ["s0.png", "s1.png"]
    [("en", ["0.mp3", "1.mp3"])] "data" ⟨fun _ => none, []⟩ _ _ "en" ["0.mp3", "1.mp3"]
    (Prod.ext h1 rfl) (by decide)⟩

/-- C15 as stated fails: in the run on two slides for the language `en`, the
segment rendered from slide 0 and audio 0 is written to `slide1_video_en.mp4`
and the one from slide 1 and audio 1 to `slide2_video_en.mp4`; no command of the
run writes `slide0_video_en.mp4`. -/
theorem segment_file_name_is_one_based :
    (GenerateVideos exampleEncoder ["s0.png", "s1.png"] [("en", ["0.mp3", "1.mp3"])] "data"
      ⟨fun _ => none, []⟩).1 =
      .ok [("en", ["data/cache/en/videos/slide1_video_en.mp4",
        "data/cache/en/videos/slide2_video_en.mp4"])] ∧
    (GenerateVideos exampleEncoder ["s0.png", "s1.png"] [("en", ["0.mp3", "1.mp3"])] "data"
      ⟨fun _ => none, []⟩).2.trace =
      [Event.exec ["ffmpeg", "-i", "s0.png", "-vf", "scale", "-vframes", "1", "-f", "null", "-"],
       Event.exec ["ffmpeg", "-i", "s0.png", "-vf", "scale", "-vframes", "1", "-f", "null", "-"],
       Event.exec (renderCommand 640 480 640 480 "s0.png" "0.mp3"
         "data/cache/en/videos/slide1_video_en.mp4"),
       Event.exec ["ffmpeg", "-i", "s1.png", "-vf", "scale", "-vframes", "1", "-f", "null", "-"],
       Event.exec (renderCommand 640 480 640 480 "s1.png" "1.mp3"
         "data/cache/en/videos/slide2_video_en.mp4"),
       Event.exec (BuildFFmpegConcatCommand ["data/cache/en/videos/slide1_video_en.mp4",
         "data/cache/en/videos/slide2_video_en.mp4"] "data/out/output-en.mp4")] ∧
    (∀ e ∈ (GenerateVideos exampleEncoder ["s0.png", "s1.png"] [("en", ["0.mp3", "1.mp3"])]
        "data" ⟨fun _ => none, []⟩).2.trace,
      e ≠ Event.exec (renderCommand 640 480 640 480 "s0.png" "0.mp3"
        "data/cache/en/videos/slide0_video_en.mp4")) ∧
    outputVideoPath "data/cache/en/videos" "en" 0 = "data/cache/en/videos/slide1_video_en.mp4" := by
  decide

/-- C16: when the number of slides differs from the number of audio paths of a
language, `GenerateVideos` ends in a fatal error; the body of the loop for that
language stops at the shape check without running any command, so the run leaves
exactly the state, commands included, of the run over the languages iterated
before it, and unless the run failed earlier the error is the exit
`Slide and audio count mismatch`. -/
theorem GenerateVideos_shape_mismatch_fatal (enc : Encoder) (slides : List String)
    (pre post : List (String × List String)) (audioLang : String) (audioList : List String)
    (dataDir : String) (w : World) (h : slides.length ≠ audioList.length) :
    (∃ e, (GenerateVideos enc slides (pre ++ (audioLang, audioList) :: post) dataDir w).1 =
      .error e) ∧
    (GenerateVideos enc slides (pre ++ (audioLang, audioList) :: post) dataDir w).2 =
      (GenerateVideos enc slides pre dataDir w).2 ∧
    ((∃ r, (GenerateVideos enc slides pre dataDir w).1 = .ok r) →
      (GenerateVideos enc slides (pre ++ (audioLang, audioList) :: post) dataDir w).1 =
        .error (.exit "Slide and audio count mismatch")) ∧
    (∀ (width height : Int) (w0 : World),
      generateVideosLang enc width height slides (Join [dataDir, "cache"]) dataDir audioLang
        audioList w0 = (.error (.exit "Slide and audio count mismatch"), w0)) := by
  refine ⟨?_, ?_, ?_, fun width height w0 =>
    generateVideosLang_mismatch _ _ _ _ _ _ _ _ _ h⟩
  all_goals
    unfold GenerateVideos
    cases slides with
    | nil => first | exact ⟨_, rfl⟩ | rfl | exact fun ⟨r, hr⟩ => absurd hr (by simp)
    | cons firstSlide rest =>
      simp only
      cases hdim : GetImageDimensions enc firstSlide w with
      | mk d w1 =>
        cases d with
        | error e => first | exact ⟨_, rfl⟩ | rfl | exact fun ⟨r, hr⟩ => absurd hr (by simp)
        | ok wh =>
          obtain ⟨width, height⟩ := wh
          simp only
          obtain ⟨h1, h2, h3⟩ := generateVideosLoop_mismatch enc
            (if width % 2 ≠ 0 then width - 1 else width)
            (if height % 2 ≠ 0 then height - 1 else height) (firstSlide :: rest)
            (Join [dataDir, "cache"]) dataDir pre post audioLang audioList w1 h
          first | exact h1 | exact h2 | exact h3

/-- Witness of C16: two slides, two audio files for `en` and one for `fr`. -/
theorem GenerateVideos_shape_mismatch_fatal_witness :
    ["s0.png", "s1.png"].length ≠ ["0.mp3"].length ∧
    (GenerateVideos exampleEncoder ["s0.png", "s1.png"]
      ([("en", ["0.mp3", "1.mp3"])] ++ ("fr", ["0.mp3"]) :: []) "data" ⟨fun _ => none, []⟩).1 =
      .error (.exit "Slide and audio count mismatch") ∧
    (GenerateVideos exampleEncoder ["s0.png", "s1.png"]
      ([("en", ["0.mp3", "1.mp3"])] ++ ("fr", ["0.mp3"]) :: []) "data" ⟨fun _ => none, []⟩).2 =
      (GenerateVideos exampleEncoder ["s0.png", "s1.png"] [("en", ["0.mp3", "1.mp3"])] "data"
        ⟨fun _ => none, []⟩).2 ∧
    (GenerateVideos exampleEncoder ["s0.png", "s1.png"] [("fr", ["0.mp3"])] "data"
      ⟨fun _ => none, []⟩).2.trace =
      [Event.exec ["ffmpeg", "-i", "s0.png", "-vf", "scale", "-vframes", "1", "-f", "null", "-"]] := by
  have h := GenerateVideos_shape_mismatch_fatal exampleEncoder ["s0.png", "s1.png"]
    [("en", ["0.mp3", "1.mp3"])] [] "fr" ["0.mp3"] "data" ⟨fun _ => none, []⟩ (by decide)
  have hpre : (GenerateVideos exampleEncoder ["s0.png", "s1.png"] [("en", ["0.mp3", "1.mp3"])]
      "data" ⟨fun _ => none, []⟩).1 =
      .ok [("en", ["data/cache/en/videos/slide1_video_en.mp4",
        "data/cache/en/videos/slide2_video_en.mp4"])] := by decide
  exact ⟨by decide, h.2.2.1 ⟨_, hpre⟩, h.2.1, by decide⟩

/-- C17 fails in the code: with a single output language that is not the input
language, a successful `GenerateTexts` leaves that language with a `Text` without
any segment or fingerprint, and no translation was requested, whereas an input
narration file always has at least one segment. -/
theorem GenerateTexts_without_input_language (sha : Sha256) (client : Client) (t : Texts)
    (langOut : String) (w : World) (texts : Texts) (w' : World)
    (hsingle : t.LangsOut = [langOut])
    (hne : t.LangIn ≠ langOut)
    (hrun : t.GenerateTexts sha client w = (.ok texts, w')) :
    (∃ txt, texts.Texts = [some txt] ∧ txt.Lang = langOut ∧
      txt.SlidesText = [] ∧ txt.Hashes = []) ∧
    (∀ content : String,
      0 < ((NewText t.RootDir t.LangIn).loadTextInput sha content).SlidesText.length) ∧
    ∃ evs, w'.trace = w.trace ++ evs ∧ evs.countP isChat = 0 := by
  have hnot : t.LangIn ∉ t.LangsOut := by
    rw [hsingle, List.mem_singleton]
    exact hne
  obtain ⟨inv, _, _, evs, htr, hcount⟩ := GenerateTexts_ok _ _ _ _ _ _ hrun
  have hH : inputHashes sha t w.fs = [] := by
    unfold inputHashes
    cases hidx : t.LangsOut.indexOf? t.LangIn with
    | none => rfl
    | some i =>
      exfalso
      have hfind := List.findIdx?_of_eq_some
        (show t.LangsOut.findIdx? (· == t.LangIn) = some i from hidx)
      cases hget : t.LangsOut[i]? with
      | none => rw [hget] at hfind; simp at hfind
      | some l =>
        rw [hget] at hfind
        simp only [beq_iff_eq] at hfind
        subst hfind
        exact hnot (List.getElem?_mem hget)
  rw [hH] at inv hcount
  refine ⟨?_, ?_, evs, htr, by simpa using hcount⟩
  · have hk : t.LangsOut[0]? = some langOut := by rw [hsingle]; rfl
    obtain ⟨txt, hslot, hl, _, hh, hs⟩ :=
      (inv.2 0 langOut hk).1 (Or.inl ⟨by rw [hsingle]; exact Nat.zero_lt_one, fun e => hne e.symm⟩)
    have hlen : texts.Texts.length = 1 := by rw [inv.1, hsingle]; rfl
    refine ⟨txt, ?_, hl, List.length_eq_zero.1 (by rw [hs]; rfl), hh⟩
    cases hT : texts.Texts with
    | nil => rw [hT] at hlen; exact absurd hlen (by simp)
    | cons x xs =>
      rw [hT] at hlen hslot
      have hxs : xs = [] := List.length_eq_zero.1 (by simpa using hlen)
      subst hxs
      simp only [List.getElem?_cons_zero, Option.some.injEq] at hslot
      rw [hslot]
  · intro content
    rw [(loadTextInput_parse sha t.RootDir t.LangIn content).1, List.length_map]
    unfold parseSegments
    rw [List.length_map, splitSegments_length]
    omega

/-- Witness of the C17 finding: input language `en`, output language `fr`, the
narration `exampleNarration` of three segments, the cached `fr` translation
present. -/
theorem GenerateTexts_without_input_language_witness :
    frOnlyTexts.LangsOut = ["fr"] ∧ frOnlyTexts.LangIn ≠ "fr" ∧
    frOnlyRunTexts.1.toOption.isSome = true ∧
    translatedWorld.fs "data/texts.txt" = some exampleNarration ∧
    ((NewText "" "en").loadTextInput exampleSha exampleNarration).SlidesText.length = 3 ∧
    (frOnlyRunTexts.1.toOption.getD frOnlyTexts).Texts =
      [some { NewText "" "fr" with SlidesText := [], Hashes := [] }] ∧
    frOnlyRunTexts.2.trace =
      [Event.create "data/cache/fr/text/texts.txt", Event.create "data/cache/fr/text/hashes"] ∧
    (∃ txt, (frOnlyRunTexts.1.toOption.getD frOnlyTexts).Texts = [some txt] ∧ txt.Lang = "fr" ∧
      txt.SlidesText = [] ∧ txt.Hashes = []) := by
  have h1 : frOnlyTexts.GenerateTexts exampleSha exampleClient translatedWorld =
      (.ok (frOnlyRunTexts.1.toOption.getD frOnlyTexts), frOnlyRunTexts.2) :=
    Prod.ext (by decide) rfl
  exact ⟨rfl, by decide, by decide, by decide, by decide, by decide, by decide,
    (GenerateTexts_without_input_language exampleSha exampleClient frOnlyTexts "fr"
      translatedWorld _ _ rfl (by decide) h1).1⟩

/-- C18 fails in the code: on the fresh project directory `freshWorld` with input
language `en` and the single output language `fr`, `GenerateTexts` ends in the
fatal exit because the cached `fr` translation cannot be opened; no backend was
called and no sidecar exists, and `GenerateAudios` is never reached.  With the
output languages `en`, `fr` the run ends in the same way.  When the cached
translation is put in place, the run for `fr` alone completes without any
translation or synthesis call and leaves both sidecars empty. -/
theorem fresh_run_never_translates :
    freshWorld.fs "data/texts.txt" = some "A\n-\nB\n-\nC" ∧
    (∀ p, p ≠ "data/texts.txt" → freshWorld.fs p = none) ∧
    (frOnlyTexts.GenerateTexts exampleSha exampleClient freshWorld).1 =
      .error (.exit "Failed to generate text: open data/cache/fr/text/texts.txt") ∧
    (frOnlyTexts.GenerateTexts exampleSha exampleClient freshWorld).2.trace = [] ∧
    (frOnlyTexts.GenerateTexts exampleSha exampleClient freshWorld).2.fs
      "data/cache/fr/text/hashes" = none ∧
    (frOnlyTexts.GenerateTexts exampleSha exampleClient freshWorld).2.fs
      "data/cache/fr/audio/hashes" = none ∧
    (exampleTexts.GenerateTexts exampleSha exampleClient freshWorld).1 =
      .error (.exit "Failed to generate text: open data/cache/fr/text/texts.txt") ∧
    (exampleTexts.GenerateTexts exampleSha exampleClient freshWorld).2.trace = [] ∧
    frOnlyRunTexts.1.toOption.isSome = true ∧
    frOnlyRunAudios.1 = .ok [("fr", [])] ∧
    frOnlyRunAudios.2.trace =
      [Event.create "data/cache/fr/text/texts.txt", Event.create "data/cache/fr/text/hashes",
       Event.create "data/cache/fr/audio/hashes"] ∧
    frOnlyRunAudios.2.trace.countP isChat = 0 ∧
    frOnlyRunAudios.2.trace.countP isSpeech = 0 ∧
    frOnlyRunAudios.2.fs "data/cache/fr/text/hashes" = some "" ∧
    frOnlyRunAudios.2.fs "data/cache/fr/audio/hashes" = some "" := by
  refine ⟨by decide, ?_, by decide, by decide, by decide, by decide, by decide, by decide,
    by decide, by decide, by decide, by decide, by decide, by decide, by decide⟩
  intro p hp
  simp [freshWorld, hp]

/-- C20: for every text whose current fingerprints are digests, in a project
directory without audio sidecar of the language and without the audio file of
ordinal `i`, the run of `GenerateAudios` with the model `GoogleTTS` completes;
its gate decides a miss for ordinal `i`, yet no speech request is sent and no
audio file is produced, and the sidecar it leaves records the current digest of
`i`.  The next run with unchanged text and the model `OpenAITTS` therefore decides
`Reuse` for `i` and returns the path of a file that does not exist, without any
backend call.  The sidecar is written whatever the segment goroutines did: every
completed run, with any model and backend, leaves all current digests in it. -/
theorem sidecar_records_digest_without_artifact (sha : Sha256) (c1 c2 : Client) (texts : Texts)
    (txt : Text) (w : World) (i : Nat) (digest : String)
    (htexts : texts.Texts = [some txt])
    (hdig : ∀ h ∈ txt.Hashes, IsHexDigest h)
    (hcur : txt.Hashes[i]? = some digest)
    (hnoside : w.fs (audioHashesPath txt.DataDir txt.Lang) = none)
    (hnofile : w.fs (audioPath (Join [txt.DataDir, "cache", txt.Lang, "audio"]) i) = none) :
    (∃ w1 : World,
      GenerateAudios sha c1 texts GoogleTTS w =
        (.ok [(txt.Lang, List.replicate txt.Hashes.length "")], w1) ∧
      audioGate (Join [txt.DataDir, "cache", txt.Lang, "audio"]) i digest
          (txt.GenerateCacheHashes w.fs (Join [txt.DataDir, "cache", txt.Lang, "audio"])) =
        Decision.Recompute ∧
      w1.trace = w.trace ++ [Event.create (audioHashesPath txt.DataDir txt.Lang)] ∧
      w1.fs (audioPath (Join [txt.DataDir, "cache", txt.Lang, "audio"]) i) = none ∧
      (txt.GenerateCacheHashes w1.fs (Join [txt.DataDir, "cache", txt.Lang, "audio"]))[i]? =
        some digest ∧
      audioGate (Join [txt.DataDir, "cache", txt.Lang, "audio"]) i digest
          (txt.GenerateCacheHashes w1.fs (Join [txt.DataDir, "cache", txt.Lang, "audio"])) =
        Decision.Reuse (audioPath (Join [txt.DataDir, "cache", txt.Lang, "audio"]) i) ∧
      ∃ (paths : List String) (w2 : World),
        GenerateAudios sha c2 texts OpenAITTS ⟨w1.fs, []⟩ = (.ok [(txt.Lang, paths)], w2) ∧
        paths[i]? = some (audioPath (Join [txt.DataDir, "cache", txt.Lang, "audio"]) i) ∧
        w2.fs (audioPath (Join [txt.DataDir, "cache", txt.Lang, "audio"]) i) = none ∧
        w2.trace = [Event.create (audioHashesPath txt.DataDir txt.Lang)]) ∧
    (∀ (c : Client) (audioModel : Model) (m : List (String × List String)) (w' : World),
      GenerateAudios sha c texts audioModel w = (.ok m, w') →
        w'.fs (audioHashesPath txt.DataDir txt.Lang) = some (audioHashesContent txt.Hashes)) := by
  have hloop : ∀ (c : Client) (audioModel : Model) (w0 : World),
      GenerateAudios sha c texts audioModel w0 =
        match generateAudiosLang sha c audioModel txt w0 with
        | (.error e, w1) => (.error e, w1)
        | (.ok results, w1) => (.ok [(txt.Lang, results)], w1) := by
    intro c audioModel w0
    unfold GenerateAudios
    rw [htexts, generateAudiosLoop]
    cases generateAudiosLang sha c audioModel txt w0 with
    | mk r w1 =>
      cases r with
      | error e => rfl
      | ok results => rfl
  have hi : i < txt.Hashes.length := by
    by_contra hc
    rw [List.getElem?_eq_none (by omega)] at hcur
    exact absurd hcur (by simp)
  have hdigest : IsHexDigest digest := hdig digest (List.getElem?_mem hcur)
  have hcache : txt.GenerateCacheHashes w.fs (Join [txt.DataDir, "cache", txt.Lang, "audio"]) =
      List.replicate txt.SlidesText.length "" := by
    unfold Text.GenerateCacheHashes
    unfold audioHashesPath at hnoside
    rw [hnoside]
  have hgate1 : audioGate (Join [txt.DataDir, "cache", txt.Lang, "audio"]) i digest
      (txt.GenerateCacheHashes w.fs (Join [txt.DataDir, "cache", txt.Lang, "audio"])) =
      Decision.Recompute := by
    unfold audioGate
    rw [hcache, cachedHashAt_replicate, if_neg hdigest.ne_empty]
  have hrun1 : generateAudiosLang sha c1 GoogleTTS txt w =
      (.ok (List.replicate txt.Hashes.length ""),
        { fs := fun p => if p = audioHashesPath txt.DataDir txt.Lang then
            some (audioHashesContent txt.Hashes) else w.fs p,
          trace := w.trace ++ [Event.create (audioHashesPath txt.DataDir txt.Lang)] }) := by
    unfold generateAudiosLang
    simp only
    rw [hcache, audioWorkers_google_all_miss]
    · simp only [World.writeFile, audioHashesPath]
      congr 2
      funext p
      by_cases hp : p = Join [Join [txt.DataDir, "cache", txt.Lang, "audio"], "hashes"]
      · simp [hp]
      · simp [hp]
    · intro k hk hget
      rw [cachedHashAt_replicate] at hget
      exact (hdig "" (List.getElem?_mem hget)).ne_empty rfl
  have hside1 : (fun p => if p = audioHashesPath txt.DataDir txt.Lang then
      some (audioHashesContent txt.Hashes) else w.fs p)
        (Join [Join [txt.DataDir, "cache", txt.Lang, "audio"], "hashes"]) =
      some (audioHashesContent txt.Hashes) := by
    simp [audioHashesPath]
  have hcache1 : txt.GenerateCacheHashes
      (fun p => if p = audioHashesPath txt.DataDir txt.Lang then
        some (audioHashesContent txt.Hashes) else w.fs p)
      (Join [txt.DataDir, "cache", txt.Lang, "audio"]) = txt.Hashes := by
    unfold Text.GenerateCacheHashes
    rw [hside1]
    exact scanLines_audioHashesContent _ (fun h hh => (hdig h hh).cleanLine)
  have hne : audioPath (Join [txt.DataDir, "cache", txt.Lang, "audio"]) i ≠
      audioHashesPath txt.DataDir txt.Lang := audioPath_ne_any_hashes _ _ _
  have hfile1 : (fun p => if p = audioHashesPath txt.DataDir txt.Lang then
      some (audioHashesContent txt.Hashes) else w.fs p)
        (audioPath (Join [txt.DataDir, "cache", txt.Lang, "audio"]) i) = none := by
    simp only [if_neg hne]
    exact hnofile
  have hrun2 := generateAudiosLang_all_hits sha c2 OpenAITTS txt
    ⟨fun p => if p = audioHashesPath txt.DataDir txt.Lang then
      some (audioHashesContent txt.Hashes) else w.fs p, []⟩ hcache1
  have hsecond : ∃ (paths : List String) (w2 : World),
      GenerateAudios sha c2 texts OpenAITTS
        ⟨fun p => if p = audioHashesPath txt.DataDir txt.Lang then
          some (audioHashesContent txt.Hashes) else w.fs p, []⟩ = (.ok [(txt.Lang, paths)], w2) ∧
      paths[i]? = some (audioPath (Join [txt.DataDir, "cache", txt.Lang, "audio"]) i) ∧
      w2.fs (audioPath (Join [txt.DataDir, "cache", txt.Lang, "audio"]) i) = none ∧
      w2.trace = [Event.create (audioHashesPath txt.DataDir txt.Lang)] := by
    refine ⟨(List.range txt.Hashes.length).map fun k =>
        audioPath (Join [txt.DataDir, "cache", txt.Lang, "audio"]) (0 + k),
      ⟨fun p => if p = audioHashesPath txt.DataDir txt.Lang then
          some (audioHashesContent txt.Hashes)
        else (if p = audioHashesPath txt.DataDir txt.Lang then
          some (audioHashesContent txt.Hashes) else w.fs p),
        [] ++ [Event.create (audioHashesPath txt.DataDir txt.Lang)]⟩, ?_, ?_, ?_, rfl⟩
    · rw [hloop, hrun2]
    · rw [List.getElem?_map, List.getElem?_range hi]
      simp
    · simp only [if_neg hne]
      exact hnofile
  refine ⟨⟨⟨fun p => if p = audioHashesPath txt.DataDir txt.Lang then
      some (audioHashesContent txt.Hashes) else w.fs p,
      w.trace ++ [Event.create (audioHashesPath txt.DataDir txt.Lang)]⟩,
    ?_, hgate1, rfl, hfile1, ?_, ?_, hsecond⟩, ?_⟩
  · rw [hloop, hrun1]
  · show (txt.GenerateCacheHashes (fun p => if p = audioHashesPath txt.DataDir txt.Lang then
        some (audioHashesContent txt.Hashes) else w.fs p)
      (Join [txt.DataDir, "cache", txt.Lang, "audio"]))[i]? = some digest
    rw [hcache1]
    exact hcur
  · show audioGate _ i digest (txt.GenerateCacheHashes
      (fun p => if p = audioHashesPath txt.DataDir txt.Lang then
        some (audioHashesContent txt.Hashes) else w.fs p)
      (Join [txt.DataDir, "cache", txt.Lang, "audio"])) = _
    rw [hcache1]
    unfold audioGate
    rw [if_pos]
    have := getElem?_eq_some_cachedHashAt txt.Hashes i hi
    rw [hcur] at this
    exact Option.some.inj this
  · intro c audioModel m w' hrun
    rw [hloop] at hrun
    cases hl : generateAudiosLang sha c audioModel txt w with
    | mk r wl =>
      rw [hl] at hrun
      cases r with
      | error e => exact absurd hrun (by simp)
      | ok results =>
        simp only [Prod.mk.injEq] at hrun
        rw [← hrun.2]
        exact (generateAudiosLang_sidecar _ _ _ _ _ _ _ hl).1

/-- Witness of C20: the narration `A`, `B`, `C` in an empty project directory,
ordinal 0. -/
theorem sidecar_records_digest_without_artifact_witness :
    enOnlyTexts.Texts = [some exampleText] ∧
    (∀ h ∈ exampleText.Hashes, IsHexDigest h) ∧
    exampleText.Hashes[0]? = some ((NewSlideText "A\n").Hash exampleSha) ∧
    googleRunAudios.1 = .ok [("en", ["", "", ""])] ∧
    googleRunAudios.2.trace = [Event.create "data/cache/en/audio/hashes"] ∧
    googleRunAudios.2.fs "data/cache/en/audio/0.mp3" = none ∧
    (GenerateAudios exampleSha exampleClient enOnlyTexts OpenAITTS ⟨googleRunAudios.2.fs, []⟩).1 =
      .ok [("en", ["data/cache/en/audio/0.mp3", "data/cache/en/audio/1.mp3",
        "data/cache/en/audio/2.mp3"])] ∧
    (GenerateAudios exampleSha exampleClient enOnlyTexts OpenAITTS
      ⟨googleRunAudios.2.fs, []⟩).2.trace = [Event.create "data/cache/en/audio/hashes"] ∧
    ∃ w1 : World,
      GenerateAudios exampleSha exampleClient enOnlyTexts GoogleTTS ⟨fun _ => none, []⟩ =
        (.ok [(exampleText.Lang, List.replicate exampleText.Hashes.length "")], w1) ∧
      (exampleText.GenerateCacheHashes w1.fs
        (Join [exampleText.DataDir, "cache", exampleText.Lang, "audio"]))[0]? =
        some ((NewSlideText "A\n").Hash exampleSha) ∧
      w1.fs (audioPath (Join [exampleText.DataDir, "cache", exampleText.Lang, "audio"]) 0) =
        none := by
  have h := (sidecar_records_digest_without_artifact exampleSha exampleClient exampleClient
    enOnlyTexts exampleText ⟨fun _ => none, []⟩ 0 ((NewSlideText "A\n").Hash exampleSha) rfl
    (by decide) (by decide) rfl rfl).1
  obtain ⟨w1, h1, _, _, h4, h5, _⟩ := h
  exact ⟨rfl, by decide, by decide, by decide, by decide, by decide, by decide, by decide,
    w1, h1, h5, h4⟩

/-- C19: under every schedule of the goroutines of `GenerateAudios` (one per entry
of `texts.Texts`, inside it one per current hash) and of `GenerateTexts` (one per
output language other than the input language, inside it one per segment to
translate), the result of a language is stored only when all segment goroutines
of that language have returned, and the function returns only when every
language goroutine has stored its result and returned. -/
theorem stage_returns_after_join (texts t : Texts) (inputText : Text) :
    (∀ (schedule : List Action) (s : GoState),
      runSchedule (audioFanOut texts) schedule initialState = some s →
        JoinedState (audioFanOut texts) s) ∧
    (∀ (schedule : List Action) (s : GoState),
      runSchedule (textFanOut t inputText) schedule initialState = some s →
        JoinedState (textFanOut t inputText) s) := by
  have key : ∀ (cfg : List Nat) (schedule : List Action) (s : GoState),
      runSchedule cfg schedule initialState = some s → JoinedState cfg s := by
    intro cfg schedule s hrun
    obtain ⟨hmap, hall, _, hmain⟩ :=
      runSchedule_inv cfg schedule initialState s (stageInv_initial cfg) hrun
    have hn : ∀ (l : Nat) (ls : LangWorker), s.langs[l]? = some ls → cfg[l]? = some ls.n := by
      intro l ls hl
      have hlt : l < s.langs.length := by
        by_contra hc
        rw [List.getElem?_eq_none (by omega)] at hl
        exact absurd hl (by simp)
      have h1 : (s.langs.map fun x => x.n)[l]? = some ls.n := by
        rw [List.getElem?_map, hl]
        rfl
      rw [hmap, List.getElem?_take_of_lt hlt] at h1
      exact h1
    refine ⟨?_, ?_⟩
    · intro l ls hl hpc
      refine ⟨hn l ls hl, ?_⟩
      have hinv := hall ls (List.getElem?_mem hl)
      unfold LangInv at hinv
      rcases hpc with hpc | hpc
      · rw [hpc] at hinv
        exact hinv.2
      · rw [hpc] at hinv
        exact hinv.2
    · intro hret
      rw [hret] at hmain
      refine ⟨hmain.1, ?_⟩
      intro l n hl
      have hlt : l < s.langs.length := by
        rw [hmain.1]
        by_contra hc
        rw [List.getElem?_eq_none (by omega)] at hl
        exact absurd hl (by simp)
      have hget : s.langs[l]? = some s.langs[l] := List.getElem?_eq_getElem hlt
      have hdone := hmain.2 _ (List.getElem?_mem hget)
      have hinv := hall _ (List.getElem?_mem hget)
      unfold LangInv at hinv
      rw [hdone] at hinv
      have hnn := hn l _ hget
      rw [hl] at hnn
      refine ⟨_, hget, hdone, ?_⟩
      rw [Option.some.inj hnn]
      exact hinv.2
  exact ⟨key _, key _⟩

/-- Witness of C19: the two languages of the example run with three segments each
under `exampleSchedule`, which ends with the return of `GenerateAudios`; the
function body cannot pass its `Wait()` one step earlier, and a language goroutine
cannot pass its `wg.Wait()` while one of its segment goroutines runs. -/
theorem stage_returns_after_join_witness :
    audioFanOut (firstRunTexts.1.toOption.getD exampleTexts) = [3, 3] ∧
    textFanOut exampleTexts exampleText = [3] ∧
    runSchedule [3, 3] exampleSchedule initialState =
      some { main := MainPc.returned, wgTop := 0,
             langs := [{ pc := LangPc.done, wg := 0, segs := List.replicate 3 SegPc.done, n := 3 },
                       { pc := LangPc.done, wg := 0, segs := List.replicate 3 SegPc.done, n := 3 }],
             exited := false } ∧
    runSchedule [3, 3] (exampleSchedule.take 30 ++ [Action.main]) initialState = none ∧
    runSchedule [3, 3] (exampleSchedule.take 24 ++ [Action.lang 1]) initialState = none ∧
    JoinedState (audioFanOut (firstRunTexts.1.toOption.getD exampleTexts))
      { main := MainPc.returned, wgTop := 0,
        langs := [{ pc := LangPc.done, wg := 0, segs := List.replicate 3 SegPc.done, n := 3 },
                  { pc := LangPc.done, wg := 0, segs := List.replicate 3 SegPc.done, n := 3 }],
        exited := false } := by
  have hcfg : audioFanOut (firstRunTexts.1.toOption.getD exampleTexts) = [3, 3] := by decide
  have hrun : runSchedule [3, 3] exampleSchedule initialState =
      some { main := MainPc.returned, wgTop := 0,
             langs := [{ pc := LangPc.done, wg := 0, segs := List.replicate 3 SegPc.done, n := 3 },
                       { pc := LangPc.done, wg := 0, segs := List.replicate 3 SegPc.done, n := 3 }],
             exited := false } := by decide
  refine ⟨hcfg, by decide, hrun, by decide, by decide, ?_⟩
  exact (stage_returns_after_join (firstRunTexts.1.toOption.getD exampleTexts) exampleTexts
    exampleText).1 exampleSchedule _ (by rw [hcfg]; exact hrun)

/-- C21: for every list of `n` video files and every output path, the command of
`BuildFFmpegConcatCommand` is the program `ffmpeg` with exactly `2n + 8`
arguments: `-y`, then `-i` and the file for each input in order, then
`-filter_complex` with the stream pairs `[k:v][k:a]` for `k = 0..n-1` in
increasing order followed by `concat=n=<n>:v=1:a=1[outv][outa]`, then
`-map [outv] -map [outa]` and the output path last; the `n` of the filter is the
number of `-i` inputs. -/
theorem BuildFFmpegConcatCommand_arguments (videoFiles : List String) (finalOutput : String) :
    BuildFFmpegConcatCommand videoFiles finalOutput =
      "ffmpeg" :: concatArguments videoFiles finalOutput ∧
    (concatArguments videoFiles finalOutput).length = 2 * videoFiles.length + 8 ∧
    (concatArguments videoFiles finalOutput)[0]? = some "-y" ∧
    (∀ k : Nat, k < videoFiles.length →
      (concatArguments videoFiles finalOutput)[1 + 2 * k]? = some "-i" ∧
      (concatArguments videoFiles finalOutput)[2 + 2 * k]? = videoFiles[k]?) ∧
    (concatArguments videoFiles finalOutput).drop (1 + 2 * videoFiles.length) =
      ["-filter_complex",
        String.join ((List.range videoFiles.length).map streamPair) ++
          ("concat=n=" ++ toString videoFiles.length ++ ":v=1:a=1[outv][outa]"),
        "-map", "[outv]", "-map", "[outa]", finalOutput] ∧
    (concatArguments videoFiles finalOutput).getLast? = some finalOutput := by
  have hcmd : BuildFFmpegConcatCommand videoFiles finalOutput =
      "ffmpeg" :: concatArguments videoFiles finalOutput := by
    unfold BuildFFmpegConcatCommand concatArguments
    simp only [concatInputs_eq_flatMap, concatStreams_eq_join, List.range_eq_range',
      List.append_assoc, List.cons_append, List.nil_append]
  have hlen := concatInputs_length videoFiles
  have hform : concatArguments videoFiles finalOutput =
      "-y" :: (concatInputs videoFiles ++
        ["-filter_complex",
          String.join ((List.range videoFiles.length).map streamPair) ++
            ("concat=n=" ++ toString videoFiles.length ++ ":v=1:a=1[outv][outa]"),
          "-map", "[outv]", "-map", "[outa]", finalOutput]) := by
    unfold concatArguments
    rw [concatInputs_eq_flatMap]
    simp only [List.append_assoc, List.cons_append, List.nil_append]
  refine ⟨hcmd, ?_, ?_, ?_, ?_, ?_⟩
  · rw [hform, List.length_cons, List.length_append, hlen]
    simp only [List.length_cons, List.length_nil]
  · rw [hform, List.getElem?_cons_zero]
  · intro k hk
    obtain ⟨h1, h2⟩ := concatInputs_getElem? videoFiles k
    have e1 : 1 + 2 * k = 2 * k + 1 := by omega
    have e2 : 2 + 2 * k = (2 * k + 1) + 1 := by omega
    rw [hform]
    constructor
    · rw [e1, List.getElem?_cons_succ, List.getElem?_append_left (by rw [hlen]; omega), h1,
        if_pos hk]
    · rw [e2, List.getElem?_cons_succ, List.getElem?_append_left (by rw [hlen]; omega), h2]
  · rw [hform]
    have e : 1 + 2 * videoFiles.length = (concatInputs videoFiles).length + 1 := by
      rw [hlen]; omega
    rw [e, List.drop_succ_cons, List.drop_left]
  · rw [hform, List.getLast?_cons, List.getLast?_append]
    rfl

/-- C22: the digest computed inside `GenerateAudioOpenAI` equals `SlideText.Hash()`
of the same text, for every text.  Consequently, for the input language as
`loadTextInput` leaves it: when the segment goroutine of `GenerateAudios` decides a
miss at ordinal `j`, the inner comparison of `GenerateAudioOpenAI` does not hold
either, and the speech backend is called with the text of segment `j`. -/
theorem fingerprints_agree (sha : Sha256) (client : Client) (rootDir lang textFile : String)
    (audioDir : String) (cachedHashes : List String) (j : Nat) (currentHash : String)
    (slide : SlideText) (w : World)
    (hcur : ((NewText rootDir lang).loadTextInput sha textFile).Hashes[j]? = some currentHash)
    (hslide : ((NewText rootDir lang).loadTextInput sha textFile).SlidesText[j]? = some slide)
    (hmiss : audioGate audioDir j currentHash cachedHashes = Decision.Recompute) :
    (∀ text : String, SprintfHex (sha text).bytes = (NewSlideText text).Hash sha) ∧
    SprintfHex (sha slide.Text).bytes = currentHash ∧
    SprintfHex (sha slide.Text).bytes ≠ cachedHashAt cachedHashes j ∧
    (GenerateAudioOpenAI sha client slide.Text (audioPath audioDir j)
        (cachedHashAt cachedHashes j) w).2.trace =
      w.trace ++ Event.speech slide.Text ::
        (match client.speech slide.Text with
          | .ok _ => [Event.create (audioPath audioDir j)]
          | .error _ => []) ∧
    (audioSegment sha client OpenAITTS ((NewText rootDir lang).loadTextInput sha textFile)
        audioDir cachedHashes j currentHash w).2.trace =
      w.trace ++ Event.speech slide.Text ::
        (match client.speech slide.Text with
          | .ok _ => [Event.create (audioPath audioDir j)]
          | .error _ => []) := by
  have hagree : ∀ text : String, SprintfHex (sha text).bytes = (NewSlideText text).Hash sha :=
    fun text => SprintfHex_eq_EncodeToString _
  have hown : currentHash = slide.Hash sha := by
    have h2 := (loadTextInput_parse sha rootDir lang textFile).2
    rw [h2, List.getElem?_map, hslide] at hcur
    exact (Option.some.inj hcur).symm
  have hne : currentHash ≠ cachedHashAt cachedHashes j := by
    intro e
    unfold audioGate at hmiss
    rw [if_pos e] at hmiss
    exact absurd hmiss (by simp)
  have hinner : SprintfHex (sha slide.Text).bytes = currentHash := by
    rw [hown]
    exact hagree slide.Text
  have hinner2 : SprintfHex (sha slide.Text).bytes ≠ cachedHashAt cachedHashes j := by
    rw [hinner]
    exact hne
  have hgen : (GenerateAudioOpenAI sha client slide.Text (audioPath audioDir j)
        (cachedHashAt cachedHashes j) w).2.trace =
      w.trace ++ Event.speech slide.Text ::
        (match client.speech slide.Text with
          | .ok _ => [Event.create (audioPath audioDir j)]
          | .error _ => []) := by
    unfold GenerateAudioOpenAI
    simp only [hinner2, if_false]
    cases client.speech slide.Text with
    | error e => simp [World.log]
    | ok body => simp [World.log, World.writeFile]
  refine ⟨hagree, hinner, hinner2, hgen, ?_⟩
  rw [← hgen]
  unfold audioSegment
  rw [hmiss]
  simp only [if_true, hslide]
  cases GenerateAudioOpenAI sha client slide.Text (audioPath audioDir j)
      (cachedHashAt cachedHashes j) w with
  | mk r w1 => cases r <;> rfl

/-- Witness of C22: ordinal 1 of the example narration, with nothing stored. -/
theorem fingerprints_agree_witness :
    exampleText.Hashes[1]? = some ((NewSlideText "B\n").Hash exampleSha) ∧
    exampleText.SlidesText[1]? = some (NewSlideText "B\n") ∧
    audioGate "data/cache/en/audio" 1 ((NewSlideText "B\n").Hash exampleSha) [] =
      Decision.Recompute ∧
    SprintfHex (exampleSha "B\n").bytes = (NewSlideText "B\n").Hash exampleSha ∧
    (audioSegment exampleSha exampleClient OpenAITTS exampleText "data/cache/en/audio" [] 1
        ((NewSlideText "B\n").Hash exampleSha) ⟨fun _ => none, []⟩).2.trace =
      [Event.speech "B\n", Event.create "data/cache/en/audio/1.mp3"] := by
  have h := fingerprints_agree exampleSha exampleClient "" "en" exampleNarration
    "data/cache/en/audio" [] 1 ((NewSlideText "B\n").Hash exampleSha) (NewSlideText "B\n")
    ⟨fun _ => none, []⟩ (by decide) (by decide) (by decide)
  exact ⟨by decide, by decide, by decide, h.2.1, by decide⟩

/-- C23: `extractSpeakerNotes` returns the empty string when the slide has no slide
properties or no notes page; otherwise, the slices of the notes page holding no
`nil` pointer, it returns the concatenation, in page-element order and then
text-element order, of the `Content` of every text run of the notes page, page
elements without a shape or shape text and text elements without a text run
being skipped. -/
theorem extractSpeakerNotes_concatenates (slide : Page) :
    (slide.SlideProperties = none → extractSpeakerNotes slide = .ok "") ∧
    (∀ slideProperties : SlideProperties, slide.SlideProperties = some slideProperties →
      slideProperties.NotesPage = none → extractSpeakerNotes slide = .ok "") ∧
    (∀ (slideProperties : SlideProperties) (notesPage : NotesPage),
      slide.SlideProperties = some slideProperties →
      slideProperties.NotesPage = some notesPage → NoNilEntry notesPage →
        extractSpeakerNotes slide = .ok (String.join (textRunContents notesPage))) := by
  refine ⟨?_, ?_, ?_⟩
  · intro h
    unfold extractSpeakerNotes
    rw [h]
  · intro slideProperties h1 h2
    unfold extractSpeakerNotes
    rw [h1]
    simp only [h2]
  · intro slideProperties notesPage h1 h2 hnil
    unfold extractSpeakerNotes
    rw [h1]
    simp only [h2]
    rw [pageElementsLoop_ok _ _ hnil.1 hnil.2, string_empty_append]
    rfl

/-- Witness of C23: the notes of `exampleSlide` are `Hello world!`; a slide without
slide properties and a slide without notes page give the empty string. -/
theorem extractSpeakerNotes_concatenates_witness :
    (∃ slideProperties notesPage, exampleSlide.SlideProperties = some slideProperties ∧
      slideProperties.NotesPage = some notesPage ∧ NoNilEntry notesPage ∧
      textRunContents notesPage = ["Hello ", "world", "!"] ∧
      extractSpeakerNotes exampleSlide = .ok (String.join (textRunContents notesPage))) ∧
    extractSpeakerNotes exampleSlide = .ok "Hello world!" ∧
    extractSpeakerNotes { SlideProperties := none } = .ok "" ∧
    extractSpeakerNotes { SlideProperties := some { NotesPage := none } } = .ok "" ∧
    extractSpeakerNotes { SlideProperties := some { NotesPage := some { PageElements :=
      [some { Shape := none }, none] } } } = .error (.panic "nil pointer dereference") := by
  have hnil : NoNilEntry ((exampleSlide.SlideProperties.bind fun p => p.NotesPage).getD ⟨[]⟩) := by
    constructor
    · decide
    · intro pageElement shape text hmem hs ht textElement hte
      have hm : pageElement ∈ [(⟨none⟩ : PageElement), ⟨some ⟨none⟩⟩,
          ⟨some ⟨some ⟨[some ⟨some ⟨"Hello "⟩⟩, some ⟨none⟩, some ⟨some ⟨"world"⟩⟩]⟩⟩⟩,
          ⟨some ⟨some ⟨[some ⟨some ⟨"!"⟩⟩]⟩⟩⟩] := by
        simpa [exampleSlide] using hmem
      simp only [List.mem_cons, List.mem_singleton, List.not_mem_nil, or_false] at hm
      rcases hm with rfl | rfl | rfl | rfl
      · simp at hs
      · simp only [Option.some.injEq] at hs
        subst hs
        simp at ht
      · simp only [Option.some.injEq] at hs
        subst hs
        simp only [Option.some.injEq] at ht
        subst ht
        intro e
        subst e
        simp at hte
      · simp only [Option.some.injEq] at hs
        subst hs
        simp only [Option.some.injEq] at ht
        subst ht
        intro e
        subst e
        simp at hte
  refine ⟨⟨_, _, rfl, rfl, hnil, by decide,
    (extractSpeakerNotes_concatenates exampleSlide).2.2 _ _ rfl rfl hnil⟩,
    by decide, by decide, by decide, by decide⟩

end GoCreator
